import Mathlib

/-!
D-core decomposition (libgrape-lite, `examples/analytical_apps/dcore`)

A shallow embedding of the two vertex programs of the directory:

* `DcoreOptimized` (`dcoreoptimized.h`, `dcore_optimized_context.h`): the skyline
  based (k,l)-core refinement, with the dominance query `BiSearch`, the
  recomputation `NoVerify`, the seeding `PEval` with its attribute decoding, the
  round `IncEval` (merge callback, recomputation loop, commit loop) and the
  encoding of `Output`;
* `GetInCoreness` (`get_incoreness.h`): the in-coreness refinement by repeated
  h-index computation (`HIndex`, `PEval`, `IncEval`).

Conventions of the embedding.

* A C++ `int` is a Lean `Int`.  The only arithmetic the programs perform on
  `int` values is index and counter arithmetic bounded by a container size or
  by a stored skyline entry, all of which are assumed to fit a 32 bit `int`;
  where the width is observable (`std::stoi`, the counter `k` of `NoVerify`,
  which runs up to a stored entry inclusive) the range is checked explicitly.
* A `std::vector<int>` is a `List Int`.  Every `operator[]` goes through `vecAt`,
  which reports an index outside `[0, size)` as `Fault.outOfBounds` (in C++ the
  `int` index is converted to `size_t`, so a negative index is out of bounds as
  well).
* A vertex is a `Nat`; a `vertex_array_t<T>` is a function `Nat → T`.
* A `while` loop is a recursion on a fuel argument; running out of fuel is the
  separate fault `Fault.outOfFuel`, so that a result `ok` always is a result of
  the loop itself.  A counted `for` loop whose counter the body does not touch is
  a recursion on the number of iterations left, a range `for` a recursion on
  the list.
* Strings are lists of characters.  The library calls `std::stoi`,
  `std::sregex_token_iterator` and `operator<<` are modelled after the C++
  standard (`stoi`, `tokens`, `showInt`).
* The messages a round hands to the message manager are returned as a list;
  the delivery between fragments is not part of the embedding.
-/

namespace Grape

/-- The ways in which a run of the embedded code can go wrong. -/
inductive Fault where
  /-- an `operator[]` with an index outside `[0, size)` -/
  | outOfBounds
  /-- the fuel of a `while` loop was used up before the loop condition failed -/
  | outOfFuel
  /-- `std::invalid_argument`, thrown by `std::stoi` when no conversion is possible -/
  | invalidArgument
  /-- `std::out_of_range`, thrown by `std::stoi` when the value does not fit an `int` -/
  | outOfRange
  /-- an `int` counter is incremented at `INT_MAX` (undefined behaviour; the loop
  it controls does not end with a result) -/
  | signedOverflow
  deriving DecidableEq, Repr

/-- The outcome of running a piece of embedded code: a value or a fault. -/
inductive Outcome (α : Type) where
  | ok (a : α)
  | fault (f : Fault)
  deriving DecidableEq, Repr

/-- The element access `v[i]` of a `std::vector<int>` with an `int` index. -/
def vecAt (v : List Int) (i : Int) : Outcome Int :=
  if i < 0 then .fault .outOfBounds
  else
    match v[i.toNat]? with
    | some x => .ok x
    | none => .fault .outOfBounds

/-- The element update `v[i] = x` of a `std::vector<int>` with an `int` index. -/
def vecSet (v : List Int) (i : Int) (x : Int) : Outcome (List Int) :=
  if i < 0 then .fault .outOfBounds
  else if i.toNat < v.length then .ok (v.set i.toNat x)
  else .fault .outOfBounds

/-- The part of a grape fragment the two vertex programs use: the inner
vertices in iteration order, and for every vertex the neighbours of its
incoming and outgoing adjacency lists (one entry per edge, in list order). -/
structure Fragment where
  /-- the vertices of `InnerVertices()` -/
  innerVertices : List Nat
  /-- the neighbours `e.get_neighbor()` of `GetIncomingAdjList(v)` -/
  incoming : Nat → List Nat
  /-- the neighbours `e.get_neighbor()` of `GetOutgoingAdjList(v)` -/
  outgoing : Nat → List Nat
  /-- the attribute string `GetData(v)` -/
  data : Nat → List Char

/-- Modelled from the spec: `GetLocalInDegree` of the fragment class, which is
not part of the sources at hand ("seed coreness from local in-degree"): the
number of entries of the incoming adjacency list of `v`. -/
def Fragment.GetLocalInDegree (frag : Fragment) (v : Nat) : Int :=
  ((frag.incoming v).length : Int)

namespace DcoreOptimized

/-- The `while (len > 0)` loop of `BiSearch` (a lower bound search on the `k`
entries, which sit at the even positions).  Returns the final value of `first`. -/
def BiSearch.loop (NeighborSkyline : List Int) (k : Int) : Nat → Int → Int → Outcome Int
  | 0, first, len => if len > 0 then .fault .outOfFuel else .ok first
  | fuel + 1, first, len =>
    if len > 0 then
      let half := len / 2
      let middle := first + half
      match vecAt NeighborSkyline (2 * middle) with
      | .fault f => .fault f
      | .ok x =>
        if x ≥ k then BiSearch.loop NeighborSkyline k fuel first half
        else BiSearch.loop NeighborSkyline k fuel (middle + 1) (len - half - 1)
    else .ok first

/-- The dominance query `BiSearch(NeighborSkyline, k, l)` of `dcoreoptimized.h`.
The loop halves `len` in every iteration, so `size / 2` iterations of fuel are
more than it can use. -/
def BiSearch (NeighborSkyline : List Int) (k l : Int) : Outcome Bool :=
  let len : Int := ((NeighborSkyline.length / 2 : Nat) : Int)
  match vecAt NeighborSkyline (len * 2 - 2) with
  | .fault f => .fault f
  | .ok last =>
    if last < k then .ok false
    else
      match BiSearch.loop NeighborSkyline k (NeighborSkyline.length / 2) 0 len with
      | .fault f => .fault f
      | .ok first =>
        match vecAt NeighborSkyline (2 * first + 1) with
        | .fault f => .fault f
        | .ok x => .ok (decide (x ≥ l))

/-- The pairs `(k0,l0), (k1,l1), ...` of a skyline stored flat as
`[k0, l0, k1, l1, ...]`. -/
def pairs : List Int → List (Int × Int)
  | k :: l :: rest => (k, l) :: pairs rest
  | _ => []

/-- The flat storage `[k0, l0, k1, l1, ...]` of a sequence of pairs. -/
def unpairs : List (Int × Int) → List Int
  | [] => []
  | p :: rest => p.1 :: p.2 :: unpairs rest

/-- A skyline is well formed when it is a flat sequence of pairs whose `k`
values are strictly ascending and whose `l` values are strictly descending. -/
def WellFormed (S : List Int) : Prop :=
  S.length % 2 = 0 ∧
  ((pairs S).map Prod.fst).Pairwise (· < ·) ∧
  ((pairs S).map Prod.snd).Pairwise (· > ·)

instance (S : List Int) : Decidable (WellFormed S) := by
  unfold WellFormed; infer_instance

/-- The brute-force dominance test: a linear scan for a pair that is
component-wise at least `(k, l)`. -/
def dominatesScan (S : List Int) (k l : Int) : Bool :=
  (pairs S).any (fun p => decide (p.1 ≥ k) && decide (p.2 ≥ l))

/-- The fields of `DCoreOptimizedContext` the program uses: the committed
skylines `partial_result` and the staged skylines `cache_result`. -/
structure DCoreOptimizedContext where
  partial_result : Nat → List Int
  cache_result : Nat → List Int

/-- One neighbour counting loop of `NoVerify`
(`for (auto& e : es) { if (BiSearch(...)) c++; if (c >= bound) break; }`),
started with the counter at `c`; `bound` is `k` for the incoming list and `l`
for the outgoing list. -/
def NoVerify.count (partial_result : Nat → List Int) (k l bound : Int) :
    List Nat → Int → Outcome Int
  | [], c => .ok c
  | u :: es, c =>
    match BiSearch (partial_result u) k l with
    | .fault f => .fault f
    | .ok b =>
      let c' := if b then c + 1 else c
      if c' ≥ bound then .ok c' else NoVerify.count partial_result k l bound es c'

/-- The body of `if (in >= k && out >= l) { ... }` in `NoVerify`: the pair
`(k, l)` is appended to `result` and `OutMax` set to `l`, unless the last
recorded `l` is this `l`, in which case the `k` of the last pair is overwritten.
Both branches end in `break`. -/
def NoVerify.record (k l : Int) (result : List Int) (OutMax : Int) :
    Outcome (List Int × Int) :=
  let VecSize : Int := (result.length : Int)
  if VecSize = 0 then .ok (result ++ [k, l], l)
  else
    match vecAt result (VecSize - 1) with
    | .fault f => .fault f
    | .ok last =>
      if l ≠ last then .ok (result ++ [k, l], l)
      else
        match vecSet result (VecSize - 2) k with
        | .fault f => .fault f
        | .ok result' => .ok (result', OutMax)

/-- The inner loop `for (int l = OutMax; l >= 0; l--)` of `NoVerify` for a fixed
`k`.  The argument `n` is the number of iterations left, the current `l` being
`n - 1`; the loop is entered with `n = OutMax + 1`.  Returns `result` and
`OutMax` as they are when the loop is left. -/
def NoVerify.scan (frag : Fragment) (ctx : DCoreOptimizedContext) (v : Nat) (k : Int)
    (result : List Int) (OutMax : Int) : Nat → Outcome (List Int × Int)
  | 0 => .ok (result, OutMax)
  | n + 1 =>
    let l : Int := (n : Int)
    match NoVerify.count ctx.partial_result k l k (frag.incoming v) 0 with
    | .fault f => .fault f
    | .ok inc =>
      match NoVerify.count ctx.partial_result k l l (frag.outgoing v) 0 with
      | .fault f => .fault f
      | .ok out =>
        if inc ≥ k ∧ out ≥ l then NoVerify.record k l result OutMax
        else NoVerify.scan frag ctx v k result OutMax n

/-- The outer loop `for (int k = 0; k <= InMax; k++)` of `NoVerify`.  The first
argument is the number of iterations left (`InMax + 1` at the start), the second
the current `k`. -/
def NoVerify.loop (frag : Fragment) (ctx : DCoreOptimizedContext) (v : Nat) :
    Nat → Int → List Int → Int → Outcome (List Int)
  | 0, _, result, _ => .ok result
  | n + 1, k, result, OutMax =>
    match NoVerify.scan frag ctx v k result OutMax (OutMax + 1).toNat with
    | .fault f => .fault f
    | .ok (result', OutMax') => NoVerify.loop frag ctx v n (k + 1) result' OutMax'

/-- The skyline `result` that `NoVerify` builds for `v` from the committed
skylines.  The counter of `for (int k = 0; k <= InMax; k++)` is an `int`: when
`InMax` is `INT_MAX` the condition `k <= InMax` holds for every `k`, so after
the `2^31` iterations for `k = 0, ..., INT_MAX` the increment `k++` overflows
and the loop does not end with a result.  For a smaller `InMax` the loop runs
`InMax + 1` times and `k` stays below `INT_MAX` at every increment. -/
def NoVerify.result (frag : Fragment) (ctx : DCoreOptimizedContext) (v : Nat) :
    Outcome (List Int) :=
  match vecAt (ctx.partial_result v) 1 with
  | .fault f => .fault f
  | .ok OutMax =>
    match vecAt (ctx.partial_result v) (((ctx.partial_result v).length : Int) - 2) with
    | .fault f => .fault f
    | .ok InMax =>
      if 2147483647 ≤ InMax then
        match NoVerify.loop frag ctx v 2147483648 0 [] OutMax with
        | .fault f => .fault f
        | .ok _ => .fault .signedOverflow
      else NoVerify.loop frag ctx v (InMax + 1).toNat 0 [] OutMax

/-- The recomputation `NoVerify(frag, ctx, v)`: returns `update` and the context
after the call. -/
def NoVerify (frag : Fragment) (ctx : DCoreOptimizedContext) (v : Nat) :
    Outcome (Bool × DCoreOptimizedContext) :=
  match NoVerify.result frag ctx v with
  | .fault f => .fault f
  | .ok result =>
    if result ≠ ctx.partial_result v then
      .ok (true, { ctx with cache_result := Function.update ctx.cache_result v result })
    else .ok (false, ctx)

/-- The number of entries `u` of an adjacency list whose committed skyline has
a pair that is component-wise at least `(k, l)`. -/
def dominating (partial_result : Nat → List Int) (k l : Int) (adj : List Nat) : Nat :=
  adj.countP (fun u => dominatesScan (partial_result u) k l)

/-- The pair `(k, l)` is supported for `v`: at least `k` in-neighbours and at
least `l` out-neighbours of `v` have a committed skyline that dominates `(k, l)`. -/
def Supported (frag : Fragment) (ctx : DCoreOptimizedContext) (v : Nat) (k l : Int) : Prop :=
  k ≤ (dominating ctx.partial_result k l (frag.incoming v) : Int) ∧
  l ≤ (dominating ctx.partial_result k l (frag.outgoing v) : Int)

instance (frag : Fragment) (ctx : DCoreOptimizedContext) (v : Nat) (k l : Int) :
    Decidable (Supported frag ctx v k l) := by
  unfold Supported; infer_instance

/-- The loop invariant of the outer loop of `NoVerify`, at the moment the
iterations for all `k < k0` are done: `P` are the pairs recorded so far and
`OutMax` the current value of the variable, `OutMax0` its value at loop entry. -/
structure NoVerify.Inv (frag : Fragment) (ctx : DCoreOptimizedContext) (v : Nat)
    (OutMax0 k0 : Int) (P : List (Int × Int)) (OutMax : Int) : Prop where
  sound : ∀ p ∈ P, Supported frag ctx v p.1 p.2
  nonneg : ∀ p ∈ P, 0 ≤ p.1 ∧ 0 ≤ p.2
  below : ∀ p ∈ P, p.1 < k0
  asc : (P.map Prod.fst).Pairwise (· < ·)
  desc : (P.map Prod.snd).Pairwise (· > ·)
  outMax_nil : P = [] → OutMax = OutMax0
  outMax_last : ∀ Q a b, P = Q ++ [(a, b)] → OutMax = b
  le_outMax0 : ∀ p ∈ P, p.2 ≤ OutMax0
  maxL : ∀ p ∈ P, p.2 < OutMax0 → ¬ Supported frag ctx v p.1 (p.2 + 1)
  maxK : ∀ p ∈ P, p.1 + 1 < k0 → ¬ Supported frag ctx v (p.1 + 1) p.2

/-- The part of the loop invariant of `NoVerify` that holds whatever the
neighbours' skylines are: the shape of the pairs `P` recorded when the
iterations for all `k < k0` are done, and the value of `OutMax`. -/
structure NoVerify.Shape (k0 : Int) (P : List (Int × Int)) (OutMax : Int) : Prop where
  nonneg : ∀ p ∈ P, 0 ≤ p.1 ∧ 0 ≤ p.2
  below : ∀ p ∈ P, p.1 < k0
  asc : (P.map Prod.fst).Pairwise (· < ·)
  desc : (P.map Prod.snd).Pairwise (· > ·)
  outMax_last : ∀ Q a b, P = Q ++ [(a, b)] → OutMax = b

/-- The completeness part of the loop invariant of `NoVerify`: every supported
pair with `0 ≤ k < k0` and `0 ≤ l ≤ OutMax0` is dominated by a recorded pair. -/
def NoVerify.Complete (frag : Fragment) (ctx : DCoreOptimizedContext) (v : Nat)
    (OutMax0 k0 : Int) (P : List (Int × Int)) : Prop :=
  ∀ k l : Int, 0 ≤ k → k < k0 → 0 ≤ l → l ≤ OutMax0 → Supported frag ctx v k l →
    ∃ p ∈ P, k ≤ p.1 ∧ l ≤ p.2

/-- A valid skyline: non-empty, well formed, without negative entries. -/
def Valid (S : List Int) : Prop :=
  S ≠ [] ∧ WellFormed S ∧ ∀ p ∈ pairs S, 0 ≤ p.1 ∧ 0 ≤ p.2

/-- The skyline `S` lies below the skyline `T`: whatever `S` dominates, `T`
dominates. -/
def Below (S T : List Int) : Prop :=
  ∀ k l : Int, dominatesScan S k l = true → dominatesScan T k l = true

/-- The number of pairs `(k, l)` with `0 ≤ k, l ≤ B` that the skyline `S`
dominates. -/
def area (B : Nat) (S : List Int) : Nat :=
  ((List.range (B + 1)).product (List.range (B + 1))).countP
    (fun x => dominatesScan S (x.1 : Int) (x.2 : Int))

/-- The sum of the areas of the committed skylines of the inner vertices. -/
def potential (frag : Fragment) (B : Nat) (ctx : DCoreOptimizedContext) : Nat :=
  (frag.innerVertices.map (fun v => area B (ctx.partial_result v))).sum

/-- The invariant of the rounds that start from skylines of a single pair: the
staged skylines of the inner vertices are the committed ones, all committed
skylines are valid, no `k` of an inner vertex is `INT_MAX`, the recomputation
lowers every inner vertex, and the committed skylines of the inner vertices
have no entry above `B`. -/
structure Good (frag : Fragment) (B : Nat) (ctx : DCoreOptimizedContext) : Prop where
  staged : ∀ v ∈ frag.innerVertices, ctx.cache_result v = ctx.partial_result v
  valid : ∀ u, Valid (ctx.partial_result u)
  small : ∀ v ∈ frag.innerVertices, ∀ p ∈ pairs (ctx.partial_result v), p.1 < 2147483647
  decreasing : ∀ v ∈ frag.innerVertices, ∀ R,
    NoVerify.result frag ctx v = .ok R → Below R (ctx.partial_result v)
  inBox : ∀ v ∈ frag.innerVertices, ∀ p ∈ pairs (ctx.partial_result v),
    p.1 ≤ (B : Int) ∧ p.2 ≤ (B : Int)

/-- The committed skylines cover the supported pairs: every pair without a
negative entry that is supported for an inner vertex is dominated by the
committed skyline of that vertex. -/
def Covering (frag : Fragment) (ctx : DCoreOptimizedContext) : Prop :=
  ∀ v ∈ frag.innerVertices, ∀ k l : Int, 0 ≤ k → 0 ≤ l → Supported frag ctx v k l →
    dominatesScan (ctx.partial_result v) k l = true

/-- The text `os << index` writes for an `int`: the decimal digits, after a
minus sign when the value is negative. -/
def showInt : Int → List Char
  | Int.ofNat n => Nat.toDigits 10 n
  | Int.negSucc n => '-' :: Nat.toDigits 10 (n + 1)

/-- The loop `for (auto index : shIndex) os << "." << index;` of
`DCoreOptimizedContext::Output`: the text written for one skyline, after the
vertex id and the blank. -/
def Output.encode : List Int → List Char
  | [] => []
  | index :: rest => '.' :: (showInt index ++ Output.encode rest)

/-- The white space characters of the C locale (`isspace`), which `std::stoi`
skips at the start of its input. -/
def isspace (c : Char) : Bool :=
  c = ' ' || c = '\t' || c = '\n' || c = '\x0b' || c = '\x0c' || c = '\r'

/-- The value of a sequence of decimal digits. -/
def stoi.value (digits : List Char) : Nat :=
  digits.foldl (fun a c => 10 * a + (c.toNat - 48)) 0

/-- The library function `std::stoi(str)` (base 10): white space is skipped, an
optional sign is read, then the longest run of decimal digits; whatever follows
is ignored.  Without a digit the call throws `std::invalid_argument`, with a
value outside the range of `int` it throws `std::out_of_range`. -/
def stoi (str : List Char) : Outcome Int :=
  let s1 := str.dropWhile isspace
  let negative : Bool := s1.head? = some '-'
  let s2 := match s1 with
    | '-' :: r => r
    | '+' :: r => r
    | _ => s1
  let digits := s2.takeWhile Char.isDigit
  if digits = [] then .fault .invalidArgument
  else
    let val : Int := if negative then -(stoi.value digits : Int) else (stoi.value digits : Int)
    if val < -2147483648 ∨ 2147483647 < val then .fault .outOfRange else .ok val

/-- The tokens of `std::sregex_token_iterator(tmp.begin(), tmp.end(), ws_re, -1)`
for `ws_re = "\\."`: the pieces of `tmp` between the dots.  The piece before the
first dot is a token also when it is empty; the piece after the last dot is a
token only when it is not empty; an input without a dot is one token. -/
def tokens (tmp : List Char) : List (List Char) :=
  let pieces := tmp.splitOn '.'
  if pieces.length ≤ 1 then pieces
  else if pieces.getLast? = some [] then pieces.dropLast
  else pieces

/-- The loop `for (i = 0; i < core.size(); i++) ... push_back(std::stoi(core[i]))`
of `PEval`: the integers pushed, or the first exception thrown. -/
def PEval.convert : List (List Char) → Outcome (List Int)
  | [] => .ok []
  | tok :: rest =>
    match stoi tok with
    | .fault f => .fault f
    | .ok x =>
      match PEval.convert rest with
      | .fault f => .fault f
      | .ok xs => .ok (x :: xs)

/-- The decoding of the attribute string `tmp = frag.GetData(v)` in `PEval`. -/
def PEval.decode (tmp : List Char) : Outcome (List Int) :=
  PEval.convert (tokens tmp)

/-- The first loop of `PEval`: the decoded attribute of every inner vertex is
pushed onto its committed and onto its staged skyline. -/
def PEval.init (frag : Fragment) :
    List Nat → DCoreOptimizedContext → Outcome DCoreOptimizedContext
  | [], ctx => .ok ctx
  | v :: vs, ctx =>
    match PEval.decode (frag.data v) with
    | .fault f => .fault f
    | .ok core =>
      PEval.init frag vs
        { partial_result := Function.update ctx.partial_result v (ctx.partial_result v ++ core)
          cache_result := Function.update ctx.cache_result v (ctx.cache_result v ++ core) }

/-- An integer literal, in the words of the specification ("integer token"): an
optional sign followed by decimal digits and nothing else. -/
def isIntegerLiteral (tok : List Char) : Bool :=
  let body := match tok with
    | '-' :: r => r
    | '+' :: r => r
    | _ => tok
  !body.isEmpty && body.all Char.isDigit

/-- The token starts with an integer: after white space and an optional sign
comes a decimal digit. -/
def hasIntegerPrefix (tok : List Char) : Bool :=
  let s1 := tok.dropWhile isspace
  let s2 := match s1 with
    | '-' :: r => r
    | '+' :: r => r
    | _ => s1
  match s2 with
  | c :: _ => c.isDigit
  | [] => false

/-- The context after `DCoreOptimizedContext::Init`: the vertex arrays hold
default constructed, that is empty, vectors. -/
def DCoreOptimizedContext.Init : DCoreOptimizedContext where
  partial_result := fun _ => []
  cache_result := fun _ => []

/-- The partial evaluation `PEval`: the decoding loop, then the loop handing the
seed of every inner vertex to `SendMsgThroughEdges`.  Returns the context and
the messages sent, as pairs of sending vertex and payload. -/
def PEval (frag : Fragment) (ctx : DCoreOptimizedContext) :
    Outcome (DCoreOptimizedContext × List (Nat × List Int)) :=
  match PEval.init frag frag.innerVertices ctx with
  | .fault f => .fault f
  | .ok ctx1 => .ok (ctx1, frag.innerVertices.map (fun v => (v, ctx1.partial_result v)))

/-- The loop of the merge callback of `IncEval` for a payload `msg` and the
shadow skyline `partial_result[u]`, at index `i` with `n` iterations left:
`if (msg.size() != shadow.size() || shadow.empty() || shadow[i] != msg[i])
{ shadow = msg; break; }`.  Returns the shadow skyline after the loop. -/
def IncEval.callback.loop (msg shadow : List Int) : Nat → Int → Outcome (List Int)
  | 0, _ => .ok shadow
  | n + 1, i =>
    if msg.length ≠ shadow.length ∨ shadow.isEmpty then .ok msg
    else
      match vecAt shadow i with
      | .fault f => .fault f
      | .ok x =>
        match vecAt msg i with
        | .fault f => .fault f
        | .ok y =>
          if x ≠ y then .ok msg else IncEval.callback.loop msg shadow n (i + 1)

/-- The merge callback of `IncEval` for one message: receiving vertex `u`,
payload `msg`. -/
def IncEval.callback (ctx : DCoreOptimizedContext) (u : Nat) (msg : List Int) :
    Outcome DCoreOptimizedContext :=
  match IncEval.callback.loop msg (ctx.partial_result u) msg.length 0 with
  | .fault f => .fault f
  | .ok shadow =>
    .ok { ctx with partial_result := Function.update ctx.partial_result u shadow }

/-- The call `ParallelProcess` of `IncEval`: the callback applied to the
inbound messages one after the other. -/
def IncEval.merge : List (Nat × List Int) → DCoreOptimizedContext → Outcome DCoreOptimizedContext
  | [], ctx => .ok ctx
  | (u, msg) :: rest, ctx =>
    match IncEval.callback ctx u msg with
    | .fault f => .fault f
    | .ok ctx1 => IncEval.merge rest ctx1

/-- The loop `for (auto v : inner_vertices) if (NoVerify(frag, ctx, v)) Send...`
of `IncEval`: returns the context and the messages sent. -/
def IncEval.recompute (frag : Fragment) :
    List Nat → DCoreOptimizedContext → Outcome (DCoreOptimizedContext × List (Nat × List Int))
  | [], ctx => .ok (ctx, [])
  | v :: vs, ctx =>
    match NoVerify frag ctx v with
    | .fault f => .fault f
    | .ok (update, ctx1) =>
      match IncEval.recompute frag vs ctx1 with
      | .fault f => .fault f
      | .ok (ctx2, sent) =>
        .ok (ctx2, if update then (v, ctx1.cache_result v) :: sent else sent)

/-- The loop `for (auto v : inner_vertices) partial_result[v] = cache_result[v];`
of `IncEval`. -/
def IncEval.commit : List Nat → DCoreOptimizedContext → DCoreOptimizedContext
  | [], ctx => ctx
  | v :: vs, ctx =>
    IncEval.commit vs
      { ctx with partial_result := Function.update ctx.partial_result v (ctx.cache_result v) }

/-- The incremental evaluation `IncEval`: merge of the inbound messages,
recomputation of every inner vertex, commit of the staged skylines. -/
def IncEval (frag : Fragment) (ctx : DCoreOptimizedContext) (messages : List (Nat × List Int)) :
    Outcome (DCoreOptimizedContext × List (Nat × List Int)) :=
  match IncEval.merge messages ctx with
  | .fault f => .fault f
  | .ok ctx1 =>
    match IncEval.recompute frag frag.innerVertices ctx1 with
    | .fault f => .fault f
    | .ok (ctx2, sent) => .ok (IncEval.commit frag.innerVertices ctx2, sent)

/-- The context after `n` rounds of `IncEval` on a single fragment, where no
round receives a message. -/
def IncEval.rounds (frag : Fragment) : Nat → DCoreOptimizedContext → Outcome DCoreOptimizedContext
  | 0, ctx => .ok ctx
  | n + 1, ctx =>
    match IncEval frag ctx [] with
    | .fault f => .fault f
    | .ok (ctx1, _) => IncEval.rounds frag n ctx1

/-- The staged skylines after the recomputation loop over `vs`, in closed form:
the result of `NoVerify` where a vertex of `vs` has one that differs from its
committed skyline, the staged skyline from before the loop elsewhere. -/
def IncEval.staged (frag : Fragment) (ctx : DCoreOptimizedContext) (vs : List Nat)
    (u : Nat) : List Int :=
  match NoVerify.result frag ctx u with
  | .ok R => if u ∈ vs ∧ R ≠ ctx.partial_result u then R else ctx.cache_result u
  | .fault _ => ctx.cache_result u

/-- The messages of the recomputation loop over `vs`, in closed form: one for
every vertex of `vs` whose result differs from its committed skyline. -/
def IncEval.broadcast (frag : Fragment) (ctx : DCoreOptimizedContext) (vs : List Nat) :
    List (Nat × List Int) :=
  vs.filterMap (fun v =>
    match NoVerify.result frag ctx v with
    | .ok R => if R ≠ ctx.partial_result v then some (v, R) else none
    | .fault _ => none)

/-- The states of a run: `PEval` on the context after `Init`, followed by rounds
of `IncEval` whose messages are addressed to outer vertices only. -/
inductive Reachable (frag : Fragment) : DCoreOptimizedContext → Prop
  | peval (ctx : DCoreOptimizedContext) (sent : List (Nat × List Int)) :
      PEval frag DCoreOptimizedContext.Init = .ok (ctx, sent) → Reachable frag ctx
  | inceval (ctx ctx1 : DCoreOptimizedContext) (messages sent : List (Nat × List Int)) :
      Reachable frag ctx → (∀ m ∈ messages, m.1 ∉ frag.innerVertices) →
      IncEval frag ctx messages = .ok (ctx1, sent) → Reachable frag ctx1

end DcoreOptimized

namespace GetInCoreness

/-- Modelled from the spec: the context class `GetInCorenessContext`, whose
header `get_incoreness_context.h` is not part of the sources at hand.  The fields
are the two the program uses: the coreness `partial_result` ("a single
non-negative integer" per vertex) and the scratch buffer `h_neighbor_value`
("Neighbor Value Buffer"). -/
structure GetInCorenessContext where
  partial_result : Nat → Int
  h_neighbor_value : Nat → List Int

/-- The call `sort(h_vec.begin(), h_vec.end(), std::greater<int>())`: the
descending rearrangement of `h_vec`. -/
def sortDescending (h_vec : List Int) : List Int :=
  h_vec.insertionSort (fun a b => a ≥ b)

/-- The loop `for (i = 0; i < h_vec.size(); i++) if (h_vec[i] >= i + 1) h = i + 1;`
of `HIndex`, at index `i` with the elements from `i` on still to visit. -/
def HIndex.loop : List Int → Int → Int → Int
  | [], _, h => h
  | x :: rest, i, h => HIndex.loop rest (i + 1) (if x ≥ i + 1 then i + 1 else h)

/-- The vector `h_vec` of `HIndex` after the sort: the coreness values of the
in-neighbours of `v`, descending. -/
def HIndex.h_vec (frag : Fragment) (ctx : GetInCorenessContext) (v : Nat) : List Int :=
  sortDescending ((frag.incoming v).map ctx.partial_result)

/-- The value `h` that `HIndex` computes for `v`. -/
def HIndex.h (frag : Fragment) (ctx : GetInCorenessContext) (v : Nat) : Int :=
  HIndex.loop (HIndex.h_vec frag ctx v) 0 0

/-- The refinement `HIndex(frag, ctx, v)`: returns the flag and the context after
the call. -/
def HIndex (frag : Fragment) (ctx : GetInCorenessContext) (v : Nat) :
    Bool × GetInCorenessContext :=
  let ctx1 : GetInCorenessContext :=
    { ctx with h_neighbor_value := Function.update ctx.h_neighbor_value v (HIndex.h_vec frag ctx v) }
  let h := HIndex.h frag ctx v
  if ctx1.partial_result v > h then
    (true, { ctx1 with partial_result := Function.update ctx1.partial_result v h })
  else (false, ctx1)

/-- The first loop of `PEval`: every inner vertex gets its local in-degree. -/
def PEval.init (frag : Fragment) : List Nat → GetInCorenessContext → GetInCorenessContext
  | [], ctx => ctx
  | v :: vs, ctx =>
    PEval.init frag vs
      { ctx with partial_result := Function.update ctx.partial_result v (frag.GetLocalInDegree v) }

/-- The partial evaluation `PEval`: returns the context and the messages handed
to `SendMsgThroughOEdges`, as pairs of sending vertex and payload. -/
def PEval (frag : Fragment) (ctx : GetInCorenessContext) :
    GetInCorenessContext × List (Nat × Int) :=
  let ctx1 := PEval.init frag frag.innerVertices ctx
  (ctx1, frag.innerVertices.map (fun v => (v, ctx1.partial_result v)))

/-- The callback of `ParallelProcess` in `IncEval`, applied to the inbound
messages (receiving vertex `u`, payload `msg`) one after the other. -/
def IncEval.merge : List (Nat × Int) → GetInCorenessContext → GetInCorenessContext
  | [], ctx => ctx
  | (u, msg) :: rest, ctx =>
    IncEval.merge rest
      (if ctx.partial_result u > msg then
        { ctx with partial_result := Function.update ctx.partial_result u msg }
      else ctx)

/-- The loop `for (auto v : inner_vertices) if (HIndex(frag, ctx, v)) Send...` of
`IncEval`: returns the context and the messages sent. -/
def IncEval.sweep (frag : Fragment) :
    List Nat → GetInCorenessContext → GetInCorenessContext × List (Nat × Int)
  | [], ctx => (ctx, [])
  | v :: vs, ctx =>
    let r := HIndex frag ctx v
    let rest := IncEval.sweep frag vs r.2
    (rest.1, if r.1 then (v, r.2.partial_result v) :: rest.2 else rest.2)

/-- The incremental evaluation `IncEval`: the merge of the inbound messages
followed by the `HIndex` sweep over the inner vertices. -/
def IncEval (frag : Fragment) (ctx : GetInCorenessContext) (messages : List (Nat × Int)) :
    GetInCorenessContext × List (Nat × Int) :=
  IncEval.sweep frag frag.innerVertices (IncEval.merge messages ctx)

/-- The states of a run on a single fragment: `PEval` from any initial context,
followed by rounds of `IncEval`, which on a single fragment receive no messages
(messages go to outer vertices only). -/
inductive Reachable (frag : Fragment) : GetInCorenessContext → Prop
  | peval (ctx : GetInCorenessContext) : Reachable frag (PEval frag ctx).1
  | inceval (ctx : GetInCorenessContext) :
      Reachable frag ctx → Reachable frag (IncEval frag ctx []).1

/-- The context after `n` rounds of `IncEval` on a single fragment, where no
round receives a message. -/
def IncEval.rounds (frag : Fragment) : Nat → GetInCorenessContext → GetInCorenessContext
  | 0, ctx => ctx
  | n + 1, ctx => IncEval.rounds frag n (IncEval frag ctx []).1

/-- The number of rounds, among the first `n` rounds from `ctx` on a single
fragment, in which at least one vertex is updated (a message is sent). -/
def IncEval.updating (frag : Fragment) : Nat → GetInCorenessContext → Nat
  | 0, _ => 0
  | n + 1, ctx =>
    (if (IncEval frag ctx []).2 ≠ [] then 1 else 0)
      + IncEval.updating frag n (IncEval frag ctx []).1

/-- The sum of the coreness values of the inner vertices. -/
def total (frag : Fragment) (ctx : GetInCorenessContext) : Int :=
  (frag.innerVertices.map ctx.partial_result).sum

/-- The sum of the local in-degrees of the inner vertices. -/
def degreeSum (frag : Fragment) : Nat :=
  (frag.innerVertices.map (fun v => (frag.incoming v).length)).sum

/-- The number of values of `vals` that are at least `h`. -/
def atLeast (vals : List Int) (h : Int) : Nat :=
  vals.countP (fun x => decide (h ≤ x))

/-- The classical h-index of a multiset of values, in the words of the
specification: `h` is the largest integer such that at least `h` of the values
are at least `h`. -/
def IsHIndex (vals : List Int) (h : Int) : Prop :=
  h ≤ (atLeast vals h : Int) ∧ ∀ h' : Int, h' ≤ (atLeast vals h' : Int) → h' ≤ h

end GetInCoreness

/-! ## Concrete graphs used in the examples -/

namespace Examples

open DcoreOptimized GetInCoreness

/-- The graph with the edges 0 ⇄ 1 and 0 ⇄ 2. -/
def pendantFrag : Fragment where
  innerVertices := [0, 1, 2]
  incoming := fun v => if v = 0 then [1, 2] else if v = 1 then [0] else if v = 2 then [0] else []
  outgoing := fun v => if v = 0 then [1, 2] else if v = 1 then [0] else if v = 2 then [0] else []
  data := fun _ => []

/-- Skylines on `pendantFrag`: `{(1,1)}` at the vertices 0 and 1, `{(0,0)}`
elsewhere. -/
def pendantCtx : DCoreOptimizedContext where
  partial_result := fun v => if v = 0 then [1, 1] else if v = 1 then [1, 1] else [0, 0]
  cache_result := fun v => if v = 0 then [1, 1] else if v = 1 then [1, 1] else [0, 0]

/-- The graph with the edges 1 → 1, 1 → 0, 0 → 2 and 2 → 2. -/
def forkFrag : Fragment where
  innerVertices := [0, 1, 2]
  incoming := fun v => if v = 0 then [1] else if v = 1 then [1] else if v = 2 then [2, 0] else []
  outgoing := fun v => if v = 0 then [2] else if v = 1 then [1, 0] else if v = 2 then [2] else []
  data := fun _ => []

/-- Skylines on `forkFrag`: `{(0,1), (1,0)}` at vertex 0, `{(1,0)}` at vertex 1,
`{(0,1)}` at vertex 2, `{(0,0)}` elsewhere. -/
def forkCtx : DCoreOptimizedContext where
  partial_result := fun v =>
    if v = 0 then [0, 1, 1, 0] else if v = 1 then [1, 0] else if v = 2 then [0, 1] else [0, 0]
  cache_result := fun v =>
    if v = 0 then [0, 1, 1, 0] else if v = 1 then [1, 0] else if v = 2 then [0, 1] else [0, 0]

/-- A star: the centre 0 with in-edges from the leaves 1 and 2. -/
def starFrag : Fragment where
  innerVertices := [0, 1, 2]
  incoming := fun v => if v = 0 then [1, 2] else []
  outgoing := fun v => if v = 1 then [0] else if v = 2 then [0] else []
  data := fun _ => []

/-- The context before `PEval`: all coreness values 0, all buffers empty. -/
def zeroCtx : GetInCorenessContext where
  partial_result := fun _ => 0
  h_neighbor_value := fun _ => []

/-- The directed path 2 → 1 → 0. -/
def chainFrag : Fragment where
  innerVertices := [0, 1, 2]
  incoming := fun v => if v = 0 then [1] else if v = 1 then [2] else []
  outgoing := fun v => if v = 1 then [0] else if v = 2 then [1] else []
  data := fun _ => []

/-- The directed cycle 0 → 1 → 2 → 3 → 0, every vertex with the attribute
string `1.1` (its degree pair). -/
def cycleFrag : Fragment where
  innerVertices := [0, 1, 2, 3]
  incoming := fun v =>
    if v = 0 then [3] else if v = 1 then [0] else if v = 2 then [1] else if v = 3 then [2] else []
  outgoing := fun v =>
    if v = 0 then [1] else if v = 1 then [2] else if v = 2 then [3] else if v = 3 then [0] else []
  data := fun _ => ['1', '.', '1']

/-- The context `PEval` leaves on `cycleFrag`. -/
def cycleSeed : DCoreOptimizedContext :=
  match DcoreOptimized.PEval cycleFrag DCoreOptimizedContext.Init with
  | .ok r => r.1
  | .fault _ => DCoreOptimizedContext.Init

/-- A single vertex without edges. -/
def isolatedFrag : Fragment where
  innerVertices := [0]
  incoming := fun _ => []
  outgoing := fun _ => []
  data := fun _ => ['0', '.', '0']

/-- The skyline `{(0,0)}`, the degree pair of an isolated vertex, everywhere. -/
def isolatedCtx : DCoreOptimizedContext where
  partial_result := fun _ => [0, 0]
  cache_result := fun _ => [0, 0]

/-- The skyline `{(3,2)}` everywhere. -/
def isolatedHigh : DCoreOptimizedContext where
  partial_result := fun _ => [3, 2]
  cache_result := fun _ => [3, 2]

/-- The degree pairs of `pendantFrag`: `{(2,2)}` at vertex 0, `{(1,1)}` at the
vertices 1 and 2, `{(0,0)}` elsewhere. -/
def pendantSeed : DCoreOptimizedContext where
  partial_result := fun v =>
    if v = 0 then [2, 2] else if v = 1 then [1, 1] else if v = 2 then [1, 1] else [0, 0]
  cache_result := fun v =>
    if v = 0 then [2, 2] else if v = 1 then [1, 1] else if v = 2 then [1, 1] else [0, 0]

/-- The two vertices 0 ⇄ 1. -/
def swapFrag : Fragment where
  innerVertices := [0, 1]
  incoming := fun v => if v = 0 then [1] else if v = 1 then [0] else []
  outgoing := fun v => if v = 0 then [1] else if v = 1 then [0] else []
  data := fun _ => []

/-- Skylines on `swapFrag`: `{(1,1)}` at vertex 0, `{(0,1), (1,0)}` at vertex 1,
`{(0,0)}` elsewhere. -/
def swapCtx : DCoreOptimizedContext where
  partial_result := fun v => if v = 0 then [1, 1] else if v = 1 then [0, 1, 1, 0] else [0, 0]
  cache_result := fun v => if v = 0 then [1, 1] else if v = 1 then [0, 1, 1, 0] else [0, 0]

/-- The skylines of `swapCtx` with those of the vertices 0 and 1 exchanged. -/
def swappedCtx : DCoreOptimizedContext where
  partial_result := fun v => if v = 0 then [0, 1, 1, 0] else if v = 1 then [1, 1] else [0, 0]
  cache_result := fun v => if v = 0 then [0, 1, 1, 0] else if v = 1 then [1, 1] else [0, 0]

end Examples

/-! ## The dominance query `BiSearch` -/

namespace DcoreOptimized

theorem vecAt_natCast {S : List Int} {i : Nat} {x : Int} (h : S[i]? = some x) :
    vecAt S (i : Int) = .ok x := by
  simp [vecAt, h]

theorem pairs_getElem? : ∀ (S : List Int) (i : Nat) (p : Int × Int),
    (pairs S)[i]? = some p → S[2 * i]? = some p.1 ∧ S[2 * i + 1]? = some p.2
  | [], i, p, h => by simp [pairs] at h
  | [_], i, p, h => by simp [pairs] at h
  | a :: b :: rest, 0, p, h => by
    simp [pairs] at h
    subst h
    simp
  | a :: b :: rest, i + 1, p, h => by
    simp only [pairs, List.getElem?_cons_succ] at h
    have ih := pairs_getElem? rest i p h
    have e1 : 2 * (i + 1) = (2 * i + 1) + 1 := by ring
    have e2 : 2 * (i + 1) + 1 = (2 * i + 1 + 1) + 1 := by ring
    rw [e2, e1]
    simpa using ih

theorem pairs_length : ∀ (S : List Int), (pairs S).length = S.length / 2
  | [] => by simp [pairs]
  | [_] => by simp [pairs]
  | a :: b :: rest => by
    simp only [pairs, List.length_cons, pairs_length rest]
    omega

theorem fst_lt_of_lt {P : List (Int × Int)} (h : (P.map Prod.fst).Pairwise (· < ·))
    {i j : Nat} {p q : Int × Int} (hi : P[i]? = some p) (hj : P[j]? = some q)
    (hij : i < j) : p.1 < q.1 := by
  rw [List.pairwise_iff_getElem] at h
  obtain ⟨hi', rfl⟩ := List.getElem?_eq_some.1 hi
  obtain ⟨hj', rfl⟩ := List.getElem?_eq_some.1 hj
  have := h i j (by simpa using hi') (by simpa using hj') hij
  simpa using this

theorem snd_gt_of_lt {P : List (Int × Int)} (h : (P.map Prod.snd).Pairwise (· > ·))
    {i j : Nat} {p q : Int × Int} (hi : P[i]? = some p) (hj : P[j]? = some q)
    (hij : i < j) : q.2 < p.2 := by
  rw [List.pairwise_iff_getElem] at h
  obtain ⟨hi', rfl⟩ := List.getElem?_eq_some.1 hi
  obtain ⟨hj', rfl⟩ := List.getElem?_eq_some.1 hj
  have := h i j (by simpa using hi') (by simpa using hj') hij
  simpa using this

/-- The loop of `BiSearch` on ascending `k` entries: it ends, reads inside the
vector, and leaves `first` at the boundary between the pairs with a `k` entry
below the query and those with a `k` entry at least the query. -/
theorem BiSearch.loop_search (S : List Int) (k : Int)
    (hk : ((pairs S).map Prod.fst).Pairwise (· < ·)) :
    ∀ (fuel first len : Nat), len ≤ fuel → first + len ≤ (pairs S).length →
      (∀ i p, i < first → (pairs S)[i]? = some p → p.1 < k) →
      (∀ i p, first + len ≤ i → (pairs S)[i]? = some p → k ≤ p.1) →
      ∃ f : Nat, BiSearch.loop S k fuel first len = .ok (f : Int) ∧
        (∀ i p, i < f → (pairs S)[i]? = some p → p.1 < k) ∧
        (∀ i p, f ≤ i → (pairs S)[i]? = some p → k ≤ p.1) := by
  intro fuel
  induction fuel with
  | zero =>
    intro first len hl _ hlo hhi
    have : len = 0 := by omega
    subst this
    exact ⟨first, by simp [BiSearch.loop], hlo, by simpa using hhi⟩
  | succ fuel ih =>
    intro first len hl hn hlo hhi
    by_cases hpos : len = 0
    · subst hpos
      exact ⟨first, by simp [BiSearch.loop], hlo, by simpa using hhi⟩
    · have hlen : (0 : Int) < (len : Int) := by omega
      have hhalf : ((len : Int) / 2) = ((len / 2 : Nat) : Int) := by omega
      have hmid : first + len / 2 < (pairs S).length := by omega
      obtain ⟨p, hp⟩ : ∃ p, (pairs S)[first + len / 2]? = some p :=
        ⟨_, List.getElem?_eq_getElem hmid⟩
      have hread : vecAt S (2 * ((first : Int) + ((len / 2 : Nat) : Int))) = .ok p.1 := by
        have hidx : 2 * ((first : Int) + ((len / 2 : Nat) : Int))
            = ((2 * (first + len / 2) : Nat) : Int) := by push_cast; ring
        rw [hidx]
        exact vecAt_natCast (pairs_getElem? S _ p hp).1
      by_cases hge : k ≤ p.1
      · obtain ⟨f, hf, h1, h2⟩ := ih first (len / 2) (by omega) (by omega) hlo (by
          intro i q hi hq
          rcases Nat.lt_or_ge (first + len / 2) i with h | h
          · exact le_trans hge (le_of_lt (fst_lt_of_lt hk hp hq h))
          · have : i = first + len / 2 := by omega
            subst this
            rw [hp] at hq
            cases hq
            exact hge)
        refine ⟨f, ?_, h1, h2⟩
        rw [BiSearch.loop]
        simp only [hlen, gt_iff_lt, if_true, hhalf, hread, ge_iff_le, hge]
        exact hf
      · have hsub : (len : Int) - (len : Int) / 2 - 1 = ((len - len / 2 - 1 : Nat) : Int) := by
          omega
        have hfirst : (first : Int) + (len : Int) / 2 + 1 = ((first + len / 2 + 1 : Nat) : Int) := by
          omega
        obtain ⟨f, hf, h1, h2⟩ := ih (first + len / 2 + 1) (len - len / 2 - 1) (by omega)
          (by omega) (by
            intro i q hi hq
            rcases Nat.lt_or_ge i (first + len / 2) with h | h
            · exact lt_trans (fst_lt_of_lt hk hq hp h) (by omega)
            · have : i = first + len / 2 := by omega
              subst this
              rw [hp] at hq
              cases hq
              omega) (by
            intro i q hi hq
            exact hhi i q (by omega) hq)
        refine ⟨f, ?_, h1, h2⟩
        rw [BiSearch.loop]
        simp only [hlen, gt_iff_lt, if_true, hhalf, hread, ge_iff_le, hge, if_false]
        rw [← hhalf, hfirst, hsub]
        exact hf

theorem dominatesScan_iff (S : List Int) (k l : Int) :
    dominatesScan S k l = true ↔ ∃ p ∈ pairs S, k ≤ p.1 ∧ l ≤ p.2 := by
  simp [dominatesScan, List.any_eq_true]

/-- On a non-empty well-formed skyline `BiSearch` returns, and returns what the
linear scan returns. -/
theorem BiSearch_spec (S : List Int) (k l : Int) (hne : S ≠ []) (hwf : WellFormed S) :
    BiSearch S k l = .ok (dominatesScan S k l) := by
  obtain ⟨heven, hk, hl⟩ := hwf
  have hlen := pairs_length S
  have hpos : 0 < S.length := List.length_pos.2 hne
  have hn : 0 < (pairs S).length := by omega
  obtain ⟨pl, hpl⟩ : ∃ p, (pairs S)[(pairs S).length - 1]? = some p :=
    ⟨_, List.getElem?_eq_getElem (by omega)⟩
  have hlast : vecAt S ((Nat.cast (S.length / 2) : Int) * 2 - 2) = .ok pl.1 := by
    have hidx : (Nat.cast (S.length / 2) : Int) * 2 - 2
        = (Nat.cast (2 * ((pairs S).length - 1)) : Int) := by omega
    rw [hidx]
    exact vecAt_natCast (pairs_getElem? S _ pl hpl).1
  unfold BiSearch
  simp only [hlast]
  by_cases hlt : pl.1 < k
  · simp only [hlt, if_true]
    congr 1
    symm
    rw [Bool.eq_false_iff]
    intro hd
    obtain ⟨p, hp, hkp, _⟩ := (dominatesScan_iff S k l).1 hd
    obtain ⟨i, hi⟩ := List.mem_iff_getElem?.1 hp
    have hil : i < (pairs S).length := (List.getElem?_eq_some.1 hi).1
    rcases Nat.lt_or_ge i ((pairs S).length - 1) with h | h
    · have := fst_lt_of_lt hk hi hpl h
      omega
    · have : i = (pairs S).length - 1 := by omega
      subst this
      rw [hpl] at hi
      cases hi
      omega
  · simp only [hlt, if_false]
    obtain ⟨f, hf, h1, h2⟩ := BiSearch.loop_search S k hk (S.length / 2) 0 (S.length / 2)
      (le_refl _) (by omega) (by intro i p hi; omega) (by
        intro i p hi hp
        have := (List.getElem?_eq_some.1 hp).1
        omega)
    have hfn : f < (pairs S).length := by
      by_contra hcon
      have := h1 ((pairs S).length - 1) pl (by omega) hpl
      omega
    obtain ⟨q, hq⟩ : ∃ q, (pairs S)[f]? = some q := ⟨_, List.getElem?_eq_getElem hfn⟩
    have hread : vecAt S (2 * (f : Int) + 1) = .ok q.2 := by
      have hidx : 2 * (f : Int) + 1 = (Nat.cast (2 * f + 1) : Int) := by push_cast; ring
      rw [hidx]
      exact vecAt_natCast (pairs_getElem? S _ q hq).2
    have hf' : BiSearch.loop S k (S.length / 2) 0 (Nat.cast (S.length / 2) : Int)
        = .ok (f : Int) := by simpa using hf
    simp only [hf', hread]
    congr 1
    rw [Bool.eq_iff_iff, dominatesScan_iff]
    simp only [ge_iff_le, decide_eq_true_eq]
    constructor
    · intro h
      exact ⟨q, List.mem_iff_getElem?.2 ⟨f, hq⟩, h2 f q (le_refl _) hq, h⟩
    · rintro ⟨p, hp, hkp, hlp⟩
      obtain ⟨i, hi⟩ := List.mem_iff_getElem?.1 hp
      rcases Nat.lt_trichotomy i f with h | h | h
      · have := h1 i p h hi
        omega
      · subst h
        rw [hq] at hi
        cases hi
        exact hlp
      · have := snd_gt_of_lt hl hq hi h
        omega

/-! ## The recomputation `NoVerify` -/

theorem unpairs_append : ∀ (P Q : List (Int × Int)), unpairs (P ++ Q) = unpairs P ++ unpairs Q
  | [], Q => by simp [unpairs]
  | p :: P, Q => by simp [unpairs, unpairs_append P Q]

theorem pairs_unpairs : ∀ (P : List (Int × Int)), pairs (unpairs P) = P
  | [] => by simp [unpairs, pairs]
  | p :: P => by simp [unpairs, pairs, pairs_unpairs P]

theorem unpairs_length : ∀ (P : List (Int × Int)), (unpairs P).length = 2 * P.length
  | [] => by simp [unpairs]
  | p :: P => by simp [unpairs, unpairs_length P]; ring

theorem unpairs_snoc (Q : List (Int × Int)) (a b : Int) :
    unpairs (Q ++ [(a, b)]) = unpairs Q ++ [a, b] := by
  simp [unpairs_append, unpairs]

theorem vecAt_unpairs_last (Q : List (Int × Int)) (a b : Int) :
    vecAt (unpairs (Q ++ [(a, b)])) (((unpairs (Q ++ [(a, b)])).length : Int) - 1) = .ok b := by
  have hidx : ((unpairs (Q ++ [(a, b)])).length : Int) - 1
      = (Nat.cast ((unpairs Q).length + 1) : Int) := by
    rw [unpairs_snoc]; simp; ring
  rw [hidx]
  apply vecAt_natCast
  rw [unpairs_snoc, List.getElem?_append_right (by omega)]
  simp

theorem vecSet_unpairs_last (Q : List (Int × Int)) (a b k : Int) :
    vecSet (unpairs (Q ++ [(a, b)])) (((unpairs (Q ++ [(a, b)])).length : Int) - 2) k
      = .ok (unpairs (Q ++ [(k, b)])) := by
  have hidx : ((unpairs (Q ++ [(a, b)])).length : Int) - 2
      = (Nat.cast (unpairs Q).length : Int) := by
    rw [unpairs_snoc]; simp
  rw [hidx]
  simp only [vecSet, unpairs_snoc]
  simp

theorem NoVerify.record_nil (k l OutMax : Int) :
    NoVerify.record k l (unpairs []) OutMax = .ok (unpairs [(k, l)], l) := by
  simp [NoVerify.record, unpairs]

theorem NoVerify.record_snoc_ne (k l OutMax : Int) (Q : List (Int × Int)) (a b : Int)
    (h : l ≠ b) :
    NoVerify.record k l (unpairs (Q ++ [(a, b)])) OutMax
      = .ok (unpairs (Q ++ [(a, b)] ++ [(k, l)]), l) := by
  have hlen : ((unpairs (Q ++ [(a, b)])).length : Int) ≠ 0 := by
    rw [unpairs_length]; simp; omega
  unfold NoVerify.record
  simp only [hlen, if_false, vecAt_unpairs_last, ne_eq, h, not_false_eq_true, if_true]
  rw [unpairs_snoc (Q ++ [(a, b)])]

theorem NoVerify.record_snoc_eq (k OutMax : Int) (Q : List (Int × Int)) (a b : Int) :
    NoVerify.record k b (unpairs (Q ++ [(a, b)])) OutMax
      = .ok (unpairs (Q ++ [(k, b)]), OutMax) := by
  have hlen : ((unpairs (Q ++ [(a, b)])).length : Int) ≠ 0 := by
    rw [unpairs_length]; simp; omega
  unfold NoVerify.record
  simp only [hlen, if_false, vecAt_unpairs_last, ne_eq, not_true_eq_false, vecSet_unpairs_last]

/-- The counting loop on neighbours with non-empty well-formed skylines: it
returns, and its counter reaches the bound exactly when the number of dominating
neighbours does. -/
theorem NoVerify.count_spec (pr : Nat → List Int) (k l bound : Int) :
    ∀ (adj : List Nat), (∀ u ∈ adj, pr u ≠ [] ∧ WellFormed (pr u)) → ∀ c : Int,
      ∃ c', NoVerify.count pr k l bound adj c = .ok c' ∧
        (bound ≤ c' ↔ bound ≤ c + (dominating pr k l adj : Int))
  | [], _, c => ⟨c, by simp [NoVerify.count, dominating]⟩
  | u :: es, hS, c => by
    have hu := hS u (List.mem_cons_self _ _)
    have hes : ∀ w ∈ es, pr w ≠ [] ∧ WellFormed (pr w) :=
      fun w hw => hS w (List.mem_cons_of_mem _ hw)
    have hb := BiSearch_spec (pr u) k l hu.1 hu.2
    have hd : (dominating pr k l (u :: es) : Int)
        = (if dominatesScan (pr u) k l then 1 else 0) + (dominating pr k l es : Int) := by
      simp only [dominating, List.countP_cons]
      split
      · simp; ring
      · simp
    rw [NoVerify.count]
    simp only [hb]
    by_cases hge : bound ≤ (if dominatesScan (pr u) k l = true then c + 1 else c)
    · refine ⟨(if dominatesScan (pr u) k l = true then c + 1 else c),
        by simp only [ge_iff_le, hge, if_true], ?_⟩
      simp only [hge, true_iff, hd]
      have : (0 : Int) ≤ (dominating pr k l es : Int) := Int.natCast_nonneg _
      split at hge <;> simp_all <;> omega
    · obtain ⟨c', hc', hiff⟩ := NoVerify.count_spec pr k l bound es hes
        (if dominatesScan (pr u) k l = true then c + 1 else c)
      refine ⟨c', by simp only [ge_iff_le, hge, if_false]; exact hc', ?_⟩
      rw [hiff, hd]
      split <;> omega

theorem dominatesScan_anti (S : List Int) {k l k' l' : Int} (hk : k' ≤ k) (hl : l' ≤ l)
    (h : dominatesScan S k l = true) : dominatesScan S k' l' = true := by
  rw [dominatesScan_iff] at h ⊢
  obtain ⟨p, hp, h1, h2⟩ := h
  exact ⟨p, hp, le_trans hk h1, le_trans hl h2⟩

theorem dominating_anti (pr : Nat → List Int) {k l k' l' : Int} (hk : k' ≤ k) (hl : l' ≤ l)
    (adj : List Nat) : dominating pr k l adj ≤ dominating pr k' l' adj := by
  unfold dominating
  exact List.countP_mono_left (fun u _ h => dominatesScan_anti (pr u) hk hl h)

/-- Support is antitone: a supported pair stays supported when made smaller. -/
theorem Supported.anti {frag : Fragment} {ctx : DCoreOptimizedContext} {v : Nat}
    {k l k' l' : Int} (h : Supported frag ctx v k l) (hk : k' ≤ k) (hl : l' ≤ l) :
    Supported frag ctx v k' l' := by
  obtain ⟨h1, h2⟩ := h
  have a1 := dominating_anti ctx.partial_result hk hl (frag.incoming v)
  have a2 := dominating_anti ctx.partial_result hk hl (frag.outgoing v)
  constructor <;> omega

/-- One iteration of the inner loop of `NoVerify`, when all skylines are
non-empty and well formed: the test `in >= k && out >= l` is the test whether
`(k, l)` is supported. -/
theorem NoVerify.scan_succ (frag : Fragment) (ctx : DCoreOptimizedContext) (v : Nat)
    (hS : ∀ u, ctx.partial_result u ≠ [] ∧ WellFormed (ctx.partial_result u))
    (k : Int) (result : List Int) (OutMax : Int) (n : Nat) :
    NoVerify.scan frag ctx v k result OutMax (n + 1)
      = if Supported frag ctx v k (n : Int) then NoVerify.record k (n : Int) result OutMax
        else NoVerify.scan frag ctx v k result OutMax n := by
  obtain ⟨inc, hinc, hi⟩ := NoVerify.count_spec ctx.partial_result k (n : Int) k
    (frag.incoming v) (fun u _ => hS u) 0
  obtain ⟨out, hout, ho⟩ := NoVerify.count_spec ctx.partial_result k (n : Int) (n : Int)
    (frag.outgoing v) (fun u _ => hS u) 0
  have hiff : (inc ≥ k ∧ out ≥ (n : Int)) ↔ Supported frag ctx v k (n : Int) := by
    unfold Supported
    simp only [ge_iff_le, hi, ho, zero_add]
  rw [NoVerify.scan]
  simp only [hinc, hout]
  by_cases h : Supported frag ctx v k (n : Int)
  · rw [if_pos h, if_pos (hiff.2 h)]
  · rw [if_neg h, if_neg (fun h' => h (hiff.1 h'))]

/-- The inner loop of `NoVerify` for a fixed `k`: either no `l` below `n` is
supported and nothing is recorded, or the largest supported `l` below `n` is
recorded. -/
theorem NoVerify.scan_cases (frag : Fragment) (ctx : DCoreOptimizedContext) (v : Nat)
    (hS : ∀ u, ctx.partial_result u ≠ [] ∧ WellFormed (ctx.partial_result u))
    (k : Int) (result : List Int) (OutMax : Int) :
    ∀ n : Nat,
      (NoVerify.scan frag ctx v k result OutMax n = .ok (result, OutMax) ∧
        ∀ m : Nat, m < n → ¬ Supported frag ctx v k (m : Int)) ∨
      (∃ m : Nat, m < n ∧
        NoVerify.scan frag ctx v k result OutMax n = NoVerify.record k (m : Int) result OutMax ∧
        Supported frag ctx v k (m : Int) ∧
        ∀ j : Nat, m < j → j < n → ¬ Supported frag ctx v k (j : Int))
  | 0 => Or.inl ⟨by simp [NoVerify.scan], by intro m hm; omega⟩
  | n + 1 => by
    rw [NoVerify.scan_succ frag ctx v hS]
    by_cases h : Supported frag ctx v k (n : Int)
    · right
      exact ⟨n, by omega, by rw [if_pos h], h, by intro j h1 h2; omega⟩
    · rw [if_neg h]
      rcases NoVerify.scan_cases frag ctx v hS k result OutMax n with ⟨h1, h2⟩ | ⟨m, hm, h1, h2, h3⟩
      · left
        refine ⟨h1, ?_⟩
        intro m hm
        rcases Nat.lt_or_ge m n with h' | h'
        · exact h2 m h'
        · have : m = n := by omega
          subst this
          exact h
      · right
        refine ⟨m, by omega, h1, h2, ?_⟩
        intro j hj1 hj2
        rcases Nat.lt_or_ge j n with h' | h'
        · exact h3 j hj1 h'
        · have : j = n := by omega
          subst this
          exact h

theorem eq_nil_or_snoc (P : List (Int × Int)) :
    P = [] ∨ ∃ Q a b, P = Q ++ [(a, b)] := by
  rcases List.eq_nil_or_concat P with h | ⟨Q, ⟨a, b⟩, h⟩
  · exact Or.inl h
  · exact Or.inr ⟨Q, a, b, by rw [h, List.concat_eq_append]⟩

/-- A recorded pair whose `k` is the `k` of the iteration just done is the last
recorded pair. -/
theorem NoVerify.Inv.top_is_last {frag : Fragment} {ctx : DCoreOptimizedContext} {v : Nat}
    {OutMax0 k0 : Int} {P : List (Int × Int)} {OutMax : Int}
    (inv : NoVerify.Inv frag ctx v OutMax0 k0 P OutMax) {p : Int × Int} (hp : p ∈ P)
    (hpk : p.1 + 1 = k0) : ∃ Q, P = Q ++ [p] := by
  rcases eq_nil_or_snoc P with hP | ⟨Q, a, b, hP⟩
  · subst hP
    simp at hp
  · refine ⟨Q, ?_⟩
    subst hP
    rcases List.mem_append.1 hp with h | h
    · exfalso
      have hasc := inv.asc
      rw [List.map_append, List.pairwise_append] at hasc
      have h1 := hasc.2.2 p.1 (List.mem_map_of_mem _ h) a (by simp)
      have h2 := inv.below (a, b) (by simp)
      simp only at h2
      omega
    · simp at h
      rw [h]

theorem NoVerify.Inv.step {frag : Fragment} {ctx : DCoreOptimizedContext} {v : Nat}
    (hS : ∀ u, ctx.partial_result u ≠ [] ∧ WellFormed (ctx.partial_result u))
    {OutMax0 k0 : Int} {P : List (Int × Int)} {OutMax : Int} (hk0 : 0 ≤ k0)
    (inv : NoVerify.Inv frag ctx v OutMax0 k0 P OutMax) :
    ∃ P' OutMax',
      NoVerify.scan frag ctx v k0 (unpairs P) OutMax (OutMax + 1).toNat
        = .ok (unpairs P', OutMax') ∧
      NoVerify.Inv frag ctx v OutMax0 (k0 + 1) P' OutMax' := by
  rcases NoVerify.scan_cases frag ctx v hS k0 (unpairs P) OutMax (OutMax + 1).toNat with
    ⟨hscan, hnone⟩ | ⟨m, hm, hscan, hsup, hmax⟩
  · refine ⟨P, OutMax, hscan, ?_⟩
    refine
      { sound := inv.sound, nonneg := inv.nonneg
        below := fun p hp => by have := inv.below p hp; omega
        asc := inv.asc, desc := inv.desc, outMax_nil := inv.outMax_nil
        outMax_last := inv.outMax_last, le_outMax0 := inv.le_outMax0, maxL := inv.maxL
        maxK := ?_ }
    intro p hp hlt
    by_cases h : p.1 + 1 < k0
    · exact inv.maxK p hp h
    · have hpk : p.1 + 1 = k0 := by omega
      obtain ⟨Q, hP⟩ := inv.top_is_last hp hpk
      have hO := inv.outMax_last Q p.1 p.2 hP
      have hb := (inv.nonneg p hp).2
      have := hnone p.2.toNat (by omega)
      rw [Int.toNat_of_nonneg hb] at this
      rw [hpk]
      exact this
  · have hmO : (m : Int) ≤ OutMax := by omega
    rcases eq_nil_or_snoc P with hP | ⟨Q, a, b, hP⟩
    · subst hP
      have hO := inv.outMax_nil rfl
      refine ⟨[(k0, (m : Int))], (m : Int), by rw [hscan, NoVerify.record_nil], ?_⟩
      refine
        { sound := by simpa using hsup
          nonneg := by simp [hk0]
          below := by simp
          asc := by simp
          desc := by simp
          outMax_nil := by simp
          outMax_last := ?_
          le_outMax0 := by simp; omega
          maxL := ?_
          maxK := by simp }
      · intro Q a b h
        have := congrArg List.getLast? h
        simp at this
        exact this.2
      · intro p hp hlt
        simp at hp
        subst hp
        simp only at hlt ⊢
        have := hmax (m + 1) (by omega) (by omega)
        simpa using this
    · subst hP
      have hO := inv.outMax_last Q a b rfl
      have hasc := inv.asc
      have hdesc := inv.desc
      rw [List.map_append, List.pairwise_append] at hasc hdesc
      have hab := inv.below (a, b) (by simp)
      simp only at hab
      by_cases hmb : (m : Int) = b
      · refine ⟨Q ++ [(k0, b)], OutMax, by rw [hscan, hmb, NoVerify.record_snoc_eq], ?_⟩
        have hQ : ∀ q ∈ Q, q ∈ Q ++ [(a, b)] := fun q hq => List.mem_append_left _ hq
        have hmem : ∀ p ∈ Q ++ [(k0, b)], p ∈ Q ∨ p = (k0, b) := by
          intro p hp
          simpa using hp
        refine
          { sound := ?_, nonneg := ?_, below := ?_, asc := ?_, desc := ?_
            outMax_nil := by simp
            outMax_last := ?_, le_outMax0 := ?_, maxL := ?_, maxK := ?_ }
        · intro p hp
          rcases hmem p hp with h | h
          · exact inv.sound p (hQ p h)
          · subst h; rw [← hmb]; exact hsup
        · intro p hp
          rcases hmem p hp with h | h
          · exact inv.nonneg p (hQ p h)
          · subst h; exact ⟨hk0, (inv.nonneg (a, b) (by simp)).2⟩
        · intro p hp
          rcases hmem p hp with h | h
          · have := inv.below p (hQ p h); omega
          · subst h; simp
        · rw [List.map_append, List.pairwise_append]
          refine ⟨hasc.1, by simp, ?_⟩
          intro x hx y hy
          simp at hy
          subst hy
          have := hasc.2.2 x hx a (by simp)
          omega
        · rw [List.map_append, List.pairwise_append]
          exact ⟨hdesc.1, by simp, by simpa using hdesc.2.2⟩
        · intro Q' a' b' h
          have := congrArg List.getLast? h
          simp at this
          rw [hO]
          exact this.2
        · intro p hp
          rcases hmem p hp with h | h
          · exact inv.le_outMax0 p (hQ p h)
          · subst h; exact inv.le_outMax0 (a, b) (by simp)
        · intro p hp hlt
          rcases hmem p hp with h | h
          · exact inv.maxL p (hQ p h) hlt
          · subst h
            intro hcon
            exact inv.maxL (a, b) (by simp) hlt (hcon.anti (by simp only; omega) (le_refl _))
        · intro p hp hlt
          rcases hmem p hp with h | h
          · have := hasc.2.2 p.1 (List.mem_map_of_mem _ h) a (by simp)
            exact inv.maxK p (hQ p h) (by omega)
          · subst h
            simp at hlt
      · have hlt : (m : Int) < b := by omega
        refine ⟨Q ++ [(a, b)] ++ [(k0, (m : Int))], (m : Int),
          by rw [hscan, NoVerify.record_snoc_ne _ _ _ _ _ _ hmb], ?_⟩
        have hmem : ∀ p ∈ Q ++ [(a, b)] ++ [(k0, (m : Int))],
            p ∈ Q ++ [(a, b)] ∨ p = (k0, (m : Int)) := by
          intro p hp
          rcases List.mem_append.1 hp with h | h
          · exact Or.inl h
          · right; simpa using h
        refine
          { sound := ?_, nonneg := ?_, below := ?_, asc := ?_, desc := ?_
            outMax_nil := by simp
            outMax_last := ?_, le_outMax0 := ?_, maxL := ?_, maxK := ?_ }
        · intro p hp
          rcases hmem p hp with h | h
          · exact inv.sound p h
          · subst h; exact hsup
        · intro p hp
          rcases hmem p hp with h | h
          · exact inv.nonneg p h
          · subst h; exact ⟨hk0, Int.natCast_nonneg _⟩
        · intro p hp
          rcases hmem p hp with h | h
          · have := inv.below p h; omega
          · subst h; simp
        · rw [List.map_append, List.pairwise_append]
          refine ⟨inv.asc, by simp, ?_⟩
          intro x hx y hy
          simp only [List.map_cons, List.map_nil, List.mem_singleton] at hy
          subst hy
          obtain ⟨p, hp, rfl⟩ := List.mem_map.1 hx
          exact inv.below p hp
        · rw [List.map_append, List.pairwise_append]
          refine ⟨inv.desc, by simp, ?_⟩
          intro x hx y hy
          simp only [List.map_cons, List.map_nil, List.mem_singleton] at hy
          subst hy
          rw [List.map_append, List.mem_append] at hx
          rcases hx with h | h
          · have := hdesc.2.2 x h b (by simp)
            simp only [gt_iff_lt] at this ⊢
            omega
          · simp at h
            subst h
            exact hlt
        · intro Q' a' b' h
          have := congrArg List.getLast? h
          simp at this
          exact this.2
        · intro p hp
          rcases hmem p hp with h | h
          · exact inv.le_outMax0 p h
          · subst h
            have := inv.le_outMax0 (a, b) (by simp)
            simp only at this ⊢
            omega
        · intro p hp hlt'
          rcases hmem p hp with h | h
          · exact inv.maxL p h hlt'
          · subst h
            have := hmax (m + 1) (by omega) (by omega)
            simpa using this
        · intro p hp hlt'
          rcases hmem p hp with h | h
          · by_cases h' : p.1 + 1 < k0
            · exact inv.maxK p h h'
            · have hpk : p.1 + 1 = k0 := by omega
              obtain ⟨Q', hP'⟩ := inv.top_is_last h hpk
              have hpe : p = (a, b) := by
                have := congrArg List.getLast? hP'
                simp at this
                exact this.symm
              subst hpe
              have hb := (inv.nonneg (a, b) (by simp)).2
              simp only at hb hpk ⊢
              have := hmax b.toNat (by omega) (by omega)
              rw [Int.toNat_of_nonneg hb] at this
              rw [hpk]
              exact this
          · subst h
            simp at hlt'

/-- The outer loop of `NoVerify` keeps the invariant and returns. -/
theorem NoVerify.loop_invariant {frag : Fragment} {ctx : DCoreOptimizedContext} {v : Nat}
    (hS : ∀ u, ctx.partial_result u ≠ [] ∧ WellFormed (ctx.partial_result u))
    (OutMax0 : Int) :
    ∀ (n : Nat) (k0 : Int) (P : List (Int × Int)) (OutMax : Int), 0 ≤ k0 →
      NoVerify.Inv frag ctx v OutMax0 k0 P OutMax →
      ∃ P' OutMax', NoVerify.loop frag ctx v n k0 (unpairs P) OutMax = .ok (unpairs P') ∧
        NoVerify.Inv frag ctx v OutMax0 (k0 + (n : Int)) P' OutMax'
  | 0, k0, P, OutMax, _, inv => ⟨P, OutMax, by simp [NoVerify.loop], by simpa using inv⟩
  | n + 1, k0, P, OutMax, hk0, inv => by
    obtain ⟨P1, O1, hscan, inv1⟩ := inv.step hS hk0
    obtain ⟨P2, O2, hloop, inv2⟩ := NoVerify.loop_invariant hS OutMax0 n (k0 + 1) P1 O1 (by omega) inv1
    refine ⟨P2, O2, ?_, ?_⟩
    · rw [NoVerify.loop]
      simp only [hscan]
      exact hloop
    · have e : k0 + ((n + 1 : Nat) : Int) = k0 + 1 + (n : Int) := by push_cast; ring
      rw [e]
      exact inv2

theorem NoVerify.Inv.init (frag : Fragment) (ctx : DCoreOptimizedContext) (v : Nat)
    (OutMax0 : Int) : NoVerify.Inv frag ctx v OutMax0 0 [] OutMax0 where
  sound := by simp
  nonneg := by simp
  below := by simp
  asc := by simp
  desc := by simp
  outMax_nil := fun _ => rfl
  outMax_last := by simp
  le_outMax0 := by simp
  maxL := by simp
  maxK := by simp

/-- With `InMax` below `INT_MAX` the result of `NoVerify` is that of the loop run
`InMax + 1` times. -/
theorem NoVerify.result_eq_loop {frag : Fragment} {ctx : DCoreOptimizedContext} {v : Nat}
    {OutMax InMax : Int} (hO : vecAt (ctx.partial_result v) 1 = .ok OutMax)
    (hI : vecAt (ctx.partial_result v) (((ctx.partial_result v).length : Int) - 2) = .ok InMax)
    (hmax : InMax < 2147483647) :
    NoVerify.result frag ctx v = NoVerify.loop frag ctx v (InMax + 1).toNat 0 [] OutMax := by
  unfold NoVerify.result
  simp only [hO, hI]
  rw [if_neg (by omega)]

/-- A call of `NoVerify` that ends with a result has read an `InMax` below
`INT_MAX`. -/
theorem NoVerify.bound_of_ok {frag : Fragment} {ctx : DCoreOptimizedContext} {v : Nat}
    {R : List Int} (h : NoVerify.result frag ctx v = .ok R) :
    ∀ I, vecAt (ctx.partial_result v) (((ctx.partial_result v).length : Int) - 2) = .ok I →
      I < 2147483647 := by
  intro I hI
  by_contra hcon
  unfold NoVerify.result at h
  cases hO : vecAt (ctx.partial_result v) 1 with
  | fault f => simp [hO] at h
  | ok OutMax =>
    simp only [hO, hI] at h
    rw [if_pos (by omega)] at h
    cases hl : NoVerify.loop frag ctx v 2147483648 0 [] OutMax with
    | fault f => simp [hl] at h
    | ok r => simp [hl] at h

/-- What `NoVerify` computes for a vertex with a non-empty well-formed committed
skyline whose last `k` is below `INT_MAX`, all other skylines being non-empty
and well formed as well: the call returns, and the pairs of its result satisfy
the loop invariant for `OutMax0 = partial_result[v][1]` and
`InMax = partial_result[v][size - 2]`. -/
theorem NoVerify.result_spec (frag : Fragment) (ctx : DCoreOptimizedContext) (v : Nat)
    (hS : ∀ u, ctx.partial_result u ≠ [] ∧ WellFormed (ctx.partial_result u))
    (hmax : ∀ I, vecAt (ctx.partial_result v) (((ctx.partial_result v).length : Int) - 2)
      = .ok I → I < 2147483647) :
    ∃ (OutMax0 InMax : Int) (P : List (Int × Int)) (OutMax : Int),
      vecAt (ctx.partial_result v) 1 = .ok OutMax0 ∧
      vecAt (ctx.partial_result v) (((ctx.partial_result v).length : Int) - 2) = .ok InMax ∧
      NoVerify.result frag ctx v = .ok (unpairs P) ∧
      NoVerify.Inv frag ctx v OutMax0 ((InMax + 1).toNat : Int) P OutMax := by
  obtain ⟨hne, heven, -, -⟩ := hS v
  have hpos : 0 < (ctx.partial_result v).length := List.length_pos.2 hne
  have h1 : 1 < (ctx.partial_result v).length := by omega
  have h2 : (ctx.partial_result v).length - 2 < (ctx.partial_result v).length := by omega
  have e1 : vecAt (ctx.partial_result v) 1 = .ok ((ctx.partial_result v)[1]) := by
    have := vecAt_natCast (List.getElem?_eq_getElem h1)
    simpa using this
  have e2 : vecAt (ctx.partial_result v) (((ctx.partial_result v).length : Int) - 2)
      = .ok ((ctx.partial_result v)[(ctx.partial_result v).length - 2]) := by
    have := vecAt_natCast (List.getElem?_eq_getElem h2)
    rw [← this]
    congr 1
    omega
  obtain ⟨P, O, hloop, inv⟩ := NoVerify.loop_invariant hS ((ctx.partial_result v)[1])
    ((ctx.partial_result v)[(ctx.partial_result v).length - 2] + 1).toNat 0 []
    ((ctx.partial_result v)[1]) (le_refl _) (NoVerify.Inv.init frag ctx v _)
  refine ⟨_, _, P, O, e1, e2, ?_, by simpa using inv⟩
  rw [NoVerify.result_eq_loop e1 e2 (hmax _ e2)]
  exact hloop

/-- At a vertex that `NoVerify` leaves alone (`update = false`) the committed
skyline is the computed result. -/
theorem NoVerify.result_of_false {frag : Fragment} {ctx : DCoreOptimizedContext} {v : Nat}
    {c : DCoreOptimizedContext} (h : NoVerify frag ctx v = .ok (false, c)) :
    NoVerify.result frag ctx v = .ok (ctx.partial_result v) := by
  unfold NoVerify at h
  cases hr : NoVerify.result frag ctx v with
  | fault f => simp [hr] at h
  | ok r =>
    simp only [hr] at h
    by_cases he : r = ctx.partial_result v
    · rw [he]
    · simp [he] at h

/-- The facts about a fixed point of `NoVerify` at `v`: every pair of the
committed skyline is supported, no pair with a successor `k` in the skyline can
have its `k` raised, no pair with a successor `l` can have its `l` raised. -/
theorem NoVerify.fixpoint_spec (frag : Fragment) (ctx : DCoreOptimizedContext) (v : Nat)
    (hS : ∀ u, ctx.partial_result u ≠ [] ∧ WellFormed (ctx.partial_result u))
    {c : DCoreOptimizedContext} (h : NoVerify frag ctx v = .ok (false, c)) :
    ∀ p ∈ pairs (ctx.partial_result v),
      Supported frag ctx v p.1 p.2 ∧
      ∀ q ∈ pairs (ctx.partial_result v),
        (p.1 < q.1 → ¬ Supported frag ctx v (p.1 + 1) p.2) ∧
        (p.2 < q.2 → ¬ Supported frag ctx v p.1 (p.2 + 1)) := by
  have hfix := NoVerify.result_of_false h
  obtain ⟨OutMax0, InMax, P, O, -, -, hres, inv⟩ := NoVerify.result_spec frag ctx v hS
    (NoVerify.bound_of_ok hfix)
  rw [hres] at hfix
  have hP : pairs (ctx.partial_result v) = P := by
    have := congrArg (fun o => match o with | Outcome.ok r => pairs r | _ => []) hfix
    simp only [pairs_unpairs] at this
    exact this.symm
  rw [hP]
  intro p hp
  refine ⟨inv.sound p hp, ?_⟩
  intro q hq
  constructor
  · intro hlt
    have := inv.below q hq
    exact inv.maxK p hp (by omega)
  · intro hlt
    have := inv.le_outMax0 q hq
    exact inv.maxL p hp (by omega)

/-! ## The attribute encoding of `Output` and its decoding in `PEval` -/

theorem digitChar_facts : ∀ d : Nat, d < 10 →
    (Nat.digitChar d).isDigit = true ∧ (Nat.digitChar d).toNat - 48 = d := by
  decide

theorem isDigit_ne_dot {c : Char} (h : c.isDigit = true) : c ≠ '.' := by
  rintro rfl
  exact absurd h (by decide)

theorem isDigit_not_isspace {c : Char} (h : c.isDigit = true) : isspace c = false := by
  have h1 : c ≠ ' ' := by rintro rfl; exact absurd h (by decide)
  have h2 : c ≠ '\t' := by rintro rfl; exact absurd h (by decide)
  have h3 : c ≠ '\n' := by rintro rfl; exact absurd h (by decide)
  have h4 : c ≠ '\x0b' := by rintro rfl; exact absurd h (by decide)
  have h5 : c ≠ '\x0c' := by rintro rfl; exact absurd h (by decide)
  have h6 : c ≠ '\r' := by rintro rfl; exact absurd h (by decide)
  simp [isspace, h1, h2, h3, h4, h5, h6]

theorem isDigit_ne_minus {c : Char} (h : c.isDigit = true) : c ≠ '-' := by
  rintro rfl
  exact absurd h (by decide)

theorem isDigit_ne_plus {c : Char} (h : c.isDigit = true) : c ≠ '+' := by
  rintro rfl
  exact absurd h (by decide)

theorem toDigitsCore_append : ∀ (fuel n : Nat) (acc : List Char),
    Nat.toDigitsCore 10 fuel n acc = Nat.toDigitsCore 10 fuel n [] ++ acc
  | 0, n, acc => by simp [Nat.toDigitsCore]
  | fuel + 1, n, acc => by
    simp only [Nat.toDigitsCore]
    split
    · simp
    · rw [toDigitsCore_append fuel (n / 10) (_ :: acc),
        toDigitsCore_append fuel (n / 10) [_]]
      simp

theorem stoi.value_append (ds : List Char) (c : Char) :
    stoi.value (ds ++ [c]) = 10 * stoi.value ds + (c.toNat - 48) := by
  simp [stoi.value, List.foldl_append]

/-- The decimal digits of `n` are a non-empty run of digit characters with
value `n`. -/
theorem toDigitsCore_spec : ∀ (fuel n : Nat), n < fuel →
    Nat.toDigitsCore 10 fuel n [] ≠ [] ∧
    (∀ c ∈ Nat.toDigitsCore 10 fuel n [], c.isDigit = true) ∧
    stoi.value (Nat.toDigitsCore 10 fuel n []) = n
  | 0, n, h => by omega
  | fuel + 1, n, h => by
    have hd := digitChar_facts (n % 10) (Nat.mod_lt _ (by decide))
    simp only [Nat.toDigitsCore]
    split
    · rename_i h0
      refine ⟨by simp, by simpa using hd.1, ?_⟩
      simp only [stoi.value, List.foldl, hd.2]
      omega
    · rename_i h0
      obtain ⟨h1, h2, h3⟩ := toDigitsCore_spec fuel (n / 10) (by omega)
      rw [toDigitsCore_append]
      refine ⟨by simp, ?_, ?_⟩
      · intro c hc
        rcases List.mem_append.1 hc with hc | hc
        · exact h2 c hc
        · simp at hc
          rw [hc]
          exact hd.1
      · rw [stoi.value_append, h3, hd.2]
        omega

theorem toDigits_spec (n : Nat) :
    Nat.toDigits 10 n ≠ [] ∧ (∀ c ∈ Nat.toDigits 10 n, c.isDigit = true) ∧
    stoi.value (Nat.toDigits 10 n) = n :=
  toDigitsCore_spec (n + 1) n (by omega)

/-- `std::stoi` on a non-empty run of digits. -/
theorem stoi_digits (ds : List Char) (hne : ds ≠ []) (hall : ∀ c ∈ ds, c.isDigit = true)
    (hr : (stoi.value ds : Int) ≤ 2147483647) : stoi ds = .ok (stoi.value ds : Int) := by
  obtain ⟨c, cs, rfl⟩ := List.exists_cons_of_ne_nil hne
  have hc := hall c (by simp)
  have hsp := isDigit_not_isspace hc
  have hm := isDigit_ne_minus hc
  have hp := isDigit_ne_plus hc
  have hdrop : (c :: cs).dropWhile isspace = c :: cs := by simp [List.dropWhile, hsp]
  have htake : (c :: cs).takeWhile Char.isDigit = c :: cs :=
    List.takeWhile_eq_self_iff.2 hall
  unfold stoi
  simp only [hdrop]
  have hmatch : (match c :: cs with
      | '-' :: r => r
      | '+' :: r => r
      | _ => c :: cs) = c :: cs := by
    split
    · rename_i heq; simp at heq; exact absurd heq.1 hm
    · rename_i heq; simp at heq; exact absurd heq.1 hp
    · rfl
  rw [hmatch, htake]
  have hv : (0 : Int) ≤ (stoi.value (c :: cs) : Int) := Int.natCast_nonneg _
  simp [hm]
  omega

/-- `std::stoi` on a minus sign followed by a non-empty run of digits. -/
theorem stoi_minus_digits (ds : List Char) (hne : ds ≠ [])
    (hall : ∀ c ∈ ds, c.isDigit = true) (hr : (stoi.value ds : Int) ≤ 2147483648) :
    stoi ('-' :: ds) = .ok (-(stoi.value ds : Int)) := by
  have hdrop : ('-' :: ds).dropWhile isspace = '-' :: ds := by
    simp [List.dropWhile, isspace]
  have htake : ds.takeWhile Char.isDigit = ds := List.takeWhile_eq_self_iff.2 hall
  unfold stoi
  simp only [hdrop]
  rw [htake]
  have hv : (0 : Int) ≤ (stoi.value ds : Int) := Int.natCast_nonneg _
  simp [hne]
  omega

theorem showInt_spec (x : Int) :
    showInt x ≠ [] ∧ (∀ c ∈ showInt x, c ≠ '.') := by
  cases x with
  | ofNat n =>
    obtain ⟨h1, h2, -⟩ := toDigits_spec n
    exact ⟨h1, fun c hc => isDigit_ne_dot (h2 c hc)⟩
  | negSucc n =>
    obtain ⟨-, h2, -⟩ := toDigits_spec (n + 1)
    refine ⟨by simp [showInt], ?_⟩
    intro c hc
    simp only [showInt, List.mem_cons] at hc
    rcases hc with rfl | hc
    · decide
    · exact isDigit_ne_dot (h2 c hc)

/-- Reading back what was written: `std::stoi` of the text of an `int`. -/
theorem stoi_showInt (x : Int) (hlo : -2147483648 ≤ x) (hhi : x ≤ 2147483647) :
    stoi (showInt x) = .ok x := by
  cases x with
  | ofNat n =>
    obtain ⟨h1, h2, h3⟩ := toDigits_spec n
    have := stoi_digits _ h1 h2 (by rw [h3]; exact hhi)
    rw [h3] at this
    exact this
  | negSucc n =>
    obtain ⟨h1, h2, h3⟩ := toDigits_spec (n + 1)
    have hx : Int.negSucc n = -((n + 1 : Nat) : Int) := rfl
    have := stoi_minus_digits _ h1 h2 (by rw [h3]; omega)
    rw [h3] at this
    rw [hx]
    exact this

/-- The text `Output` writes for a non-empty skyline is a dot followed by the
texts of the integers, separated by dots. -/
theorem Output.encode_cons : ∀ (x : Int) (rest : List Int),
    Output.encode (x :: rest) = '.' :: ['.'].intercalate ((x :: rest).map showInt)
  | x, [] => by simp [Output.encode, List.intercalate, List.intersperse]
  | x, y :: rest => by
    rw [Output.encode, Output.encode_cons y rest]
    simp [List.intercalate, List.intersperse]

/-- The tokens of dot separated pieces are the pieces, when no piece is empty or
contains a dot. -/
theorem tokens_intercalate (ls : List (List Char)) (hne : ls ≠ [])
    (h : ∀ l ∈ ls, l ≠ [] ∧ '.' ∉ l) : tokens (['.'].intercalate ls) = ls := by
  have hs : (['.'].intercalate ls).splitOn '.' = ls :=
    List.splitOn_intercalate ls '.' (fun l hl => (h l hl).2) hne
  unfold tokens
  simp only [hs]
  split
  · rfl
  · split
    · rename_i hl
      exact absurd rfl (h [] (List.mem_of_getLast?_eq_some hl)).1
    · rfl

theorem PEval.convert_map_showInt : ∀ (S : List Int),
    (∀ x ∈ S, -2147483648 ≤ x ∧ x ≤ 2147483647) → PEval.convert (S.map showInt) = .ok S
  | [], _ => by simp [PEval.convert]
  | x :: rest, h => by
    have hx := h x (by simp)
    have ih := PEval.convert_map_showInt rest (fun y hy => h y (List.mem_cons_of_mem _ hy))
    simp only [List.map_cons, PEval.convert, stoi_showInt x hx.1 hx.2, ih]

theorem PEval.convert_fault : ∀ (toks : List (List Char)) (tok : List Char), tok ∈ toks →
    (∃ f, stoi tok = .fault f) → ∃ f, PEval.convert toks = .fault f
  | [], tok, h, _ => by simp at h
  | t :: rest, tok, h, hf => by
    rw [PEval.convert]
    cases ht : stoi t with
    | fault f => exact ⟨f, rfl⟩
    | ok x =>
      rcases List.mem_cons.1 h with rfl | h'
      · obtain ⟨f, hf⟩ := hf
        rw [ht] at hf
        cases hf
      · obtain ⟨f, hf'⟩ := PEval.convert_fault rest tok h' hf
        exact ⟨f, by simp only [hf']⟩

/-- `std::stoi` throws `std::invalid_argument` on a token that does not start
with an integer. -/
theorem stoi_invalid (tok : List Char) (h : hasIntegerPrefix tok = false) :
    stoi tok = .fault .invalidArgument := by
  unfold hasIntegerPrefix at h
  unfold stoi
  simp only at h ⊢
  generalize (match tok.dropWhile isspace with
    | '-' :: r => r
    | '+' :: r => r
    | _ => tok.dropWhile isspace) = s2 at h ⊢
  cases s2 with
  | nil => simp
  | cons c cs =>
    simp only at h
    simp [List.takeWhile, h]

end DcoreOptimized

/-! ## The h-index refinement `HIndex` -/

namespace GetInCoreness

/-- The scan of `HIndex`: the result is `i + j + 1` for the last position `j`
whose element is at least `i + j + 1`, and the initial `h` when there is none. -/
theorem HIndex.loop_last : ∀ (rest : List Int) (i : Nat) (h : Int),
    (HIndex.loop rest i h = h ∧
      ∀ (j : Nat) (x : Int), rest[j]? = some x → x < (i : Int) + j + 1) ∨
    (∃ (j : Nat) (x : Int), rest[j]? = some x ∧ HIndex.loop rest i h = (i : Int) + j + 1 ∧
      (i : Int) + j + 1 ≤ x ∧
      ∀ (j' : Nat) (y : Int), j < j' → rest[j']? = some y → y < (i : Int) + j' + 1)
  | [], i, h => Or.inl ⟨by simp [HIndex.loop], by simp⟩
  | x :: rest, i, h => by
    have e : ((i : Int) + 1) = ((i + 1 : Nat) : Int) := by push_cast; ring
    rw [HIndex.loop, e]
    rcases HIndex.loop_last rest (i + 1) (if x ≥ ((i + 1 : Nat) : Int) then ((i + 1 : Nat) : Int) else h)
      with ⟨h1, h2⟩ | ⟨j, y, hj, h1, h2, h3⟩
    · by_cases hx : x ≥ ((i + 1 : Nat) : Int)
      · right
        refine ⟨0, x, by simp, ?_, ?_, ?_⟩
        · rw [h1, if_pos hx]; push_cast; ring
        · push_cast at hx ⊢; omega
        · intro j' y hj' hy
          obtain ⟨j'', rfl⟩ : ∃ j'', j' = j'' + 1 := ⟨j' - 1, by omega⟩
          rw [List.getElem?_cons_succ] at hy
          have := h2 j'' y hy
          push_cast at this ⊢
          omega
      · left
        refine ⟨by rw [h1, if_neg hx], ?_⟩
        intro j y hy
        cases j with
        | zero =>
          simp at hy
          subst hy
          push_cast at hx ⊢
          omega
        | succ j'' =>
          rw [List.getElem?_cons_succ] at hy
          have := h2 j'' y hy
          push_cast at this ⊢
          omega
    · right
      refine ⟨j + 1, y, by simpa using hj, ?_, ?_, ?_⟩
      · rw [h1]; push_cast; ring
      · push_cast at h2 ⊢; omega
      · intro j' z hj' hz
        obtain ⟨j'', rfl⟩ : ∃ j'', j' = j'' + 1 := ⟨j' - 1, by omega⟩
        rw [List.getElem?_cons_succ] at hz
        have := h3 j'' z (by omega) hz
        push_cast at this ⊢
        omega

theorem atLeast_le_length (vals : List Int) (t : Int) : atLeast vals t ≤ vals.length :=
  List.countP_le_length _

/-- In a descending list, an element at position `j` that is at least `t` has
`j + 1` elements at least `t` up to and including itself. -/
theorem succ_le_atLeast : ∀ (L : List Int), L.Sorted (fun a b => a ≥ b) →
    ∀ (j : Nat) (x t : Int), L[j]? = some x → t ≤ x → j + 1 ≤ atLeast L t
  | [], _, j, x, t, hj, _ => by simp at hj
  | y :: L, hs, 0, x, t, hj, hx => by
    simp at hj
    subst hj
    simp [atLeast, List.countP_cons, hx]
  | y :: L, hs, j + 1, x, t, hj, hx => by
    rw [List.getElem?_cons_succ] at hj
    have hs' := List.sorted_cons.1 hs
    have ih := succ_le_atLeast L hs'.2 j x t hj hx
    have hy : t ≤ y := le_trans hx (hs'.1 x (List.mem_iff_getElem?.2 ⟨j, hj⟩))
    simp only [atLeast, List.countP_cons, hy, decide_True, if_true] at ih ⊢
    omega

/-- In a descending list, an element at position `j` that is below `t` leaves at
most `j` elements at least `t`. -/
theorem atLeast_le : ∀ (L : List Int), L.Sorted (fun a b => a ≥ b) →
    ∀ (j : Nat) (x t : Int), L[j]? = some x → x < t → atLeast L t ≤ j
  | [], _, j, x, t, hj, _ => by simp at hj
  | y :: L, hs, 0, x, t, hj, hx => by
    simp at hj
    subst hj
    have hs' := List.sorted_cons.1 hs
    rw [atLeast, Nat.le_zero, List.countP_eq_zero]
    intro z hz
    simp only [List.mem_cons] at hz
    simp only [decide_eq_true_eq, not_le]
    rcases hz with rfl | hz
    · exact hx
    · exact lt_of_le_of_lt (hs'.1 z hz) hx
  | y :: L, hs, j + 1, x, t, hj, hx => by
    rw [List.getElem?_cons_succ] at hj
    have hs' := List.sorted_cons.1 hs
    have ih := atLeast_le L hs'.2 j x t hj hx
    simp only [atLeast, List.countP_cons] at ih ⊢
    split <;> omega

/-- The scan of `HIndex` on a descending list yields its h-index. -/
theorem HIndex.loop_isHIndex (L : List Int) (hs : L.Sorted (fun a b => a ≥ b)) :
    IsHIndex L (HIndex.loop L 0 0) := by
  have hlen := fun t => atLeast_le_length L t
  rcases HIndex.loop_last L 0 0 with ⟨h1, h2⟩ | ⟨j, x, hj, h1, h2, h3⟩
  · simp only [Nat.cast_zero, zero_add] at h1 h2
    rw [h1]
    refine ⟨Int.natCast_nonneg _, ?_⟩
    intro h' hh'
    by_contra hcon
    have hjlt : (h' - 1).toNat < L.length := by have := hlen h'; omega
    have hx := h2 (h' - 1).toNat L[(h' - 1).toNat] (List.getElem?_eq_getElem hjlt)
    have := atLeast_le L hs _ _ h' (List.getElem?_eq_getElem hjlt) (by omega)
    omega
  · simp only [Nat.cast_zero, zero_add] at h1 h2 h3
    rw [h1]
    constructor
    · have := succ_le_atLeast L hs j x ((j : Int) + 1) hj h2
      push_cast at this ⊢
      omega
    · intro h' hh'
      by_contra hcon
      push_cast at hcon
      have hjlt : (h' - 1).toNat < L.length := by have := hlen h'; omega
      have hx := h3 (h' - 1).toNat L[(h' - 1).toNat] (by omega) (List.getElem?_eq_getElem hjlt)
      have := atLeast_le L hs _ _ h' (List.getElem?_eq_getElem hjlt) (by omega)
      omega

theorem atLeast_sortDescending (vals : List Int) (t : Int) :
    atLeast (sortDescending vals) t = atLeast vals t :=
  (List.perm_insertionSort _ vals).countP_eq _

theorem sortDescending_sorted (vals : List Int) :
    (sortDescending vals).Sorted (fun a b => a ≥ b) :=
  List.sorted_insertionSort _ vals

/-- The value `h` of `HIndex` is the h-index of the in-neighbour values. -/
theorem HIndex.h_isHIndex (frag : Fragment) (ctx : GetInCorenessContext) (v : Nat) :
    IsHIndex ((frag.incoming v).map ctx.partial_result) (HIndex.h frag ctx v) := by
  have := HIndex.loop_isHIndex _ (sortDescending_sorted ((frag.incoming v).map ctx.partial_result))
  unfold IsHIndex at this ⊢
  simp only [atLeast_sortDescending] at this
  exact this

theorem IsHIndex.unique {vals : List Int} {h h' : Int} (a : IsHIndex vals h)
    (b : IsHIndex vals h') : h = h' :=
  le_antisymm (b.2 h a.1) (a.2 h' b.1)

theorem HIndex.h_congr (frag : Fragment) {c c' : GetInCorenessContext}
    (h : c.partial_result = c'.partial_result) (v : Nat) :
    HIndex.h frag c v = HIndex.h frag c' v := by
  simp only [HIndex.h, HIndex.h_vec, h]

theorem HIndex_fst (frag : Fragment) (ctx : GetInCorenessContext) (v : Nat) :
    (HIndex frag ctx v).1 = decide (HIndex.h frag ctx v < ctx.partial_result v) := by
  unfold HIndex
  by_cases h : ctx.partial_result v > HIndex.h frag ctx v
  · have h' : HIndex.h frag ctx v < ctx.partial_result v := h
    simp only [h, if_true, h', decide_True]
  · have h' : ¬ HIndex.h frag ctx v < ctx.partial_result v := h
    simp only [h, if_false, h', decide_False]

theorem HIndex_partial_result (frag : Fragment) (ctx : GetInCorenessContext) (v : Nat) :
    (HIndex frag ctx v).2.partial_result
      = Function.update ctx.partial_result v
          (min (ctx.partial_result v) (HIndex.h frag ctx v)) := by
  unfold HIndex
  by_cases h : ctx.partial_result v > HIndex.h frag ctx v
  · simp only [h, if_true]
    rw [min_eq_right (le_of_lt h)]
  · simp only [h, if_false]
    rw [min_eq_left (not_lt.1 h), Function.update_eq_self]

theorem HIndex_le (frag : Fragment) (ctx : GetInCorenessContext) (v u : Nat) :
    (HIndex frag ctx v).2.partial_result u ≤ ctx.partial_result u := by
  rw [HIndex_partial_result]
  by_cases h : u = v
  · subst h
    simp
  · simp [Function.update_noteq h]

theorem IncEval.merge_le : ∀ (messages : List (Nat × Int)) (ctx : GetInCorenessContext)
    (u : Nat), (IncEval.merge messages ctx).partial_result u ≤ ctx.partial_result u
  | [], ctx, u => by simp [IncEval.merge]
  | (w, msg) :: rest, ctx, u => by
    rw [IncEval.merge]
    refine le_trans (IncEval.merge_le rest _ u) ?_
    by_cases h : ctx.partial_result w > msg
    · simp only [h, if_true]
      by_cases hu : u = w
      · subst hu
        simp
        exact le_of_lt h
      · simp [Function.update_noteq hu]
    · simp only [h, if_false, le_refl]

theorem IncEval.sweep_le (frag : Fragment) : ∀ (vs : List Nat) (ctx : GetInCorenessContext)
    (u : Nat), (IncEval.sweep frag vs ctx).1.partial_result u ≤ ctx.partial_result u
  | [], ctx, u => by simp [IncEval.sweep]
  | v :: vs, ctx, u => by
    rw [IncEval.sweep]
    exact le_trans (IncEval.sweep_le frag vs _ u) (HIndex_le frag ctx v u)

theorem atLeast_map_mono (adj : List Nat) {f g : Nat → Int} (hfg : ∀ u, f u ≤ g u) (t : Int) :
    atLeast (adj.map f) t ≤ atLeast (adj.map g) t := by
  simp only [atLeast, List.countP_map]
  apply List.countP_mono_left
  intro u _ h
  simp only [Function.comp_apply, decide_eq_true_eq] at h ⊢
  exact le_trans h (hfg u)

/-- The h-index is monotone in the values of the neighbours. -/
theorem HIndex.h_mono (frag : Fragment) {c c' : GetInCorenessContext}
    (hle : ∀ u, c'.partial_result u ≤ c.partial_result u) (v : Nat) :
    HIndex.h frag c' v ≤ HIndex.h frag c v := by
  have h' := HIndex.h_isHIndex frag c' v
  have h := HIndex.h_isHIndex frag c v
  apply h.2
  have := atLeast_map_mono (frag.incoming v) hle (HIndex.h frag c' v)
  have := h'.1
  omega

theorem HIndex.h_le_degree (frag : Fragment) (ctx : GetInCorenessContext) (v : Nat) :
    HIndex.h frag ctx v ≤ frag.GetLocalInDegree v := by
  have h := (HIndex.h_isHIndex frag ctx v).1
  have := atLeast_le_length ((frag.incoming v).map ctx.partial_result) (HIndex.h frag ctx v)
  simp only [List.length_map] at this
  unfold Fragment.GetLocalInDegree
  omega

theorem PEval.init_spec (frag : Fragment) : ∀ (vs : List Nat) (ctx : GetInCorenessContext)
    (v : Nat), (PEval.init frag vs ctx).partial_result v
      = if v ∈ vs then frag.GetLocalInDegree v else ctx.partial_result v
  | [], ctx, v => by simp [PEval.init]
  | w :: vs, ctx, v => by
    rw [PEval.init, PEval.init_spec frag vs]
    by_cases h1 : v ∈ vs
    · simp [h1]
    · by_cases h2 : v = w
      · subst h2
        simp [h1]
      · simp [h1, h2, Function.update_noteq h2]

/-- One call of `HIndex` keeps every coreness at or above the h-index of its
in-neighbour values. -/
theorem HIndex_invariant (frag : Fragment) (ctx : GetInCorenessContext) (w : Nat)
    (inv : ∀ v ∈ frag.innerVertices, HIndex.h frag ctx v ≤ ctx.partial_result v) :
    ∀ v ∈ frag.innerVertices,
      HIndex.h frag (HIndex frag ctx w).2 v ≤ (HIndex frag ctx w).2.partial_result v := by
  intro v hv
  have hmono := HIndex.h_mono frag (fun u => HIndex_le frag ctx w u) v
  rw [HIndex_partial_result]
  by_cases h : v = w
  · subst h
    simp only [Function.update_same]
    exact le_min (le_trans hmono (inv v hv)) hmono
  · rw [Function.update_noteq h]
    exact le_trans hmono (inv v hv)

theorem IncEval.sweep_invariant (frag : Fragment) :
    ∀ (vs : List Nat) (ctx : GetInCorenessContext),
      (∀ v ∈ frag.innerVertices, HIndex.h frag ctx v ≤ ctx.partial_result v) →
      ∀ v ∈ frag.innerVertices,
        HIndex.h frag (IncEval.sweep frag vs ctx).1 v
          ≤ (IncEval.sweep frag vs ctx).1.partial_result v
  | [], ctx, inv => by simpa [IncEval.sweep] using inv
  | w :: vs, ctx, inv => by
    rw [IncEval.sweep]
    exact IncEval.sweep_invariant frag vs _ (HIndex_invariant frag ctx w inv)

/-- In every state of a run on a single fragment every coreness is at least the
h-index of the in-neighbour values. -/
theorem Reachable.invariant {frag : Fragment} {ctx : GetInCorenessContext}
    (hr : Reachable frag ctx) :
    ∀ v ∈ frag.innerVertices, HIndex.h frag ctx v ≤ ctx.partial_result v := by
  induction hr with
  | peval ctx0 =>
    intro v hv
    simp only [PEval, PEval.init_spec, hv, if_true]
    exact HIndex.h_le_degree frag _ v
  | inceval ctx _ ih =>
    simp only [IncEval, IncEval.merge]
    exact IncEval.sweep_invariant frag _ _ ih

/-- A sweep that sends nothing changes no coreness, and found every vertex it
visited at or below the h-index of its in-neighbour values. -/
theorem IncEval.sweep_quiet (frag : Fragment) :
    ∀ (vs : List Nat) (ctx : GetInCorenessContext), (IncEval.sweep frag vs ctx).2 = [] →
      (IncEval.sweep frag vs ctx).1.partial_result = ctx.partial_result ∧
      ∀ v ∈ vs, ctx.partial_result v ≤ HIndex.h frag ctx v
  | [], ctx, _ => by simp [IncEval.sweep]
  | w :: vs, ctx, hq => by
    rw [IncEval.sweep] at hq ⊢
    simp only at hq ⊢
    have hfalse : (HIndex frag ctx w).1 = false := by
      cases hb : (HIndex frag ctx w).1 with
      | false => rfl
      | true => simp [hb] at hq
    simp only [hfalse, Bool.false_eq_true, if_false] at hq
    have hw : ctx.partial_result w ≤ HIndex.h frag ctx w := by
      rw [HIndex_fst] at hfalse
      exact not_lt.1 (of_decide_eq_false hfalse)
    have hsame : (HIndex frag ctx w).2.partial_result = ctx.partial_result := by
      rw [HIndex_partial_result, min_eq_left hw, Function.update_eq_self]
    obtain ⟨h1, h2⟩ := IncEval.sweep_quiet frag vs _ hq
    refine ⟨by rw [h1, hsame], ?_⟩
    intro v hv
    rcases List.mem_cons.1 hv with rfl | hv
    · exact hw
    · have := h2 v hv
      rw [hsame, HIndex.h_congr frag hsame] at this
      exact this

end GetInCoreness

/-! ## `BiSearch` on arbitrary vectors -/

namespace DcoreOptimized

/-- The loop of `BiSearch` on any vector whose last `k` entry is at least the
query: it ends within its fuel, reads inside the vector, and leaves `first` below
the number of pairs.  The end `first + len` of the search range is the number of
pairs or the position of a probe that was at least the query. -/
theorem BiSearch.loop_in_bounds (S : List Int) (k xl : Int)
    (hlast : S[2 * (S.length / 2 - 1)]? = some xl) (hge : k ≤ xl) :
    ∀ (fuel first len : Nat), len ≤ fuel → first + len ≤ S.length / 2 →
      (first + len < S.length / 2 ∨ 0 < len) →
      ∃ f : Nat, BiSearch.loop S k fuel first len = .ok (f : Int) ∧ f < S.length / 2 := by
  intro fuel
  induction fuel with
  | zero =>
    intro first len hl _ hor
    have : len = 0 := by omega
    subst this
    exact ⟨first, by simp [BiSearch.loop], by omega⟩
  | succ fuel ih =>
    intro first len hl hn hor
    by_cases hpos : len = 0
    · subst hpos
      exact ⟨first, by simp [BiSearch.loop], by omega⟩
    · have hlen : (0 : Int) < (len : Int) := by omega
      have hhalf : ((len : Int) / 2) = (Nat.cast (len / 2) : Int) := by omega
      have hmid : 2 * (first + len / 2) < S.length := by omega
      obtain ⟨x, hx⟩ : ∃ x, S[2 * (first + len / 2)]? = some x :=
        ⟨_, List.getElem?_eq_getElem hmid⟩
      have hread : vecAt S (2 * ((first : Int) + (Nat.cast (len / 2) : Int))) = .ok x := by
        have hidx : 2 * ((first : Int) + (Nat.cast (len / 2) : Int))
            = (Nat.cast (2 * (first + len / 2)) : Int) := by push_cast; ring
        rw [hidx]
        exact vecAt_natCast hx
      by_cases hxk : k ≤ x
      · obtain ⟨f, hf, hfn⟩ := ih first (len / 2) (by omega) (by omega) (Or.inl (by omega))
        refine ⟨f, ?_, hfn⟩
        rw [BiSearch.loop]
        simp only [hlen, gt_iff_lt, if_true, hhalf, hread, ge_iff_le, hxk]
        exact hf
      · have hsub : (len : Int) - (Nat.cast (len / 2) : Int) - 1
            = (Nat.cast (len - len / 2 - 1) : Int) := by omega
        have hfirst : (first : Int) + (Nat.cast (len / 2) : Int) + 1
            = (Nat.cast (first + len / 2 + 1) : Int) := by omega
        have hor' : first + len / 2 + 1 + (len - len / 2 - 1) < S.length / 2 ∨
            0 < len - len / 2 - 1 := by
          by_contra hcon
          have h1 : first + len / 2 = S.length / 2 - 1 := by omega
          rw [h1, hlast] at hx
          cases hx
          exact hxk hge
        obtain ⟨f, hf, hfn⟩ := ih (first + len / 2 + 1) (len - len / 2 - 1) (by omega)
          (by omega) hor'
        refine ⟨f, ?_, hfn⟩
        rw [BiSearch.loop]
        simp only [hlen, gt_iff_lt, if_true, hhalf, hread, ge_iff_le, hxk, if_false]
        rw [hfirst, hsub]
        exact hf

/-- The first read of `BiSearch`, at the `k` entry of the last pair, is inside
every vector that holds a pair. -/
theorem BiSearch.read_last (S : List Int) (h : 2 ≤ S.length) :
    ∃ xl, S[2 * (S.length / 2 - 1)]? = some xl ∧
      vecAt S ((Nat.cast (S.length / 2) : Int) * 2 - 2) = .ok xl := by
  have hlt : 2 * (S.length / 2 - 1) < S.length := by omega
  refine ⟨S[2 * (S.length / 2 - 1)], List.getElem?_eq_getElem hlt, ?_⟩
  have hidx : (Nat.cast (S.length / 2) : Int) * 2 - 2
      = (Nat.cast (2 * (S.length / 2 - 1)) : Int) := by omega
  rw [hidx]
  exact vecAt_natCast (List.getElem?_eq_getElem hlt)

/-- The query `BiSearch` returns on every vector that holds a pair. -/
theorem BiSearch_total (S : List Int) (k l : Int) (h : 2 ≤ S.length) :
    ∃ b, BiSearch S k l = .ok b := by
  obtain ⟨xl, hxl, hread⟩ := BiSearch.read_last S h
  unfold BiSearch
  simp only [hread]
  by_cases hlt : xl < k
  · exact ⟨false, by simp only [hlt, if_true]⟩
  · simp only [hlt, if_false]
    obtain ⟨f, hf, hfn⟩ := BiSearch.loop_in_bounds S k xl hxl (by omega) (S.length / 2) 0
      (S.length / 2) (le_refl _) (by omega) (Or.inr (by omega))
    have hf' : BiSearch.loop S k (S.length / 2) 0 (Nat.cast (S.length / 2) : Int)
        = .ok (f : Int) := by simpa using hf
    have h2 : 2 * f + 1 < S.length := by omega
    have hread2 : vecAt S (2 * (f : Int) + 1) = .ok S[2 * f + 1] := by
      have hidx : 2 * (f : Int) + 1 = (Nat.cast (2 * f + 1) : Int) := by push_cast; ring
      rw [hidx]
      exact vecAt_natCast (List.getElem?_eq_getElem h2)
    exact ⟨decide (S[2 * f + 1] ≥ l), by simp only [hf', hread2]⟩

end DcoreOptimized

/-! ## The shape of the result of `NoVerify` -/

namespace DcoreOptimized

theorem NoVerify.count_total (pr : Nat → List Int) (k l bound : Int) :
    ∀ (adj : List Nat), (∀ u ∈ adj, 2 ≤ (pr u).length) → ∀ c : Int,
      ∃ c', NoVerify.count pr k l bound adj c = .ok c'
  | [], _, c => ⟨c, by simp [NoVerify.count]⟩
  | u :: es, hS, c => by
    obtain ⟨b, hb⟩ := BiSearch_total (pr u) k l (hS u (List.mem_cons_self _ _))
    rw [NoVerify.count]
    simp only [hb]
    by_cases hge : bound ≤ (if b = true then c + 1 else c)
    · exact ⟨(if b = true then c + 1 else c), by simp only [ge_iff_le, hge, if_true]⟩
    · obtain ⟨c', hc'⟩ := NoVerify.count_total pr k l bound es
        (fun w hw => hS w (List.mem_cons_of_mem _ hw)) (if b = true then c + 1 else c)
      exact ⟨c', by simp only [ge_iff_le, hge, if_false]; exact hc'⟩

/-- The inner loop of `NoVerify` either records nothing or records one `l`
below its start. -/
theorem NoVerify.scan_shape (frag : Fragment) (ctx : DCoreOptimizedContext) (v : Nat)
    (hin : ∀ u ∈ frag.incoming v, 2 ≤ (ctx.partial_result u).length)
    (hout : ∀ u ∈ frag.outgoing v, 2 ≤ (ctx.partial_result u).length)
    (k : Int) (result : List Int) (OutMax : Int) :
    ∀ n : Nat,
      NoVerify.scan frag ctx v k result OutMax n = .ok (result, OutMax) ∨
      ∃ m : Nat, m < n ∧
        NoVerify.scan frag ctx v k result OutMax n = NoVerify.record k (m : Int) result OutMax
  | 0 => Or.inl (by simp [NoVerify.scan])
  | n + 1 => by
    obtain ⟨inc, hinc⟩ := NoVerify.count_total ctx.partial_result k (n : Int) k
      (frag.incoming v) hin 0
    obtain ⟨out, hout'⟩ := NoVerify.count_total ctx.partial_result k (n : Int) (n : Int)
      (frag.outgoing v) hout 0
    rw [NoVerify.scan]
    simp only [hinc, hout']
    by_cases h : inc ≥ k ∧ out ≥ (n : Int)
    · right
      exact ⟨n, by omega, by rw [if_pos h]⟩
    · rw [if_neg h]
      rcases NoVerify.scan_shape frag ctx v hin hout k result OutMax n with h1 | ⟨m, hm, h1⟩
      · exact Or.inl h1
      · exact Or.inr ⟨m, by omega, h1⟩

theorem NoVerify.Shape.step_shape {frag : Fragment} {ctx : DCoreOptimizedContext} {v : Nat}
    (hin : ∀ u ∈ frag.incoming v, 2 ≤ (ctx.partial_result u).length)
    (hout : ∀ u ∈ frag.outgoing v, 2 ≤ (ctx.partial_result u).length)
    {k0 : Int} {P : List (Int × Int)} {OutMax : Int} (hk0 : 0 ≤ k0)
    (sh : NoVerify.Shape k0 P OutMax) :
    ∃ P' OutMax',
      NoVerify.scan frag ctx v k0 (unpairs P) OutMax (OutMax + 1).toNat
        = .ok (unpairs P', OutMax') ∧
      NoVerify.Shape (k0 + 1) P' OutMax' := by
  rcases NoVerify.scan_shape frag ctx v hin hout k0 (unpairs P) OutMax (OutMax + 1).toNat with
    hscan | ⟨m, hm, hscan⟩
  · exact ⟨P, OutMax, hscan,
      { nonneg := sh.nonneg
        below := fun p hp => by have := sh.below p hp; omega
        asc := sh.asc, desc := sh.desc, outMax_last := sh.outMax_last }⟩
  · have hmO : (m : Int) ≤ OutMax := by omega
    rcases eq_nil_or_snoc P with hP | ⟨Q, a, b, hP⟩
    · subst hP
      refine ⟨[(k0, (m : Int))], (m : Int), by rw [hscan, NoVerify.record_nil], ?_⟩
      refine
        { nonneg := by simp [hk0]
          below := by simp
          asc := by simp
          desc := by simp
          outMax_last := ?_ }
      intro Q a b h
      have := congrArg List.getLast? h
      simp at this
      exact this.2
    · subst hP
      have hO := sh.outMax_last Q a b rfl
      have hasc := sh.asc
      have hdesc := sh.desc
      rw [List.map_append, List.pairwise_append] at hasc hdesc
      have hab := sh.below (a, b) (by simp)
      simp only at hab
      by_cases hmb : (m : Int) = b
      · refine ⟨Q ++ [(k0, b)], OutMax, by rw [hscan, hmb, NoVerify.record_snoc_eq], ?_⟩
        have hQ : ∀ q ∈ Q, q ∈ Q ++ [(a, b)] := fun q hq => List.mem_append_left _ hq
        have hmem : ∀ p ∈ Q ++ [(k0, b)], p ∈ Q ∨ p = (k0, b) := by
          intro p hp
          simpa using hp
        refine { nonneg := ?_, below := ?_, asc := ?_, desc := ?_, outMax_last := ?_ }
        · intro p hp
          rcases hmem p hp with h | h
          · exact sh.nonneg p (hQ p h)
          · subst h; exact ⟨hk0, (sh.nonneg (a, b) (by simp)).2⟩
        · intro p hp
          rcases hmem p hp with h | h
          · have := sh.below p (hQ p h); omega
          · subst h; simp
        · rw [List.map_append, List.pairwise_append]
          refine ⟨hasc.1, by simp, ?_⟩
          intro x hx y hy
          simp at hy
          subst hy
          have := hasc.2.2 x hx a (by simp)
          omega
        · rw [List.map_append, List.pairwise_append]
          exact ⟨hdesc.1, by simp, by simpa using hdesc.2.2⟩
        · intro Q' a' b' h
          have := congrArg List.getLast? h
          simp at this
          rw [hO]
          exact this.2
      · have hlt : (m : Int) < b := by omega
        refine ⟨Q ++ [(a, b)] ++ [(k0, (m : Int))], (m : Int),
          by rw [hscan, NoVerify.record_snoc_ne _ _ _ _ _ _ hmb], ?_⟩
        have hmem : ∀ p ∈ Q ++ [(a, b)] ++ [(k0, (m : Int))],
            p ∈ Q ++ [(a, b)] ∨ p = (k0, (m : Int)) := by
          intro p hp
          rcases List.mem_append.1 hp with h | h
          · exact Or.inl h
          · right; simpa using h
        refine { nonneg := ?_, below := ?_, asc := ?_, desc := ?_, outMax_last := ?_ }
        · intro p hp
          rcases hmem p hp with h | h
          · exact sh.nonneg p h
          · subst h; exact ⟨hk0, Int.natCast_nonneg _⟩
        · intro p hp
          rcases hmem p hp with h | h
          · have := sh.below p h; omega
          · subst h; simp
        · rw [List.map_append, List.pairwise_append]
          refine ⟨sh.asc, by simp, ?_⟩
          intro x hx y hy
          simp only [List.map_cons, List.map_nil, List.mem_singleton] at hy
          subst hy
          obtain ⟨p, hp, rfl⟩ := List.mem_map.1 hx
          exact sh.below p hp
        · rw [List.map_append, List.pairwise_append]
          refine ⟨sh.desc, by simp, ?_⟩
          intro x hx y hy
          simp only [List.map_cons, List.map_nil, List.mem_singleton] at hy
          subst hy
          rw [List.map_append, List.mem_append] at hx
          rcases hx with h | h
          · have := hdesc.2.2 x h b (by simp)
            simp only [gt_iff_lt] at this ⊢
            omega
          · simp at h
            subst h
            exact hlt
        · intro Q' a' b' h
          have := congrArg List.getLast? h
          simp at this
          exact this.2

theorem NoVerify.loop_shape {frag : Fragment} {ctx : DCoreOptimizedContext} {v : Nat}
    (hin : ∀ u ∈ frag.incoming v, 2 ≤ (ctx.partial_result u).length)
    (hout : ∀ u ∈ frag.outgoing v, 2 ≤ (ctx.partial_result u).length) :
    ∀ (n : Nat) (k0 : Int) (P : List (Int × Int)) (OutMax : Int), 0 ≤ k0 →
      NoVerify.Shape k0 P OutMax →
      ∃ P' OutMax', NoVerify.loop frag ctx v n k0 (unpairs P) OutMax = .ok (unpairs P') ∧
        NoVerify.Shape (k0 + (n : Int)) P' OutMax'
  | 0, k0, P, OutMax, _, sh => ⟨P, OutMax, by simp [NoVerify.loop], by simpa using sh⟩
  | n + 1, k0, P, OutMax, hk0, sh => by
    obtain ⟨P1, O1, hscan, sh1⟩ := sh.step_shape hin hout hk0
    obtain ⟨P2, O2, hloop, sh2⟩ := NoVerify.loop_shape hin hout n (k0 + 1) P1 O1 (by omega) sh1
    refine ⟨P2, O2, ?_, ?_⟩
    · rw [NoVerify.loop]
      simp only [hscan]
      exact hloop
    · have e : k0 + ((n + 1 : Nat) : Int) = k0 + 1 + (n : Int) := by push_cast; ring
      rw [e]
      exact sh2

theorem wellFormed_unpairs (P : List (Int × Int)) (hasc : (P.map Prod.fst).Pairwise (· < ·))
    (hdesc : (P.map Prod.snd).Pairwise (· > ·)) : WellFormed (unpairs P) := by
  refine ⟨by rw [unpairs_length]; omega, ?_, ?_⟩
  · rw [pairs_unpairs]; exact hasc
  · rw [pairs_unpairs]; exact hdesc

/-- The pairs of a well-formed skyline are pairwise non-dominated. -/
theorem WellFormed.not_dominated {S : List Int} (hwf : WellFormed S) {p q : Int × Int}
    (hp : p ∈ pairs S) (hq : q ∈ pairs S) (h1 : p.1 ≤ q.1) (h2 : p.2 ≤ q.2) : p = q := by
  obtain ⟨i, hi⟩ := List.mem_iff_getElem?.1 hp
  obtain ⟨j, hj⟩ := List.mem_iff_getElem?.1 hq
  rcases Nat.lt_trichotomy i j with h | h | h
  · have := snd_gt_of_lt hwf.2.2 hi hj h
    omega
  · subst h
    rw [hi] at hj
    exact Option.some.inj hj
  · have := fst_lt_of_lt hwf.2.1 hj hi h
    omega

/-- The recomputation `NoVerify` returns a well-formed skyline with non-negative
entries whenever the committed skyline of `v` and the skylines of its
neighbours hold at least one pair. -/
theorem NoVerify.result_shape (frag : Fragment) (ctx : DCoreOptimizedContext) (v : Nat)
    (hv : 2 ≤ (ctx.partial_result v).length)
    (hin : ∀ u ∈ frag.incoming v, 2 ≤ (ctx.partial_result u).length)
    (hout : ∀ u ∈ frag.outgoing v, 2 ≤ (ctx.partial_result u).length)
    (hmax : ∀ I, vecAt (ctx.partial_result v) (((ctx.partial_result v).length : Int) - 2)
      = .ok I → I < 2147483647) :
    ∃ R, NoVerify.result frag ctx v = .ok R ∧ WellFormed R ∧
      ∀ p ∈ pairs R, 0 ≤ p.1 ∧ 0 ≤ p.2 := by
  have h1 : 1 < (ctx.partial_result v).length := by omega
  have h2 : (ctx.partial_result v).length - 2 < (ctx.partial_result v).length := by omega
  have e1 : vecAt (ctx.partial_result v) 1 = .ok ((ctx.partial_result v)[1]) := by
    have := vecAt_natCast (List.getElem?_eq_getElem h1)
    simpa using this
  have e2 : vecAt (ctx.partial_result v) (((ctx.partial_result v).length : Int) - 2)
      = .ok ((ctx.partial_result v)[(ctx.partial_result v).length - 2]) := by
    have := vecAt_natCast (List.getElem?_eq_getElem h2)
    rw [← this]
    congr 1
    omega
  obtain ⟨P, O, hloop, sh⟩ := NoVerify.loop_shape hin hout
    ((ctx.partial_result v)[(ctx.partial_result v).length - 2] + 1).toNat 0 []
    ((ctx.partial_result v)[1]) (le_refl _)
    { nonneg := by simp, below := by simp, asc := by simp, desc := by simp
      outMax_last := by simp }
  refine ⟨unpairs P, ?_, wellFormed_unpairs P sh.asc sh.desc, ?_⟩
  · rw [NoVerify.result_eq_loop e1 e2 (hmax _ e2)]
    exact hloop
  · rw [pairs_unpairs]
    exact sh.nonneg

end DcoreOptimized

/-! ## `NoVerify` at an isolated vertex -/

namespace DcoreOptimized

theorem NoVerify.scan_isolated_zero (frag : Fragment) (ctx : DCoreOptimizedContext) (v : Nat)
    (hin : frag.incoming v = []) (hout : frag.outgoing v = [])
    (result : List Int) (OutMax : Int) :
    ∀ n : Nat, NoVerify.scan frag ctx v 0 result OutMax (n + 1)
      = NoVerify.record 0 0 result OutMax
  | 0 => by simp [NoVerify.scan, hin, hout, NoVerify.count]
  | n + 1 => by
    rw [NoVerify.scan]
    have hn : ¬ ((0 : Int) ≥ 0 ∧ (0 : Int) ≥ ((n + 1 : Nat) : Int)) := by
      push_cast
      omega
    simp only [hin, hout, NoVerify.count, hn, if_false]
    exact NoVerify.scan_isolated_zero frag ctx v hin hout result OutMax n

theorem NoVerify.scan_isolated_pos (frag : Fragment) (ctx : DCoreOptimizedContext) (v : Nat)
    (hin : frag.incoming v = []) (hout : frag.outgoing v = [])
    (k : Int) (hk : 0 < k) (result : List Int) (OutMax : Int) :
    ∀ n : Nat, NoVerify.scan frag ctx v k result OutMax n = .ok (result, OutMax)
  | 0 => by simp [NoVerify.scan]
  | n + 1 => by
    rw [NoVerify.scan]
    have hn : ¬ ((0 : Int) ≥ k ∧ (0 : Int) ≥ (n : Int)) := by omega
    simp only [hin, hout, NoVerify.count, hn, if_false]
    exact NoVerify.scan_isolated_pos frag ctx v hin hout k hk result OutMax n

theorem NoVerify.loop_isolated_pos (frag : Fragment) (ctx : DCoreOptimizedContext) (v : Nat)
    (hin : frag.incoming v = []) (hout : frag.outgoing v = [])
    (result : List Int) (OutMax : Int) :
    ∀ (n : Nat) (k : Int), 0 < k → NoVerify.loop frag ctx v n k result OutMax = .ok result
  | 0, _, _ => by simp [NoVerify.loop]
  | n + 1, k, hk => by
    rw [NoVerify.loop]
    simp only [NoVerify.scan_isolated_pos frag ctx v hin hout k hk]
    exact NoVerify.loop_isolated_pos frag ctx v hin hout result OutMax n (k + 1) (by omega)

/-- At a vertex without edges `NoVerify` computes the single pair `(0, 0)`, as
soon as the two bounds it reads from the committed skyline are not negative and
`InMax` is below `INT_MAX`. -/
theorem NoVerify.result_isolated (frag : Fragment) (ctx : DCoreOptimizedContext) (v : Nat)
    (hin : frag.incoming v = []) (hout : frag.outgoing v = [])
    (OutMax InMax : Int) (hO : vecAt (ctx.partial_result v) 1 = .ok OutMax)
    (hI : vecAt (ctx.partial_result v) (((ctx.partial_result v).length : Int) - 2) = .ok InMax)
    (hO0 : 0 ≤ OutMax) (hI0 : 0 ≤ InMax) (hmax : InMax < 2147483647) :
    NoVerify.result frag ctx v = .ok [0, 0] := by
  rw [NoVerify.result_eq_loop hO hI hmax]
  obtain ⟨n, hn⟩ : ∃ n : Nat, (InMax + 1).toNat = n + 1 := ⟨InMax.toNat, by omega⟩
  obtain ⟨m, hm⟩ : ∃ m : Nat, (OutMax + 1).toNat = m + 1 := ⟨OutMax.toNat, by omega⟩
  rw [hn, NoVerify.loop, hm, NoVerify.scan_isolated_zero frag ctx v hin hout]
  have hrec : NoVerify.record 0 0 [] OutMax = .ok ([0, 0], 0) := by simp [NoVerify.record]
  simp only [hrec]
  exact NoVerify.loop_isolated_pos frag ctx v hin hout [0, 0] 0 n (0 + 1) (by omega)

end DcoreOptimized

/-! ## The rounds of the skyline variant -/

namespace DcoreOptimized

theorem NoVerify.scan_congr (frag : Fragment) {ctx1 ctx2 : DCoreOptimizedContext}
    (h : ctx1.partial_result = ctx2.partial_result) (v : Nat) (k : Int)
    (result : List Int) (OutMax : Int) :
    ∀ n : Nat, NoVerify.scan frag ctx1 v k result OutMax n
      = NoVerify.scan frag ctx2 v k result OutMax n
  | 0 => by simp [NoVerify.scan]
  | n + 1 => by
    rw [NoVerify.scan, NoVerify.scan, h, NoVerify.scan_congr frag h v k result OutMax n]

theorem NoVerify.loop_congr (frag : Fragment) {ctx1 ctx2 : DCoreOptimizedContext}
    (h : ctx1.partial_result = ctx2.partial_result) (v : Nat) :
    ∀ (n : Nat) (k : Int) (result : List Int) (OutMax : Int),
      NoVerify.loop frag ctx1 v n k result OutMax = NoVerify.loop frag ctx2 v n k result OutMax
  | 0, _, _, _ => by simp [NoVerify.loop]
  | n + 1, k, result, OutMax => by
    rw [NoVerify.loop, NoVerify.loop, NoVerify.scan_congr frag h]
    cases NoVerify.scan frag ctx2 v k result OutMax (OutMax + 1).toNat with
    | fault f => rfl
    | ok r => exact NoVerify.loop_congr frag h v n (k + 1) r.1 r.2

/-- The result of `NoVerify` depends on the committed skylines only. -/
theorem NoVerify.result_congr (frag : Fragment) {ctx1 ctx2 : DCoreOptimizedContext}
    (h : ctx1.partial_result = ctx2.partial_result) (v : Nat) :
    NoVerify.result frag ctx1 v = NoVerify.result frag ctx2 v := by
  unfold NoVerify.result
  rw [h]
  cases vecAt (ctx2.partial_result v) 1 with
  | fault f => rfl
  | ok OutMax =>
    cases vecAt (ctx2.partial_result v) (((ctx2.partial_result v).length : Int) - 2) with
    | fault f => rfl
    | ok InMax =>
      simp only
      rw [NoVerify.loop_congr frag h v _ _ _ _, NoVerify.loop_congr frag h v _ _ _ _]

/-- What one call of `NoVerify` does, given the result it computes. -/
theorem NoVerify_of_result_eq {frag : Fragment} {ctx : DCoreOptimizedContext} {v : Nat}
    {R : List Int} (h : NoVerify.result frag ctx v = .ok R) :
    ∃ c, NoVerify frag ctx v = .ok (decide (R ≠ ctx.partial_result v), c) ∧
      c.partial_result = ctx.partial_result ∧
      c.cache_result = (if R ≠ ctx.partial_result v then
        Function.update ctx.cache_result v R else ctx.cache_result) := by
  unfold NoVerify
  simp only [h]
  by_cases hne : R ≠ ctx.partial_result v
  · refine ⟨{ ctx with cache_result := Function.update ctx.cache_result v R }, ?_, rfl, ?_⟩
    · rw [if_pos hne, decide_eq_true hne]
    · rw [if_pos hne]
  · refine ⟨ctx, ?_, rfl, ?_⟩
    · rw [if_neg hne, decide_eq_false hne]
    · rw [if_neg hne]

theorem NoVerify_fault {frag : Fragment} {ctx : DCoreOptimizedContext} {v : Nat}
    {f : Fault} (h : NoVerify.result frag ctx v = .fault f) :
    NoVerify frag ctx v = .fault f := by
  unfold NoVerify
  simp only [h]

theorem IncEval.staged_cons (frag : Fragment) {ctx c : DCoreOptimizedContext} (v : Nat)
    (vs : List Nat) {R : List Int} (hR : NoVerify.result frag ctx v = .ok R)
    (hp : c.partial_result = ctx.partial_result)
    (hc : c.cache_result = (if R ≠ ctx.partial_result v then
        Function.update ctx.cache_result v R else ctx.cache_result)) (u : Nat) :
    IncEval.staged frag c vs u = IncEval.staged frag ctx (v :: vs) u := by
  unfold IncEval.staged
  rw [NoVerify.result_congr frag hp u, hp]
  have hcu : c.cache_result u
      = if u = v ∧ R ≠ ctx.partial_result v then R else ctx.cache_result u := by
    rw [hc]
    by_cases hne : R ≠ ctx.partial_result v
    · by_cases huv : u = v
      · subst huv
        simp [hne]
      · simp [hne, huv, Function.update_noteq huv]
    · simp [hne]
  rw [hcu]
  cases hu : NoVerify.result frag ctx u with
  | fault f =>
    by_cases huv : u = v
    · subst huv
      rw [hR] at hu
      cases hu
    · simp [huv]
  | ok Ru =>
    by_cases huv : u = v
    · subst huv
      rw [hR] at hu
      injection hu with hu
      subst hu
      by_cases hne : R ≠ ctx.partial_result u
      · simp [hne]
      · simp [hne]
    · simp [huv]

/-- The recomputation loop in closed form. -/
theorem IncEval.recompute_spec (frag : Fragment) :
    ∀ (vs : List Nat) (ctx ctx1 : DCoreOptimizedContext) (sent : List (Nat × List Int)),
      IncEval.recompute frag vs ctx = .ok (ctx1, sent) →
      ctx1.partial_result = ctx.partial_result ∧
      ctx1.cache_result = IncEval.staged frag ctx vs ∧
      sent = IncEval.broadcast frag ctx vs ∧
      ∀ v ∈ vs, ∃ R, NoVerify.result frag ctx v = .ok R
  | [], ctx, ctx1, sent, h => by
    simp only [IncEval.recompute, Outcome.ok.injEq, Prod.mk.injEq] at h
    obtain ⟨rfl, rfl⟩ := h
    refine ⟨rfl, ?_, by simp [IncEval.broadcast], by simp⟩
    funext u
    unfold IncEval.staged
    cases NoVerify.result frag ctx u <;> simp
  | v :: vs, ctx, ctx1, sent, h => by
    rw [IncEval.recompute] at h
    cases hR : NoVerify.result frag ctx v with
    | fault f => simp [NoVerify_fault hR] at h
    | ok R =>
      obtain ⟨c, hc, hcp, hcc⟩ := NoVerify_of_result_eq hR
      simp only [hc] at h
      cases hrest : IncEval.recompute frag vs c with
      | fault f => simp [hrest] at h
      | ok r =>
        obtain ⟨c2, sent2⟩ := r
        simp only [hrest, Outcome.ok.injEq, Prod.mk.injEq] at h
        obtain ⟨rfl, hsent⟩ := h
        obtain ⟨h1, h2, h3, h4⟩ := IncEval.recompute_spec frag vs c c2 sent2 hrest
        refine ⟨by rw [h1, hcp], ?_, ?_, ?_⟩
        · rw [h2]
          funext u
          exact IncEval.staged_cons frag v vs hR hcp hcc u
        · rw [← hsent, h3]
          have hb : IncEval.broadcast frag c vs = IncEval.broadcast frag ctx vs := by
            unfold IncEval.broadcast
            congr 1
            funext w
            rw [NoVerify.result_congr frag hcp w, hcp]
          rw [hb]
          have hcv : c.cache_result v = if R ≠ ctx.partial_result v then R
              else ctx.cache_result v := by
            rw [hcc]
            split <;> simp
          unfold IncEval.broadcast
          simp only [List.filterMap_cons, hR]
          by_cases hne : R ≠ ctx.partial_result v
          · simp [hne, hcv]
          · simp [hne]
        · intro w hw
          rcases List.mem_cons.1 hw with rfl | hw
          · exact ⟨R, hR⟩
          · obtain ⟨Rw, hRw⟩ := h4 w hw
            exact ⟨Rw, by rw [← NoVerify.result_congr frag hcp w]; exact hRw⟩

/-- The recomputation loop returns when `NoVerify` returns at every vertex. -/
theorem IncEval.recompute_total (frag : Fragment) :
    ∀ (vs : List Nat) (ctx : DCoreOptimizedContext),
      (∀ v ∈ vs, ∃ R, NoVerify.result frag ctx v = .ok R) →
      ∃ ctx1 sent, IncEval.recompute frag vs ctx = .ok (ctx1, sent)
  | [], ctx, _ => ⟨ctx, [], by simp [IncEval.recompute]⟩
  | v :: vs, ctx, h => by
    obtain ⟨R, hR⟩ := h v (List.mem_cons_self _ _)
    obtain ⟨c, hc, hcp, -⟩ := NoVerify_of_result_eq hR
    obtain ⟨c2, sent2, h2⟩ := IncEval.recompute_total frag vs c (by
      intro w hw
      obtain ⟨Rw, hRw⟩ := h w (List.mem_cons_of_mem _ hw)
      exact ⟨Rw, by rw [NoVerify.result_congr frag hcp w]; exact hRw⟩)
    rw [IncEval.recompute]
    simp only [hc, h2]
    exact ⟨_, _, rfl⟩

theorem IncEval.commit_spec : ∀ (vs : List Nat) (ctx : DCoreOptimizedContext),
    (IncEval.commit vs ctx).cache_result = ctx.cache_result ∧
    ∀ u, (IncEval.commit vs ctx).partial_result u
      = if u ∈ vs then ctx.cache_result u else ctx.partial_result u
  | [], ctx => by simp [IncEval.commit]
  | v :: vs, ctx => by
    rw [IncEval.commit]
    obtain ⟨h1, h2⟩ := IncEval.commit_spec vs
      { ctx with partial_result := Function.update ctx.partial_result v (ctx.cache_result v) }
    refine ⟨h1, ?_⟩
    intro u
    rw [h2]
    by_cases hu : u ∈ vs
    · simp [hu]
    · by_cases huv : u = v
      · subst huv
        simp [hu]
      · simp [hu, huv, Function.update_noteq huv]

theorem IncEval.callback_spec {ctx ctx1 : DCoreOptimizedContext} {u : Nat} {msg : List Int}
    (h : IncEval.callback ctx u msg = .ok ctx1) :
    ctx1.cache_result = ctx.cache_result ∧
    ∀ w, w ≠ u → ctx1.partial_result w = ctx.partial_result w := by
  unfold IncEval.callback at h
  cases hl : IncEval.callback.loop msg (ctx.partial_result u) msg.length 0 with
  | fault f => simp [hl] at h
  | ok shadow =>
    simp only [hl, Outcome.ok.injEq] at h
    subst h
    exact ⟨rfl, fun w hw => by simp [Function.update_noteq hw]⟩

theorem IncEval.merge_spec : ∀ (messages : List (Nat × List Int))
    (ctx ctx1 : DCoreOptimizedContext), IncEval.merge messages ctx = .ok ctx1 →
    ctx1.cache_result = ctx.cache_result ∧
    ∀ w, (∀ m ∈ messages, m.1 ≠ w) → ctx1.partial_result w = ctx.partial_result w
  | [], ctx, ctx1, h => by
    simp only [IncEval.merge, Outcome.ok.injEq] at h
    subst h
    exact ⟨rfl, fun _ _ => rfl⟩
  | (u, msg) :: rest, ctx, ctx1, h => by
    rw [IncEval.merge] at h
    cases hc : IncEval.callback ctx u msg with
    | fault f => simp [hc] at h
    | ok c =>
      simp only [hc] at h
      obtain ⟨a1, a2⟩ := IncEval.callback_spec hc
      obtain ⟨b1, b2⟩ := IncEval.merge_spec rest c ctx1 h
      refine ⟨by rw [b1, a1], ?_⟩
      intro w hw
      rw [b2 w (fun m hm => hw m (List.mem_cons_of_mem _ hm)),
        a2 w (fun e => hw (u, msg) (List.mem_cons_self _ _) e.symm)]

theorem PEval.init_staged (frag : Fragment) :
    ∀ (vs : List Nat) (ctx ctx1 : DCoreOptimizedContext),
      ctx.cache_result = ctx.partial_result → PEval.init frag vs ctx = .ok ctx1 →
      ctx1.cache_result = ctx1.partial_result
  | [], ctx, ctx1, h0, h => by
    simp only [PEval.init, Outcome.ok.injEq] at h
    subst h
    exact h0
  | v :: vs, ctx, ctx1, h0, h => by
    rw [PEval.init] at h
    cases hd : PEval.decode (frag.data v) with
    | fault f => simp [hd] at h
    | ok core =>
      simp only [hd] at h
      exact PEval.init_staged frag vs _ ctx1 (by simp only [h0]) h

end DcoreOptimized

namespace DcoreOptimized

/-- One round of `IncEval` in closed form. -/
theorem IncEval_spec {frag : Fragment} {ctx ctx2 : DCoreOptimizedContext}
    {messages sent : List (Nat × List Int)} (h : IncEval frag ctx messages = .ok (ctx2, sent)) :
    ∃ ctx1, IncEval.merge messages ctx = .ok ctx1 ∧
      sent = IncEval.broadcast frag ctx1 frag.innerVertices ∧
      ctx2.cache_result = IncEval.staged frag ctx1 frag.innerVertices ∧
      (∀ u, ctx2.partial_result u = if u ∈ frag.innerVertices then
        IncEval.staged frag ctx1 frag.innerVertices u else ctx1.partial_result u) ∧
      ∀ v ∈ frag.innerVertices, ∃ R, NoVerify.result frag ctx1 v = .ok R := by
  unfold IncEval at h
  cases hm : IncEval.merge messages ctx with
  | fault f => simp [hm] at h
  | ok ctx1 =>
    simp only [hm] at h
    cases hr : IncEval.recompute frag frag.innerVertices ctx1 with
    | fault f => simp [hr] at h
    | ok r =>
      obtain ⟨c, s'⟩ := r
      simp only [hr, Outcome.ok.injEq, Prod.mk.injEq] at h
      obtain ⟨rfl, rfl⟩ := h
      obtain ⟨h1, h2, h3, h4⟩ := IncEval.recompute_spec frag _ _ _ _ hr
      obtain ⟨c1, c2⟩ := IncEval.commit_spec frag.innerVertices c
      refine ⟨ctx1, rfl, h3, by rw [c1, h2], ?_, h4⟩
      intro u
      rw [c2 u, h2, h1]

/-- One round of `IncEval` without messages returns when `NoVerify` returns at
every inner vertex. -/
theorem IncEval_total {frag : Fragment} {ctx : DCoreOptimizedContext}
    (h : ∀ v ∈ frag.innerVertices, ∃ R, NoVerify.result frag ctx v = .ok R) :
    ∃ ctx2 sent, IncEval frag ctx [] = .ok (ctx2, sent) := by
  obtain ⟨c, sent, hc⟩ := IncEval.recompute_total frag frag.innerVertices ctx h
  exact ⟨IncEval.commit frag.innerVertices c, sent, by simp only [IncEval, IncEval.merge, hc]⟩

/-- At the start of every round the staged and the committed skyline of every
inner vertex are equal. -/
theorem Reachable.staged_eq {frag : Fragment} {ctx : DCoreOptimizedContext}
    (hr : Reachable frag ctx) : ∀ v ∈ frag.innerVertices,
      ctx.cache_result v = ctx.partial_result v := by
  cases hr with
  | peval ctx sent h =>
    unfold PEval at h
    cases hi : PEval.init frag frag.innerVertices DCoreOptimizedContext.Init with
    | fault f => simp [hi] at h
    | ok c =>
      simp only [hi, Outcome.ok.injEq, Prod.mk.injEq] at h
      obtain ⟨rfl, -⟩ := h
      intro v _
      rw [PEval.init_staged frag _ _ _ rfl hi]
  | inceval ctx0 ctx messages sent _ _ h =>
    obtain ⟨ctx1, -, -, h2, h3, -⟩ := IncEval_spec h
    intro v hv
    rw [h3 v, if_pos hv, h2]

theorem IncEval.mem_broadcast (frag : Fragment) (ctx : DCoreOptimizedContext) (vs : List Nat)
    (v : Nat) (R : List Int) (hR : NoVerify.result frag ctx v = .ok R) (hv : v ∈ vs) :
    (v, R) ∈ IncEval.broadcast frag ctx vs ↔ R ≠ ctx.partial_result v := by
  unfold IncEval.broadcast
  rw [List.mem_filterMap]
  constructor
  · rintro ⟨w, -, hw⟩
    cases hRw : NoVerify.result frag ctx w with
    | fault f => simp [hRw] at hw
    | ok Rw =>
      simp only [hRw] at hw
      by_cases hne : Rw ≠ ctx.partial_result w
      · rw [if_pos hne] at hw
        simp only [Option.some.injEq, Prod.mk.injEq] at hw
        obtain ⟨rfl, rfl⟩ := hw
        exact hne
      · rw [if_neg hne] at hw
        cases hw
  · intro hne
    exact ⟨v, hv, by simp only [hR]; rw [if_pos hne]⟩

/-- A round at a fixed point: when the staged skylines are the committed ones
and `NoVerify` computes the committed skyline at every inner vertex, a round
without messages sends nothing and changes nothing. -/
theorem IncEval_stable {frag : Fragment} {ctx : DCoreOptimizedContext}
    (hc : ∀ v ∈ frag.innerVertices, ctx.cache_result v = ctx.partial_result v)
    (hq : ∀ v ∈ frag.innerVertices, NoVerify.result frag ctx v = .ok (ctx.partial_result v)) :
    ∃ ctx2, IncEval frag ctx [] = .ok (ctx2, []) ∧
      ctx2.partial_result = ctx.partial_result ∧ ctx2.cache_result = ctx.cache_result := by
  obtain ⟨ctx2, sent, h⟩ := IncEval_total (fun v hv => ⟨_, hq v hv⟩)
  obtain ⟨ctx1, hm, h1, h2, h3, -⟩ := IncEval_spec h
  simp only [IncEval.merge, Outcome.ok.injEq] at hm
  subst hm
  have hst : IncEval.staged frag ctx frag.innerVertices = ctx.cache_result := by
    funext u
    unfold IncEval.staged
    cases hu : NoVerify.result frag ctx u with
    | fault f => rfl
    | ok R =>
      by_cases hmem : u ∈ frag.innerVertices
      · rw [hq u hmem] at hu
        injection hu with hu
        simp [hu]
      · simp [hmem]
  have hsent : sent = [] := by
    rw [h1]
    unfold IncEval.broadcast
    rw [List.filterMap_eq_nil_iff]
    intro v hv
    simp [hq v hv]
  subst hsent
  refine ⟨ctx2, h, ?_, by rw [h2, hst]⟩
  funext u
  rw [h3 u, hst]
  by_cases hmem : u ∈ frag.innerVertices
  · rw [if_pos hmem, hc u hmem]
  · rw [if_neg hmem]

theorem IncEval.rounds_stable {frag : Fragment} :
    ∀ (n : Nat) (ctx : DCoreOptimizedContext),
      (∀ v ∈ frag.innerVertices, ctx.cache_result v = ctx.partial_result v) →
      (∀ v ∈ frag.innerVertices,
        NoVerify.result frag ctx v = .ok (ctx.partial_result v)) →
      ∃ ctx2, IncEval.rounds frag n ctx = .ok ctx2 ∧
        ctx2.partial_result = ctx.partial_result ∧ ctx2.cache_result = ctx.cache_result
  | 0, ctx, _, _ => ⟨ctx, by simp [IncEval.rounds]⟩
  | n + 1, ctx, hc, hq => by
    obtain ⟨c, h, hp, hcc⟩ := IncEval_stable hc hq
    obtain ⟨c2, h2, hp2, hcc2⟩ := IncEval.rounds_stable n c
      (by intro v hv; rw [hp, hcc]; exact hc v hv)
      (by intro v hv; rw [NoVerify.result_congr frag hp v, hp]; exact hq v hv)
    refine ⟨c2, ?_, by rw [hp2, hp], by rw [hcc2, hcc]⟩
    rw [IncEval.rounds]
    simp only [h]
    exact h2

end DcoreOptimized

/-! ## Termination of the coreness variant -/

namespace GetInCoreness

theorem HIndex.h_nonneg (frag : Fragment) (ctx : GetInCorenessContext) (v : Nat) :
    0 ≤ HIndex.h frag ctx v :=
  (HIndex.h_isHIndex frag ctx v).2 0 (Int.natCast_nonneg _)

theorem Reachable.nonneg {frag : Fragment} {ctx : GetInCorenessContext}
    (hr : Reachable frag ctx) : ∀ v ∈ frag.innerVertices, 0 ≤ ctx.partial_result v :=
  fun v hv => le_trans (HIndex.h_nonneg frag ctx v) (hr.invariant v hv)

/-- A sweep that sends a message lowers the coreness of a vertex it visits. -/
theorem IncEval.sweep_strict (frag : Fragment) :
    ∀ (vs : List Nat) (ctx : GetInCorenessContext), (IncEval.sweep frag vs ctx).2 ≠ [] →
      ∃ v ∈ vs, (IncEval.sweep frag vs ctx).1.partial_result v < ctx.partial_result v
  | [], ctx, h => by simp [IncEval.sweep] at h
  | w :: vs, ctx, h => by
    rw [IncEval.sweep] at h ⊢
    simp only at h ⊢
    cases hb : (HIndex frag ctx w).1 with
    | true =>
      refine ⟨w, List.mem_cons_self _ _, ?_⟩
      have h1 := IncEval.sweep_le frag vs (HIndex frag ctx w).2 w
      have h2 : HIndex.h frag ctx w < ctx.partial_result w := by
        rw [HIndex_fst] at hb
        exact of_decide_eq_true hb
      have h3 : (HIndex frag ctx w).2.partial_result w = HIndex.h frag ctx w := by
        rw [HIndex_partial_result, Function.update_same, min_eq_right (le_of_lt h2)]
      omega
    | false =>
      simp only [hb, Bool.false_eq_true, if_false] at h
      have hw : ctx.partial_result w ≤ HIndex.h frag ctx w := by
        rw [HIndex_fst] at hb
        exact not_lt.1 (of_decide_eq_false hb)
      have hsame : (HIndex frag ctx w).2.partial_result = ctx.partial_result := by
        rw [HIndex_partial_result, min_eq_left hw, Function.update_eq_self]
      obtain ⟨v, hv, hlt⟩ := IncEval.sweep_strict frag vs _ h
      exact ⟨v, List.mem_cons_of_mem _ hv, by rw [hsame] at hlt; exact hlt⟩

/-- A round that updates a vertex lowers the sum of the coreness values. -/
theorem total_lt (frag : Fragment) (ctx : GetInCorenessContext)
    (h : (IncEval frag ctx []).2 ≠ []) :
    total frag (IncEval frag ctx []).1 < total frag ctx := by
  unfold total
  apply List.sum_lt_sum
  · intro v _
    unfold IncEval
    exact IncEval.sweep_le frag _ _ v
  · unfold IncEval at h ⊢
    exact IncEval.sweep_strict frag _ _ h

theorem total_le (frag : Fragment) (ctx : GetInCorenessContext) :
    total frag (IncEval frag ctx []).1 ≤ total frag ctx := by
  unfold total
  apply List.sum_le_sum
  intro v _
  unfold IncEval
  exact IncEval.sweep_le frag _ _ v

theorem Reachable.total_nonneg {frag : Fragment} {ctx : GetInCorenessContext}
    (hr : Reachable frag ctx) : 0 ≤ total frag ctx := by
  unfold total
  apply List.sum_nonneg
  intro x hx
  obtain ⟨v, hv, rfl⟩ := List.mem_map.1 hx
  exact hr.nonneg v hv

theorem total_PEval (frag : Fragment) (ctx : GetInCorenessContext) :
    total frag (PEval frag ctx).1 = (degreeSum frag : Int) := by
  unfold total degreeSum PEval
  simp only
  have : frag.innerVertices.map (PEval.init frag frag.innerVertices ctx).partial_result
      = frag.innerVertices.map (fun v => ((frag.incoming v).length : Int)) := by
    apply List.map_congr_left
    intro v hv
    rw [PEval.init_spec, if_pos hv]
    rfl
  rw [this]
  induction frag.innerVertices with
  | nil => simp
  | cons v vs ih => simp only [List.map_cons, List.sum_cons, Nat.cast_add, ih]

theorem Reachable.rounds {frag : Fragment} :
    ∀ (n : Nat) (ctx : GetInCorenessContext), Reachable frag ctx →
      Reachable frag (IncEval.rounds frag n ctx)
  | 0, _, hr => hr
  | n + 1, ctx, hr => Reachable.rounds n _ (Reachable.inceval ctx hr)

/-- From a reachable state whose coreness values sum to at most `m`, a round
that updates nothing comes after at most `m` rounds that update something. -/
theorem quiet_within {frag : Fragment} :
    ∀ (m : Nat) (ctx : GetInCorenessContext), Reachable frag ctx → total frag ctx ≤ (m : Int) →
      ∃ n, n ≤ m ∧ (IncEval frag (IncEval.rounds frag n ctx) []).2 = [] ∧
        ∀ i, i < n → (IncEval frag (IncEval.rounds frag i ctx) []).2 ≠ []
  | 0, ctx, hr, hm => by
    refine ⟨0, le_refl _, ?_, by intro i hi; omega⟩
    by_contra hne
    have h1 := total_lt frag ctx hne
    have h2 := (Reachable.inceval ctx hr).total_nonneg
    simp only [IncEval.rounds] at hne
    omega
  | m + 1, ctx, hr, hm => by
    by_cases hq : (IncEval frag ctx []).2 = []
    · exact ⟨0, by omega, hq, by intro i hi; omega⟩
    · have h1 := total_lt frag ctx hq
      obtain ⟨n, hn, hquiet, hbefore⟩ := quiet_within m (IncEval frag ctx []).1
        (Reachable.inceval ctx hr) (by push_cast at hm ⊢; omega)
      refine ⟨n + 1, by omega, hquiet, ?_⟩
      intro i hi
      cases i with
      | zero => exact hq
      | succ i => exact hbefore i (by omega)

/-- The rounds that update something each lower the sum of the coreness values
by at least one. -/
theorem IncEval.updating_le {frag : Fragment} :
    ∀ (n : Nat) (ctx : GetInCorenessContext),
      (IncEval.updating frag n ctx : Int) + total frag (IncEval.rounds frag n ctx)
        ≤ total frag ctx
  | 0, ctx => by simp [IncEval.updating, IncEval.rounds]
  | n + 1, ctx => by
    have ih := @IncEval.updating_le frag n (IncEval frag ctx []).1
    rw [IncEval.updating, IncEval.rounds]
    by_cases hq : (IncEval frag ctx []).2 ≠ []
    · have := total_lt frag ctx hq
      rw [if_pos hq]
      push_cast
      omega
    · have := total_le frag ctx
      rw [if_neg hq]
      push_cast
      omega

end GetInCoreness

namespace DcoreOptimized

/-- The loop of the merge callback on a payload as long as the shadow skyline:
the shadow skyline is the payload afterwards. -/
theorem IncEval.callback.loop_eq (msg shadow : List Int) (hlen : msg.length = shadow.length)
    (hne : shadow ≠ []) :
    ∀ (n i : Nat), i + n = msg.length → (∀ j, j < i → shadow[j]? = msg[j]?) →
      IncEval.callback.loop msg shadow n (i : Int) = .ok msg
  | 0, i, hi, hpre => by
    have : shadow = msg := by
      apply List.ext_getElem?
      intro j
      by_cases hj : j < i
      · exact hpre j hj
      · rw [List.getElem?_eq_none (by omega), List.getElem?_eq_none (by omega)]
    simp [IncEval.callback.loop, this]
  | n + 1, i, hi, hpre => by
    have h1 : i < shadow.length := by omega
    have h2 : i < msg.length := by omega
    have hc : ¬ (msg.length ≠ shadow.length ∨ shadow.isEmpty = true) := by
      simp [hlen, hne]
    rw [IncEval.callback.loop, if_neg hc,
      vecAt_natCast (List.getElem?_eq_getElem h1), vecAt_natCast (List.getElem?_eq_getElem h2)]
    simp only
    by_cases hx : shadow[i] ≠ msg[i]
    · rw [if_pos hx]
    · rw [if_neg hx]
      have hi' : ((i : Int) + 1) = ((i + 1 : Nat) : Int) := by push_cast; ring
      rw [hi']
      apply IncEval.callback.loop_eq msg shadow hlen hne n (i + 1) (by omega)
      intro j hj
      by_cases hji : j < i
      · exact hpre j hji
      · have : j = i := by omega
        subst this
        rw [List.getElem?_eq_getElem h1, List.getElem?_eq_getElem h2]
        simp only [ne_eq, not_not] at hx
        rw [hx]

/-- The merge callback on a non-empty payload leaves the payload as shadow
skyline. -/
theorem IncEval.callback.loop_nonempty (msg shadow : List Int) (hmsg : msg ≠ []) :
    IncEval.callback.loop msg shadow msg.length 0 = .ok msg := by
  by_cases hc : msg.length ≠ shadow.length ∨ shadow.isEmpty = true
  · obtain ⟨n, hn⟩ : ∃ n, msg.length = n + 1 :=
      ⟨msg.length - 1, by have := List.length_pos.2 hmsg; omega⟩
    rw [hn, IncEval.callback.loop, if_pos hc]
  · have hlen : msg.length = shadow.length := by
      by_contra h
      exact hc (Or.inl h)
    have hne : shadow ≠ [] := by
      intro h
      exact hc (Or.inr (by simp [h]))
    have := IncEval.callback.loop_eq msg shadow hlen hne msg.length 0 (by omega)
      (by intro j hj; omega)
    simpa using this

end DcoreOptimized

/-! ## Completeness of the result of `NoVerify` -/

namespace DcoreOptimized

theorem unpairs_injective {P Q : List (Int × Int)} (h : unpairs P = unpairs Q) : P = Q := by
  have := congrArg pairs h
  rwa [pairs_unpairs, pairs_unpairs] at this

/-- One iteration of the outer loop of `NoVerify` keeps the recorded pairs
complete. -/
theorem NoVerify.Inv.step_complete {frag : Fragment} {ctx : DCoreOptimizedContext} {v : Nat}
    (hS : ∀ u, ctx.partial_result u ≠ [] ∧ WellFormed (ctx.partial_result u))
    {OutMax0 k0 : Int} {P : List (Int × Int)} {OutMax : Int}
    (inv : NoVerify.Inv frag ctx v OutMax0 k0 P OutMax)
    (hc : NoVerify.Complete frag ctx v OutMax0 k0 P)
    {P' : List (Int × Int)} {OutMax' : Int}
    (hscan : NoVerify.scan frag ctx v k0 (unpairs P) OutMax (OutMax + 1).toNat
      = .ok (unpairs P', OutMax')) :
    NoVerify.Complete frag ctx v OutMax0 (k0 + 1) P' := by
  have hle : ∀ l : Int, 0 ≤ l → l ≤ OutMax0 → Supported frag ctx v k0 l → l ≤ OutMax := by
    intro l hl0 hl hsup
    by_contra hcon
    rcases eq_nil_or_snoc P with hP | ⟨Q, a, b, hP⟩
    · have := inv.outMax_nil hP
      omega
    · subst hP
      have hO := inv.outMax_last Q a b rfl
      have hak := inv.below (a, b) (by simp)
      have ha0 := (inv.nonneg (a, b) (by simp)).1
      simp only at hak ha0
      obtain ⟨p, hp, hp1, hp2⟩ := hc a l ha0 hak hl0 hl (hsup.anti (by omega) (le_refl _))
      rcases List.mem_append.1 hp with hq | hq
      · have hasc := inv.asc
        rw [List.map_append, List.pairwise_append] at hasc
        have := hasc.2.2 p.1 (List.mem_map_of_mem _ hq) a (by simp)
        omega
      · simp at hq
        subst hq
        simp only at hp2
        omega
  rcases NoVerify.scan_cases frag ctx v hS k0 (unpairs P) OutMax (OutMax + 1).toNat with
    ⟨hs, hnone⟩ | ⟨m, hm, hs, hsup, hmax⟩
  · rw [hs] at hscan
    simp only [Outcome.ok.injEq, Prod.mk.injEq] at hscan
    have hP' : P' = P := (unpairs_injective hscan.1).symm
    subst hP'
    intro k l hk hk' hl hl' hsupp
    by_cases hlt : k < k0
    · exact hc k l hk hlt hl hl' hsupp
    · have hkk : k = k0 := by omega
      subst hkk
      have h1 := hle l hl hl' hsupp
      have := hnone l.toNat (by omega)
      rw [Int.toNat_of_nonneg hl] at this
      exact absurd hsupp this
  · have hlm : ∀ l : Int, 0 ≤ l → l ≤ OutMax0 → Supported frag ctx v k0 l → l ≤ (m : Int) := by
      intro l hl0 hl hsupp
      by_contra hcon
      have h1 := hle l hl0 hl hsupp
      have := hmax l.toNat (by omega) (by omega)
      rw [Int.toNat_of_nonneg hl0] at this
      exact this hsupp
    rcases eq_nil_or_snoc P with hP | ⟨Q, a, b, hP⟩
    · subst hP
      rw [hs, NoVerify.record_nil] at hscan
      simp only [Outcome.ok.injEq, Prod.mk.injEq] at hscan
      have hP' : P' = [(k0, (m : Int))] := (unpairs_injective hscan.1).symm
      subst hP'
      intro k l hk hk' hl hl' hsupp
      by_cases hlt : k < k0
      · obtain ⟨p, hp, -⟩ := hc k l hk hlt hl hl' hsupp
        simp at hp
      · have hkk : k = k0 := by omega
        subst hkk
        exact ⟨(k, (m : Int)), by simp, le_refl _, hlm l hl hl' hsupp⟩
    · subst hP
      have hO := inv.outMax_last Q a b rfl
      have hak := inv.below (a, b) (by simp)
      simp only at hak
      by_cases hmb : (m : Int) = b
      · rw [hs, hmb, NoVerify.record_snoc_eq] at hscan
        simp only [Outcome.ok.injEq, Prod.mk.injEq] at hscan
        have hP' : P' = Q ++ [(k0, b)] := (unpairs_injective hscan.1).symm
        subst hP'
        intro k l hk hk' hl hl' hsupp
        by_cases hlt : k < k0
        · obtain ⟨p, hp, hp1, hp2⟩ := hc k l hk hlt hl hl' hsupp
          rcases List.mem_append.1 hp with hq | hq
          · exact ⟨p, List.mem_append_left _ hq, hp1, hp2⟩
          · simp at hq
            subst hq
            simp only at hp1 hp2
            exact ⟨(k0, b), by simp, by simp only; omega, hp2⟩
        · have hkk : k = k0 := by omega
          subst hkk
          have := hlm l hl hl' hsupp
          exact ⟨(k, b), by simp, le_refl _, by simp only; omega⟩
      · rw [hs, NoVerify.record_snoc_ne _ _ _ _ _ _ hmb] at hscan
        simp only [Outcome.ok.injEq, Prod.mk.injEq] at hscan
        have hP' : P' = Q ++ [(a, b)] ++ [(k0, (m : Int))] := (unpairs_injective hscan.1).symm
        subst hP'
        intro k l hk hk' hl hl' hsupp
        by_cases hlt : k < k0
        · obtain ⟨p, hp, hp1, hp2⟩ := hc k l hk hlt hl hl' hsupp
          exact ⟨p, List.mem_append_left _ hp, hp1, hp2⟩
        · have hkk : k = k0 := by omega
          subst hkk
          exact ⟨(k, (m : Int)), by simp, le_refl _, hlm l hl hl' hsupp⟩

/-- The outer loop of `NoVerify` keeps the invariant together with its
completeness part. -/
theorem NoVerify.loop_complete {frag : Fragment} {ctx : DCoreOptimizedContext} {v : Nat}
    (hS : ∀ u, ctx.partial_result u ≠ [] ∧ WellFormed (ctx.partial_result u))
    (OutMax0 : Int) :
    ∀ (n : Nat) (k0 : Int) (P : List (Int × Int)) (OutMax : Int), 0 ≤ k0 →
      NoVerify.Inv frag ctx v OutMax0 k0 P OutMax →
      NoVerify.Complete frag ctx v OutMax0 k0 P →
      ∃ P' OutMax', NoVerify.loop frag ctx v n k0 (unpairs P) OutMax = .ok (unpairs P') ∧
        NoVerify.Inv frag ctx v OutMax0 (k0 + (n : Int)) P' OutMax' ∧
        NoVerify.Complete frag ctx v OutMax0 (k0 + (n : Int)) P'
  | 0, k0, P, OutMax, _, inv, hc =>
    ⟨P, OutMax, by simp [NoVerify.loop], by simpa using inv, by simpa using hc⟩
  | n + 1, k0, P, OutMax, hk0, inv, hc => by
    obtain ⟨P1, O1, hscan, inv1⟩ := inv.step hS hk0
    have hc1 := inv.step_complete hS hc hscan
    obtain ⟨P2, O2, hloop, inv2, hc2⟩ :=
      NoVerify.loop_complete hS OutMax0 n (k0 + 1) P1 O1 (by omega) inv1 hc1
    have e : k0 + ((n + 1 : Nat) : Int) = k0 + 1 + (n : Int) := by push_cast; ring
    refine ⟨P2, O2, ?_, by rw [e]; exact inv2, by rw [e]; exact hc2⟩
    rw [NoVerify.loop]
    simp only [hscan]
    exact hloop

end DcoreOptimized

namespace DcoreOptimized

/-- The two bounds `NoVerify` reads from a non-empty well-formed skyline are the
largest `l` (at the first pair) and the largest `k` (at the last pair). -/
theorem bounds_spec (S : List Int) (hne : S ≠ []) (hwf : WellFormed S) :
    ∃ InMax OutMax0 : Int, vecAt S 1 = .ok OutMax0 ∧
      vecAt S ((S.length : Int) - 2) = .ok InMax ∧
      (∃ p ∈ pairs S, p.1 = InMax) ∧ (∃ p ∈ pairs S, p.2 = OutMax0) ∧
      ∀ p ∈ pairs S, p.1 ≤ InMax ∧ p.2 ≤ OutMax0 := by
  obtain ⟨heven, hk, hl⟩ := hwf
  have hlen := pairs_length S
  have hpos : 0 < S.length := List.length_pos.2 hne
  have hn : 0 < (pairs S).length := by omega
  obtain ⟨p0, hp0⟩ : ∃ p, (pairs S)[0]? = some p := ⟨_, List.getElem?_eq_getElem hn⟩
  obtain ⟨pl, hpl⟩ : ∃ p, (pairs S)[(pairs S).length - 1]? = some p :=
    ⟨_, List.getElem?_eq_getElem (by omega)⟩
  refine ⟨pl.1, p0.2, ?_, ?_, ⟨pl, List.mem_iff_getElem?.2 ⟨_, hpl⟩, rfl⟩,
    ⟨p0, List.mem_iff_getElem?.2 ⟨_, hp0⟩, rfl⟩, ?_⟩
  · have := vecAt_natCast (pairs_getElem? S 0 p0 hp0).2
    simpa using this
  · have hidx : (S.length : Int) - 2 = (Nat.cast (2 * ((pairs S).length - 1)) : Int) := by
      omega
    rw [hidx]
    exact vecAt_natCast (pairs_getElem? S _ pl hpl).1
  · intro p hp
    obtain ⟨i, hi⟩ := List.mem_iff_getElem?.1 hp
    have hil : i < (pairs S).length := (List.getElem?_eq_some.1 hi).1
    constructor
    · rcases Nat.lt_or_ge i ((pairs S).length - 1) with h | h
      · exact le_of_lt (fst_lt_of_lt hk hi hpl h)
      · have : i = (pairs S).length - 1 := by omega
        subst this
        rw [hpl] at hi
        cases hi
        exact le_refl _
    · rcases Nat.eq_zero_or_pos i with h | h
      · subst h
        rw [hp0] at hi
        cases hi
        exact le_refl _
      · exact le_of_lt (snd_gt_of_lt hl hp0 hi h)

/-- The result of `NoVerify` is the skyline of the supported pairs inside the
bounds read from the committed skyline of `v`: its pairs are such pairs, and
every such pair is dominated by one of them. -/
theorem NoVerify.result_char (frag : Fragment) (ctx : DCoreOptimizedContext) (v : Nat)
    (hS : ∀ u, ctx.partial_result u ≠ [] ∧ WellFormed (ctx.partial_result u))
    (hmax : ∀ I, vecAt (ctx.partial_result v) (((ctx.partial_result v).length : Int) - 2)
      = .ok I → I < 2147483647) :
    ∃ (InMax OutMax0 : Int) (R : List Int),
      vecAt (ctx.partial_result v) 1 = .ok OutMax0 ∧
      vecAt (ctx.partial_result v) (((ctx.partial_result v).length : Int) - 2) = .ok InMax ∧
      NoVerify.result frag ctx v = .ok R ∧ WellFormed R ∧
      (∀ p ∈ pairs R, 0 ≤ p.1 ∧ 0 ≤ p.2 ∧ p.1 ≤ InMax ∧ p.2 ≤ OutMax0 ∧
        Supported frag ctx v p.1 p.2) ∧
      (∀ k l : Int, 0 ≤ k → k ≤ InMax → 0 ≤ l → l ≤ OutMax0 → Supported frag ctx v k l →
        ∃ p ∈ pairs R, k ≤ p.1 ∧ l ≤ p.2) := by
  obtain ⟨InMax, OutMax0, e1, e2, -, -, -⟩ := bounds_spec _ (hS v).1 (hS v).2
  obtain ⟨P, O, hloop, inv, hc⟩ := @NoVerify.loop_complete frag ctx v hS OutMax0
    (InMax + 1).toNat 0 [] OutMax0 (le_refl _) (NoVerify.Inv.init frag ctx v _)
    (by intro k l hk hk'; omega)
  refine ⟨InMax, OutMax0, unpairs P, e1, e2, ?_, wellFormed_unpairs P inv.asc inv.desc, ?_, ?_⟩
  · rw [NoVerify.result_eq_loop e1 e2 (hmax _ e2)]
    exact hloop
  · rw [pairs_unpairs]
    intro p hp
    have h1 := inv.nonneg p hp
    have h2 := inv.below p hp
    exact ⟨h1.1, h1.2, by omega, inv.le_outMax0 p hp, inv.sound p hp⟩
  · rw [pairs_unpairs]
    intro k l hk hk' hl hl' hsup
    exact hc k l hk (by omega) hl hl' hsup

end DcoreOptimized

/-! ## Monotonicity of the recomputation -/

namespace DcoreOptimized

theorem Below.refl (S : List Int) : Below S S := fun _ _ h => h

theorem Below.trans {S T U : List Int} (h1 : Below S T) (h2 : Below T U) : Below S U :=
  fun k l h => h2 k l (h1 k l h)

theorem dominating_mono {pr pr' : Nat → List Int} (h : ∀ u, Below (pr' u) (pr u))
    (k l : Int) (adj : List Nat) : dominating pr' k l adj ≤ dominating pr k l adj := by
  unfold dominating
  exact List.countP_mono_left (fun u _ hu => h u k l hu)

/-- Support is monotone in the committed skylines. -/
theorem Supported.mono_ctx {frag : Fragment} {ctx ctx' : DCoreOptimizedContext} {v : Nat}
    (h : ∀ u, Below (ctx'.partial_result u) (ctx.partial_result u)) {k l : Int}
    (hs : Supported frag ctx' v k l) : Supported frag ctx v k l := by
  obtain ⟨h1, h2⟩ := hs
  have a1 := dominating_mono h k l (frag.incoming v)
  have a2 := dominating_mono h k l (frag.outgoing v)
  constructor <;> omega

/-- The recomputation is monotone: lower committed skylines give a lower
result. -/
theorem NoVerify.result_mono (frag : Fragment) {ctx ctx' : DCoreOptimizedContext} (v : Nat)
    (hS : ∀ u, ctx.partial_result u ≠ [] ∧ WellFormed (ctx.partial_result u))
    (hS' : ∀ u, ctx'.partial_result u ≠ [] ∧ WellFormed (ctx'.partial_result u))
    (hB : ∀ u, Below (ctx'.partial_result u) (ctx.partial_result u))
    {R R' : List Int} (hR : NoVerify.result frag ctx v = .ok R)
    (hR' : NoVerify.result frag ctx' v = .ok R') : Below R' R := by
  obtain ⟨InMax, OutMax0, R0, e1, e2, h0, -, -, hcomp⟩ := NoVerify.result_char frag ctx v hS
    (NoVerify.bound_of_ok hR)
  obtain ⟨InMax', OutMax0', R0', e1', e2', h0', -, hsound', -⟩ :=
    NoVerify.result_char frag ctx' v hS' (NoVerify.bound_of_ok hR')
  rw [hR] at h0
  rw [hR'] at h0'
  injection h0 with h0
  injection h0' with h0'
  subst h0
  subst h0'
  obtain ⟨I, O, b1, b2, -, -, bmax⟩ := bounds_spec _ (hS v).1 (hS v).2
  obtain ⟨I', O', b1', b2', ⟨pk, hpk, hpk'⟩, ⟨pl, hpl, hpl'⟩, -⟩ :=
    bounds_spec _ (hS' v).1 (hS' v).2
  rw [e1] at b1
  rw [e2] at b2
  rw [e1'] at b1'
  rw [e2'] at b2'
  injection b1 with b1
  injection b2 with b2
  injection b1' with b1'
  injection b2' with b2'
  subst b1 b2 b1' b2'
  have hI : InMax' ≤ InMax := by
    have hd : dominatesScan (ctx'.partial_result v) pk.1 pk.2 = true :=
      (dominatesScan_iff _ _ _).2 ⟨pk, hpk, le_refl _, le_refl _⟩
    obtain ⟨q, hq, hq1, -⟩ := (dominatesScan_iff _ _ _).1 (hB v _ _ hd)
    have := (bmax q hq).1
    omega
  have hO : OutMax0' ≤ OutMax0 := by
    have hd : dominatesScan (ctx'.partial_result v) pl.1 pl.2 = true :=
      (dominatesScan_iff _ _ _).2 ⟨pl, hpl, le_refl _, le_refl _⟩
    obtain ⟨q, hq, -, hq2⟩ := (dominatesScan_iff _ _ _).1 (hB v _ _ hd)
    have := (bmax q hq).2
    omega
  intro k l hd
  obtain ⟨p', hp', hk, hl⟩ := (dominatesScan_iff _ _ _).1 hd
  obtain ⟨a1, a2, a3, a4, a5⟩ := hsound' p' hp'
  obtain ⟨p, hp, c1, c2⟩ := hcomp p'.1 p'.2 a1 (by omega) a2 (by omega) (a5.mono_ctx hB)
  exact (dominatesScan_iff _ _ _).2 ⟨p, hp, by omega, by omega⟩

theorem supported_zero (frag : Fragment) (ctx : DCoreOptimizedContext) (v : Nat) :
    Supported frag ctx v 0 0 :=
  ⟨Int.natCast_nonneg _, Int.natCast_nonneg _⟩

/-- The result of `NoVerify` at a vertex with a valid committed skyline whose
last `k` is below `INT_MAX` is a valid skyline that lies inside the bounds of the
committed one. -/
theorem NoVerify.result_valid (frag : Fragment) (ctx : DCoreOptimizedContext) (v : Nat)
    (hS : ∀ u, ctx.partial_result u ≠ [] ∧ WellFormed (ctx.partial_result u))
    (hv : Valid (ctx.partial_result v))
    (hmax : ∀ I, vecAt (ctx.partial_result v) (((ctx.partial_result v).length : Int) - 2)
      = .ok I → I < 2147483647) :
    ∃ R, NoVerify.result frag ctx v = .ok R ∧ Valid R ∧
      ∀ p ∈ pairs R, (∃ q ∈ pairs (ctx.partial_result v), p.1 ≤ q.1) ∧
        (∃ q ∈ pairs (ctx.partial_result v), p.2 ≤ q.2) := by
  obtain ⟨InMax, OutMax0, R, e1, e2, hR, hwf, hsound, hcomp⟩ :=
    NoVerify.result_char frag ctx v hS hmax
  obtain ⟨I, O, b1, b2, ⟨pk, hpk, hpk'⟩, ⟨pl, hpl, hpl'⟩, -⟩ := bounds_spec _ hv.1 hv.2.1
  rw [e1] at b1
  rw [e2] at b2
  injection b1 with b1
  injection b2 with b2
  subst b1 b2
  have hI0 : 0 ≤ InMax := by rw [← hpk']; exact (hv.2.2 pk hpk).1
  have hO0 : 0 ≤ OutMax0 := by rw [← hpl']; exact (hv.2.2 pl hpl).2
  obtain ⟨p, hp, -, -⟩ := hcomp 0 0 (le_refl _) hI0 (le_refl _) hO0 (supported_zero frag ctx v)
  refine ⟨R, hR, ⟨?_, hwf, fun q hq => ⟨(hsound q hq).1, (hsound q hq).2.1⟩⟩, ?_⟩
  · intro h
    rw [h] at hp
    simp [pairs] at hp
  · intro q hq
    obtain ⟨-, -, h3, h4, -⟩ := hsound q hq
    exact ⟨⟨pk, hpk, by omega⟩, ⟨pl, hpl, by omega⟩⟩

theorem unpairs_pairs : ∀ (S : List Int), S.length % 2 = 0 → unpairs (pairs S) = S
  | [], _ => by simp [pairs, unpairs]
  | [_], h => by simp at h
  | a :: b :: rest, h => by
    have h' : rest.length % 2 = 0 := by
      simp only [List.length_cons] at h
      omega
    simp [pairs, unpairs, unpairs_pairs rest h']

/-- Two well-formed skylines that lie below each other are equal. -/
theorem Below.antisymm {S T : List Int} (hS : WellFormed S) (hT : WellFormed T)
    (h1 : Below S T) (h2 : Below T S) : S = T := by
  have sub : ∀ {A B : List Int}, WellFormed A → Below A B → Below B A →
      ∀ p ∈ pairs A, p ∈ pairs B := by
    intro A B hA hAB hBA p hp
    have hd : dominatesScan A p.1 p.2 = true :=
      (dominatesScan_iff _ _ _).2 ⟨p, hp, le_refl _, le_refl _⟩
    obtain ⟨q, hq, hq1, hq2⟩ := (dominatesScan_iff _ _ _).1 (hAB _ _ hd)
    have hd' : dominatesScan B q.1 q.2 = true :=
      (dominatesScan_iff _ _ _).2 ⟨q, hq, le_refl _, le_refl _⟩
    obtain ⟨p', hp', hp1, hp2⟩ := (dominatesScan_iff _ _ _).1 (hBA _ _ hd')
    have hpp : p = p' := hA.not_dominated hp hp' (by omega) (by omega)
    subst hpp
    have : p = q := Prod.ext (by omega) (by omega)
    rw [this]
    exact hq
  have hmem : ∀ p, p ∈ pairs S ↔ p ∈ pairs T :=
    fun p => ⟨sub hS h1 h2 p, sub hT h2 h1 p⟩
  have sS : (pairs S).Pairwise (fun p q : Int × Int => p.1 < q.1) :=
    List.pairwise_map.1 hS.2.1
  have sT : (pairs T).Pairwise (fun p q : Int × Int => p.1 < q.1) :=
    List.pairwise_map.1 hT.2.1
  have nS : (pairs S).Nodup := sS.imp (fun h e => by rw [e] at h; exact lt_irrefl _ h)
  have nT : (pairs T).Nodup := sT.imp (fun h e => by rw [e] at h; exact lt_irrefl _ h)
  have hperm : (pairs S).Perm (pairs T) := (List.perm_ext_iff_of_nodup nS nT).2 hmem
  haveI : IsAntisymm (Int × Int) (fun p q : Int × Int => p.1 < q.1) :=
    ⟨fun a b hab hba => absurd hab (not_lt.2 (le_of_lt hba))⟩
  have he : pairs S = pairs T := List.eq_of_perm_of_sorted hperm sS sT
  rw [← unpairs_pairs S hS.1, ← unpairs_pairs T hT.1, he]

end DcoreOptimized

/-! ## Termination of the skyline variant from single pairs -/

namespace DcoreOptimized

theorem countP_lt_countP {α : Type} (p q : α → Bool) :
    ∀ (l : List α), (∀ x ∈ l, p x = true → q x = true) →
      (∃ x ∈ l, q x = true ∧ p x = false) → l.countP p < l.countP q
  | [], _, h => by simp at h
  | a :: l, hpq, ⟨x, hx, hqx, hpx⟩ => by
    have hle : l.countP p ≤ l.countP q :=
      List.countP_mono_left (fun y hy => hpq y (List.mem_cons_of_mem _ hy))
    rcases List.mem_cons.1 hx with rfl | hx'
    · simp only [List.countP_cons, hqx, hpx, if_true, Bool.false_eq_true, if_false]
      omega
    · have ih := countP_lt_countP p q l (fun y hy => hpq y (List.mem_cons_of_mem _ hy))
        ⟨x, hx', hqx, hpx⟩
      have ha := hpq a (List.mem_cons_self _ _)
      simp only [List.countP_cons]
      cases hp : p a
      · simp only [Bool.false_eq_true, if_false]
        split <;> omega
      · simp only [ha hp, if_true]
        omega

theorem area_mono (B : Nat) {S T : List Int} (h : Below S T) : area B S ≤ area B T := by
  unfold area
  exact List.countP_mono_left (fun x _ hx => h _ _ hx)

/-- A valid skyline strictly below another one inside the box has a smaller
area. -/
theorem area_lt (B : Nat) {S T : List Int} (hS : WellFormed S) (hT : Valid T)
    (h : Below S T) (hne : S ≠ T)
    (hbox : ∀ p ∈ pairs T, p.1 ≤ (B : Int) ∧ p.2 ≤ (B : Int)) : area B S < area B T := by
  unfold area
  apply countP_lt_countP _ _ _ (fun x _ hx => h _ _ hx)
  by_contra hno
  apply hne
  apply Below.antisymm hS hT.2.1 h
  intro k l hd
  obtain ⟨q, hq, hq1, hq2⟩ := (dominatesScan_iff _ _ _).1 hd
  obtain ⟨hb1, hb2⟩ := hbox q hq
  obtain ⟨hn1, hn2⟩ := hT.2.2 q hq
  have hmem : (q.1.toNat, q.2.toNat) ∈ (List.range (B + 1)).product (List.range (B + 1)) := by
    have h1 : q.1.toNat ∈ List.range (B + 1) := List.mem_range.2 (by omega)
    have h2 : q.2.toNat ∈ List.range (B + 1) := List.mem_range.2 (by omega)
    exact List.mem_product.2 ⟨h1, h2⟩
  have hdq : dominatesScan T (q.1.toNat : Int) (q.2.toNat : Int) = true := by
    rw [Int.toNat_of_nonneg hn1, Int.toNat_of_nonneg hn2]
    exact (dominatesScan_iff _ _ _).2 ⟨q, hq, le_refl _, le_refl _⟩
  have hds : dominatesScan S (q.1.toNat : Int) (q.2.toNat : Int) = true := by
    by_contra hcon
    exact hno ⟨_, hmem, hdq, by simpa using hcon⟩
  rw [Int.toNat_of_nonneg hn1, Int.toNat_of_nonneg hn2] at hds
  exact dominatesScan_anti S hq1 hq2 hds

/-- In a non-empty well-formed skyline whose `k` values are below `INT_MAX` the
`InMax` that `NoVerify` reads is below `INT_MAX`. -/
theorem bound_of_pairs {S : List Int} (hne : S ≠ []) (hwf : WellFormed S)
    (h : ∀ p ∈ pairs S, p.1 < 2147483647) :
    ∀ I, vecAt S ((S.length : Int) - 2) = .ok I → I < 2147483647 := by
  intro I hI
  obtain ⟨I0, O0, -, e2, ⟨p, hp, hp1⟩, -, -⟩ := bounds_spec S hne hwf
  rw [e2] at hI
  injection hI with hI
  subst hI
  rw [← hp1]
  exact h p hp

/-- A pair without a negative entry that is supported for `v` and dominated by
the committed skyline of `v` is dominated by the result of `NoVerify`. -/
theorem NoVerify.result_complete (frag : Fragment) (ctx : DCoreOptimizedContext) (v : Nat)
    (hS : ∀ u, ctx.partial_result u ≠ [] ∧ WellFormed (ctx.partial_result u))
    {R : List Int} (hR : NoVerify.result frag ctx v = .ok R) {k l : Int}
    (hk : 0 ≤ k) (hl : 0 ≤ l) (hsup : Supported frag ctx v k l)
    (hd : dominatesScan (ctx.partial_result v) k l = true) :
    dominatesScan R k l = true := by
  obtain ⟨InMax, OutMax0, R0, e1, e2, h0, -, -, hcomp⟩ := NoVerify.result_char frag ctx v hS
    (NoVerify.bound_of_ok hR)
  rw [hR] at h0
  injection h0 with h0
  subst h0
  obtain ⟨I, O, b1, b2, -, -, bmax⟩ := bounds_spec _ (hS v).1 (hS v).2
  rw [e1] at b1
  rw [e2] at b2
  injection b1 with b1
  injection b2 with b2
  subst b1 b2
  obtain ⟨q, hq, hq1, hq2⟩ := (dominatesScan_iff _ _ _).1 hd
  have := bmax q hq
  obtain ⟨p, hp, c1, c2⟩ := hcomp k l hk (by omega) hl (by omega) hsup
  exact (dominatesScan_iff _ _ _).2 ⟨p, hp, c1, c2⟩

/-- One round from a good state: the round returns, commits at every inner
vertex the result of `NoVerify`, keeps the state good and covering, and lowers
the potential unless `NoVerify` computes the committed skyline at every inner
vertex. -/
theorem Good.round {frag : Fragment} {B : Nat} {ctx : DCoreOptimizedContext}
    (g : Good frag B ctx) :
    ∃ ctx2 sent, IncEval frag ctx [] = .ok (ctx2, sent) ∧ Good frag B ctx2 ∧
      (Covering frag ctx → Covering frag ctx2) ∧
      potential frag B ctx2 ≤ potential frag B ctx ∧
      ((∃ v ∈ frag.innerVertices, NoVerify.result frag ctx v ≠ .ok (ctx.partial_result v)) →
        potential frag B ctx2 < potential frag B ctx) := by
  have hS : ∀ u, ctx.partial_result u ≠ [] ∧ WellFormed (ctx.partial_result u) :=
    fun u => ⟨(g.valid u).1, (g.valid u).2.1⟩
  have hres : ∀ v ∈ frag.innerVertices, ∃ R, NoVerify.result frag ctx v = .ok R ∧ Valid R ∧
      ∀ p ∈ pairs R, ∃ q ∈ pairs (ctx.partial_result v), p.1 ≤ q.1 :=
    fun v hv => by
      obtain ⟨R, hR, hval, hin⟩ := NoVerify.result_valid frag ctx v hS (g.valid v)
        (bound_of_pairs (hS v).1 (hS v).2 (g.small v hv))
      exact ⟨R, hR, hval, fun p hp => (hin p hp).1⟩
  obtain ⟨ctx2, sent, h⟩ := @IncEval_total frag ctx
    (fun v hv => ⟨_, (Classical.choose_spec (hres v hv)).1⟩)
  obtain ⟨ctx1, hm, -, h2, h3, -⟩ := IncEval_spec h
  simp only [IncEval.merge, Outcome.ok.injEq] at hm
  subst hm
  have hnew : ∀ v ∈ frag.innerVertices, ∀ R, NoVerify.result frag ctx v = .ok R →
      ctx2.partial_result v = R := by
    intro v hv R hR
    rw [h3 v, if_pos hv]
    unfold IncEval.staged
    simp only [hR]
    by_cases hne : R ≠ ctx.partial_result v
    · rw [if_pos ⟨hv, hne⟩]
    · rw [if_neg (fun hh => hne hh.2), g.staged v hv]
      simp only [ne_eq, not_not] at hne
      exact hne.symm
  have hout : ∀ u, u ∉ frag.innerVertices → ctx2.partial_result u = ctx.partial_result u := by
    intro u hu
    rw [h3 u, if_neg hu]
  have hbelow : ∀ u, Below (ctx2.partial_result u) (ctx.partial_result u) := by
    intro u
    by_cases hu : u ∈ frag.innerVertices
    · obtain ⟨R, hR, -⟩ := hres u hu
      rw [hnew u hu R hR]
      exact g.decreasing u hu R hR
    · rw [hout u hu]
      exact Below.refl _
  have hvalid : ∀ u, Valid (ctx2.partial_result u) := by
    intro u
    by_cases hu : u ∈ frag.innerVertices
    · obtain ⟨R, hR, hv, -⟩ := hres u hu
      rw [hnew u hu R hR]
      exact hv
    · rw [hout u hu]
      exact g.valid u
  have hgood : Good frag B ctx2 :=
    { staged := fun v hv => by rw [h2, h3 v, if_pos hv]
      valid := hvalid
      small := by
        intro v hv p hp
        obtain ⟨R, hR, -, hin⟩ := hres v hv
        rw [hnew v hv R hR] at hp
        obtain ⟨q, hq, hpq⟩ := hin p hp
        have := g.small v hv q hq
        omega
      decreasing := by
        intro v hv R' hR'
        obtain ⟨R, hR, -⟩ := hres v hv
        rw [hnew v hv R hR]
        exact NoVerify.result_mono frag v hS
          (fun u => ⟨(hvalid u).1, (hvalid u).2.1⟩) hbelow hR hR'
      inBox := by
        intro v hv p hp
        have hd : dominatesScan (ctx2.partial_result v) p.1 p.2 = true :=
          (dominatesScan_iff _ _ _).2 ⟨p, hp, le_refl _, le_refl _⟩
        obtain ⟨q, hq, hq1, hq2⟩ := (dominatesScan_iff _ _ _).1 (hbelow v _ _ hd)
        have := g.inBox v hv q hq
        omega }
  refine ⟨ctx2, sent, h, hgood, ?_, ?_, ?_⟩
  · intro hcov v hv k l hk hl hsup
    obtain ⟨R, hR, -⟩ := hres v hv
    rw [hnew v hv R hR]
    have hsup' : Supported frag ctx v k l := hsup.mono_ctx hbelow
    exact NoVerify.result_complete frag ctx v hS hR hk hl hsup' (hcov v hv k l hk hl hsup')
  · unfold potential
    exact List.sum_le_sum (fun v _ => area_mono B (hbelow v))
  · rintro ⟨v, hv, hne⟩
    unfold potential
    apply List.sum_lt_sum
    · exact fun w _ => area_mono B (hbelow w)
    · refine ⟨v, hv, ?_⟩
      obtain ⟨R, hR, -⟩ := hres v hv
      apply area_lt B (hvalid v).2.1 (g.valid v) (hbelow v) _ (g.inBox v hv)
      rw [hnew v hv R hR]
      intro he
      rw [he] at hR
      exact hne hR

/-- From a good state whose potential is at most `m`, a round in which `NoVerify`
computes the committed skyline at every inner vertex is reached. -/
theorem Good.rounds_quiet {frag : Fragment} {B : Nat} :
    ∀ (m : Nat) (ctx : DCoreOptimizedContext), Good frag B ctx → potential frag B ctx ≤ m →
      ∃ n ctx', IncEval.rounds frag n ctx = .ok ctx' ∧
        ∀ v ∈ frag.innerVertices,
          NoVerify.result frag ctx' v = .ok (ctx'.partial_result v)
  | m, ctx, g, hm => by
    by_cases hq : ∀ v ∈ frag.innerVertices,
        NoVerify.result frag ctx v = .ok (ctx.partial_result v)
    · exact ⟨0, ctx, by simp [IncEval.rounds], hq⟩
    · have hex : ∃ v ∈ frag.innerVertices,
          NoVerify.result frag ctx v ≠ .ok (ctx.partial_result v) := by
        by_contra hcon
        apply hq
        intro v hv
        by_contra hne
        exact hcon ⟨v, hv, hne⟩
      obtain ⟨ctx2, sent, h, g2, -, -, hlt⟩ := g.round
      have hlt' := hlt hex
      cases m with
      | zero => omega
      | succ m =>
        obtain ⟨n, ctx', hr, hquiet⟩ := Good.rounds_quiet m ctx2 g2 (by omega)
        refine ⟨n + 1, ctx', ?_, hquiet⟩
        rw [IncEval.rounds]
        simp only [h]
        exact hr

theorem exists_bound (f : Nat → Int) : ∀ (vs : List Nat), ∃ B : Nat, ∀ v ∈ vs, f v ≤ (B : Int)
  | [] => ⟨0, by simp⟩
  | v :: vs => by
    obtain ⟨B, hB⟩ := exists_bound f vs
    refine ⟨B + (f v).toNat, ?_⟩
    intro w hw
    rcases List.mem_cons.1 hw with rfl | hw
    · push_cast
      omega
    · have := hB w hw
      push_cast
      omega

/-- A state seeded with one pair without negative entries at every vertex, the
`k` of no inner vertex being `INT_MAX` and the staged skylines being the
committed ones, is good. -/
theorem Good.of_single_pairs {frag : Fragment} {ctx : DCoreOptimizedContext}
    (hseed : ∀ u, ∃ a b : Int, 0 ≤ a ∧ 0 ≤ b ∧ ctx.partial_result u = [a, b])
    (hmax : ∀ v ∈ frag.innerVertices, ∀ p ∈ pairs (ctx.partial_result v), p.1 < 2147483647)
    (hc : ∀ v ∈ frag.innerVertices, ctx.cache_result v = ctx.partial_result v) :
    ∃ B, Good frag B ctx := by
  obtain ⟨B, hB⟩ := exists_bound (fun v => (ctx.partial_result v).sum) frag.innerVertices
  have hvalid : ∀ u, Valid (ctx.partial_result u) := by
    intro u
    obtain ⟨a, b, ha, hb, he⟩ := hseed u
    rw [he]
    refine ⟨by simp, ⟨by simp, by simp [pairs], by simp [pairs]⟩, ?_⟩
    intro p hp
    simp [pairs] at hp
    subst hp
    exact ⟨ha, hb⟩
  refine ⟨B, { staged := hc, valid := hvalid, small := hmax, decreasing := ?_, inBox := ?_ }⟩
  · intro v hv R hR
    obtain ⟨R', hR', -, hin⟩ := NoVerify.result_valid frag ctx v
      (fun u => ⟨(hvalid u).1, (hvalid u).2.1⟩) (hvalid v) (NoVerify.bound_of_ok hR)
    rw [hR] at hR'
    injection hR' with hR'
    subst hR'
    obtain ⟨a, b, ha, hb, he⟩ := hseed v
    rw [he] at hin ⊢
    intro k l hd
    obtain ⟨p, hp, hk, hl⟩ := (dominatesScan_iff _ _ _).1 hd
    obtain ⟨⟨q1, hq1, h1⟩, ⟨q2, hq2, h2⟩⟩ := hin p hp
    simp [pairs] at hq1 hq2
    subst hq1 hq2
    simp only at h1 h2
    exact (dominatesScan_iff _ _ _).2 ⟨(a, b), by simp [pairs], by simp only; omega,
      by simp only; omega⟩
  · intro v hv p hp
    obtain ⟨a, b, ha, hb, he⟩ := hseed v
    have := hB v hv
    rw [he] at hp this
    simp [pairs] at hp
    subst hp
    simp at this
    simp only
    omega

end DcoreOptimized

/-! ## The rounds at an isolated vertex -/

namespace DcoreOptimized

theorem NoVerify.result_isolated_zero (frag : Fragment) (ctx : DCoreOptimizedContext) (v : Nat)
    (hin : frag.incoming v = []) (hout : frag.outgoing v = [])
    (h : ctx.partial_result v = [0, 0]) : NoVerify.result frag ctx v = .ok [0, 0] :=
  NoVerify.result_isolated frag ctx v hin hout 0 0 (by rw [h]; rfl) (by rw [h]; rfl)
    (le_refl _) (le_refl _) (by decide)

/-- A round without messages commits `[0, 0]` at an inner vertex for which
`NoVerify` computes `[0, 0]` and whose staged skyline is the committed one. -/
theorem IncEval_isolated {frag : Fragment} {ctx : DCoreOptimizedContext} {v : Nat}
    (hv : v ∈ frag.innerVertices) (hres : NoVerify.result frag ctx v = .ok [0, 0])
    (hc : ctx.cache_result v = ctx.partial_result v)
    {ctx2 : DCoreOptimizedContext} {sent : List (Nat × List Int)}
    (h : IncEval frag ctx [] = .ok (ctx2, sent)) :
    ctx2.partial_result v = [0, 0] ∧ ctx2.cache_result v = [0, 0] := by
  obtain ⟨ctx1, hm, -, h2, h3, -⟩ := IncEval_spec h
  simp only [IncEval.merge, Outcome.ok.injEq] at hm
  subst hm
  have hst : IncEval.staged frag ctx frag.innerVertices v = [0, 0] := by
    unfold IncEval.staged
    simp only [hres]
    by_cases hne : ([0, 0] : List Int) ≠ ctx.partial_result v
    · rw [if_pos ⟨hv, hne⟩]
    · rw [if_neg (fun hh => hne hh.2), hc]
      simp only [ne_eq, not_not] at hne
      exact hne.symm
  exact ⟨by rw [h3 v, if_pos hv, hst], by rw [h2, hst]⟩

/-- After one or more rounds the committed skyline of an isolated inner vertex
is `[0, 0]`, when `NoVerify` computes `[0, 0]` for it in the first state. -/
theorem IncEval.rounds_isolated {frag : Fragment} {v : Nat} (hv : v ∈ frag.innerVertices)
    (hin : frag.incoming v = []) (hout : frag.outgoing v = []) :
    ∀ (n : Nat) (ctx ctx2 : DCoreOptimizedContext),
      NoVerify.result frag ctx v = .ok [0, 0] → ctx.cache_result v = ctx.partial_result v →
      IncEval.rounds frag (n + 1) ctx = .ok ctx2 → ctx2.partial_result v = [0, 0]
  | n, ctx, ctx2, hres, hc, h => by
    rw [IncEval.rounds] at h
    cases hr : IncEval frag ctx [] with
    | fault f => simp [hr] at h
    | ok r =>
      obtain ⟨ctx1, sent⟩ := r
      simp only [hr] at h
      obtain ⟨h1, h2⟩ := IncEval_isolated hv hres hc hr
      cases n with
      | zero =>
        simp only [IncEval.rounds, Outcome.ok.injEq] at h
        subst h
        exact h1
      | succ m =>
        exact IncEval.rounds_isolated hv hin hout m ctx1 ctx2
          (NoVerify.result_isolated_zero frag ctx1 v hin hout h1) (by rw [h1, h2]) h

end DcoreOptimized

/-! ## The oscillation on two vertices -/

namespace Examples

open DcoreOptimized

/-- One round on `swapFrag` from skylines that are those of `swapCtx` or those
of `swappedCtx` exchanges the two. -/
theorem swap_round (ctx : DCoreOptimizedContext) (S T : DCoreOptimizedContext)
    (hST : ∀ v ∈ swapFrag.innerVertices,
      NoVerify.result swapFrag S v = .ok (T.partial_result v) ∧
        T.partial_result v ≠ S.partial_result v)
    (hout : ∀ u, u ∉ swapFrag.innerVertices → S.partial_result u = T.partial_result u)
    (h : ctx.partial_result = S.partial_result) :
    ∃ ctx2 sent, DcoreOptimized.IncEval swapFrag ctx [] = .ok (ctx2, sent) ∧
      ctx2.partial_result = T.partial_result := by
  have hres : ∀ v ∈ swapFrag.innerVertices,
      NoVerify.result swapFrag ctx v = .ok (T.partial_result v) := by
    intro v hv
    rw [NoVerify.result_congr swapFrag h v]
    exact (hST v hv).1
  obtain ⟨ctx2, sent, hr⟩ := DcoreOptimized.IncEval_total (fun v hv => ⟨_, hres v hv⟩)
  refine ⟨ctx2, sent, hr, ?_⟩
  obtain ⟨ctx1, hm, -, -, h3, -⟩ := DcoreOptimized.IncEval_spec hr
  simp only [DcoreOptimized.IncEval.merge, Outcome.ok.injEq] at hm
  subst hm
  funext u
  rw [h3 u]
  by_cases hu : u ∈ swapFrag.innerVertices
  · rw [if_pos hu]
    unfold DcoreOptimized.IncEval.staged
    simp only [hres u hu]
    rw [if_pos ⟨hu, by rw [h]; exact (hST u hu).2⟩]
  · rw [if_neg hu, h]
    exact hout u hu

theorem swap_facts :
    (∀ v ∈ swapFrag.innerVertices,
      NoVerify.result swapFrag swapCtx v = .ok (swappedCtx.partial_result v) ∧
        swappedCtx.partial_result v ≠ swapCtx.partial_result v) ∧
    (∀ v ∈ swapFrag.innerVertices,
      NoVerify.result swapFrag swappedCtx v = .ok (swapCtx.partial_result v) ∧
        swapCtx.partial_result v ≠ swappedCtx.partial_result v) ∧
    (∀ u, u ∉ swapFrag.innerVertices → swapCtx.partial_result u = swappedCtx.partial_result u) := by
  refine ⟨by decide, by decide, ?_⟩
  intro u hu
  simp only [swapFrag, List.mem_cons, List.mem_singleton, List.not_mem_nil, or_false,
    not_or] at hu
  simp [swapCtx, swappedCtx, hu.1, hu.2]

/-- On `swapFrag` every number of rounds from the skylines of `swapCtx` or of
`swappedCtx` returns, with the skylines of one of the two. -/
theorem swap_rounds : ∀ (n : Nat) (ctx : DCoreOptimizedContext),
    (ctx.partial_result = swapCtx.partial_result ∨
      ctx.partial_result = swappedCtx.partial_result) →
    ∃ ctx2, DcoreOptimized.IncEval.rounds swapFrag n ctx = .ok ctx2 ∧
      (ctx2.partial_result = swapCtx.partial_result ∨
        ctx2.partial_result = swappedCtx.partial_result)
  | 0, ctx, h => ⟨ctx, by simp [DcoreOptimized.IncEval.rounds], h⟩
  | n + 1, ctx, h => by
    have hstep : ∃ ctx1 sent, DcoreOptimized.IncEval swapFrag ctx [] = .ok (ctx1, sent) ∧
        (ctx1.partial_result = swapCtx.partial_result ∨
          ctx1.partial_result = swappedCtx.partial_result) := by
      rcases h with h | h
      · obtain ⟨c, sent, hc, hp⟩ := swap_round ctx swapCtx swappedCtx swap_facts.1
          swap_facts.2.2 h
        exact ⟨c, sent, hc, Or.inr hp⟩
      · obtain ⟨c, sent, hc, hp⟩ := swap_round ctx swappedCtx swapCtx swap_facts.2.1
          (fun u hu => (swap_facts.2.2 u hu).symm) h
        exact ⟨c, sent, hc, Or.inl hp⟩
    obtain ⟨ctx1, sent, hc, hp⟩ := hstep
    obtain ⟨ctx2, h2, hp2⟩ := swap_rounds n ctx1 hp
    refine ⟨ctx2, ?_, hp2⟩
    rw [DcoreOptimized.IncEval.rounds]
    simp only [hc]
    exact h2

/-- With the skylines of `swapCtx` or of `swappedCtx`, `NoVerify` returns `true`
at vertex 0 of `swapFrag`. -/
theorem swap_changes (ctx : DCoreOptimizedContext)
    (h : ctx.partial_result = swapCtx.partial_result ∨
      ctx.partial_result = swappedCtx.partial_result) :
    ∃ c, NoVerify swapFrag ctx 0 = .ok (true, c) := by
  have key : ∃ R, NoVerify.result swapFrag ctx 0 = .ok R ∧ R ≠ ctx.partial_result 0 := by
    rcases h with h | h
    · refine ⟨swappedCtx.partial_result 0, ?_, ?_⟩
      · rw [NoVerify.result_congr swapFrag h 0]
        exact (swap_facts.1 0 (by decide)).1
      · rw [h]
        exact (swap_facts.1 0 (by decide)).2
    · refine ⟨swapCtx.partial_result 0, ?_, ?_⟩
      · rw [NoVerify.result_congr swapFrag h 0]
        exact (swap_facts.2.1 0 (by decide)).1
      · rw [h]
        exact (swap_facts.2.1 0 (by decide)).2
  obtain ⟨R, hR, hne⟩ := key
  obtain ⟨c, hc, -, -⟩ := NoVerify_of_result_eq hR
  rw [decide_eq_true hne] at hc
  exact ⟨c, hc⟩

end Examples

/-! ## The claims -/

namespace DcoreOptimized

theorem NoVerify_of_result {frag : Fragment} {ctx : DCoreOptimizedContext} {v : Nat}
    (h : NoVerify.result frag ctx v = .ok (ctx.partial_result v)) :
    ∃ c, NoVerify frag ctx v = .ok (false, c) := by
  refine ⟨ctx, ?_⟩
  unfold NoVerify
  simp only [h, ne_eq, not_true_eq_false, if_false]

theorem stoi_fault_kind (tok : List Char) (f : Fault) (h : stoi tok = .fault f) :
    f = .invalidArgument ∨ f = .outOfRange := by
  unfold stoi at h
  simp only at h
  split_ifs at h <;> (injection h with h; subst h; simp)

theorem PEval.convert_fault_kind : ∀ (toks : List (List Char)) (f : Fault),
    PEval.convert toks = .fault f → f = .invalidArgument ∨ f = .outOfRange
  | [], f, h => by simp [PEval.convert] at h
  | t :: rest, f, h => by
    rw [PEval.convert] at h
    cases ht : stoi t with
    | fault g =>
      simp only [ht] at h
      cases h
      exact stoi_fault_kind t _ ht
    | ok x =>
      simp only [ht] at h
      cases hr : PEval.convert rest with
      | fault g =>
        simp only [hr] at h
        cases h
        exact PEval.convert_fault_kind rest _ hr
      | ok xs => simp [hr] at h

end DcoreOptimized

open DcoreOptimized GetInCoreness Examples

/-- C1: for every non-empty well-formed skyline `S` (flat, `k` strictly ascending,
`l` strictly descending) and all `k`, `l`, the call `BiSearch(S, k, l)` returns
what the brute-force linear scan returns, that is, it returns `true` exactly when
some pair `(ki, li)` of `S` has `ki ≥ k` and `li ≥ l`. -/
theorem BiSearch_agrees_with_scan (S : List Int) (k l : Int) (hne : S ≠ [])
    (hwf : WellFormed S) :
    BiSearch S k l = .ok (dominatesScan S k l) ∧
    (BiSearch S k l = .ok true ↔ ∃ p ∈ pairs S, k ≤ p.1 ∧ l ≤ p.2) := by
  have h := BiSearch_spec S k l hne hwf
  refine ⟨h, ?_⟩
  rw [h, ← dominatesScan_iff]
  constructor
  · intro e
    cases hd : dominatesScan S k l with
    | true => rfl
    | false => rw [hd] at e; cases e
  · intro e
    rw [e]

theorem BiSearch_agrees_with_scan_witness :
    BiSearch [1, 5, 3, 2] 2 2 = .ok (dominatesScan [1, 5, 3, 2] 2 2) ∧
    (BiSearch [1, 5, 3, 2] 2 2 = .ok true ↔
      ∃ p ∈ pairs [1, 5, 3, 2], (2 : Int) ≤ p.1 ∧ (2 : Int) ≤ p.2) :=
  BiSearch_agrees_with_scan [1, 5, 3, 2] 2 2 (by decide) (by decide)

/-- C2: the value `h` that `HIndex` computes for a vertex `v` is the classical
h-index of the coreness values of the in-neighbours of `v`: at least `h` of the
values are at least `h`, and no larger integer has this property; it is 0 when
`v` has no in-neighbours. -/
theorem HIndex_h_is_classical (frag : Fragment) (ctx : GetInCorenessContext) (v : Nat) :
    IsHIndex ((frag.incoming v).map ctx.partial_result) (HIndex.h frag ctx v) ∧
    (frag.incoming v = [] → HIndex.h frag ctx v = 0) := by
  refine ⟨HIndex.h_isHIndex frag ctx v, ?_⟩
  intro h
  simp [HIndex.h, HIndex.h_vec, sortDescending, h, HIndex.loop]

/-- C3: on a single fragment, in every state reached from `PEval` by rounds of
`IncEval`, if a round of `IncEval` sends nothing (every call of `HIndex`
returns `false`), then the coreness of every vertex is the h-index of the
coreness values of its in-neighbours. -/
theorem coreness_fixpoint (frag : Fragment) (ctx : GetInCorenessContext)
    (hr : Reachable frag ctx) (hq : (IncEval frag ctx []).2 = [])
    (v : Nat) (hv : v ∈ frag.innerVertices) :
    IsHIndex ((frag.incoming v).map ctx.partial_result) (ctx.partial_result v) := by
  have hle := (IncEval.sweep_quiet frag frag.innerVertices ctx hq).2 v hv
  have hge := hr.invariant v hv
  have he : ctx.partial_result v = HIndex.h frag ctx v := le_antisymm hle hge
  rw [he]
  exact HIndex.h_isHIndex frag ctx v

theorem coreness_fixpoint_witness :
    IsHIndex
      ((starFrag.incoming 0).map (IncEval starFrag (PEval starFrag zeroCtx).1 []).1.partial_result)
      ((IncEval starFrag (PEval starFrag zeroCtx).1 []).1.partial_result 0) :=
  coreness_fixpoint starFrag (IncEval starFrag (PEval starFrag zeroCtx).1 []).1
    (Reachable.inceval _ (Reachable.peval zeroCtx)) (by decide) 0 (by decide)

theorem fork_wellFormed :
    ∀ u, forkCtx.partial_result u ≠ [] ∧ WellFormed (forkCtx.partial_result u) := by
  intro u
  unfold forkCtx
  simp only
  split
  · decide
  · split
    · decide
    · split <;> decide

theorem fork_fixpoint :
    ∀ v ∈ forkFrag.innerVertices, ∃ c, NoVerify forkFrag forkCtx v = .ok (false, c) := by
  intro v hv
  simp only [forkFrag, List.mem_cons, List.mem_singleton, List.not_mem_nil, or_false] at hv
  rcases hv with rfl | rfl | rfl
  · exact NoVerify_of_result (by decide)
  · exact NoVerify_of_result (by decide)
  · exact NoVerify_of_result (by decide)

/-- C4: in a state where all skylines are non-empty and well formed and
`NoVerify` returns `false` for every vertex, every pair `(k, l)` of the skyline
of a vertex `v` is supported: at least `k` in-neighbours and at least `l`
out-neighbours of `v` have a committed skyline that dominates `(k, l)`. -/
theorem skyline_sound (frag : Fragment) (ctx : DCoreOptimizedContext)
    (hS : ∀ u, ctx.partial_result u ≠ [] ∧ WellFormed (ctx.partial_result u))
    (hfix : ∀ v ∈ frag.innerVertices, ∃ c, NoVerify frag ctx v = .ok (false, c))
    (v : Nat) (hv : v ∈ frag.innerVertices)
    (p : Int × Int) (hp : p ∈ pairs (ctx.partial_result v)) :
    Supported frag ctx v p.1 p.2 := by
  obtain ⟨c, hc⟩ := hfix v hv
  exact (NoVerify.fixpoint_spec frag ctx v hS hc p hp).1

theorem skyline_sound_witness : Supported forkFrag forkCtx 0 1 0 :=
  skyline_sound forkFrag forkCtx fork_wellFormed fork_fixpoint 0 (by decide) (1, 0) (by decide)

/-- C6, as stated, fails: the skyline `[1, 1]` is written by `Output` as `.1.1`,
and decoding that string the way `PEval` does throws `std::invalid_argument` on
the empty token before the first dot.  The empty skyline is written as the
empty string, whose single token is empty as well. -/
theorem roundtrip_counterexample :
    Output.encode [1, 1] = ['.', '1', '.', '1'] ∧
    PEval.decode (Output.encode [1, 1]) = .fault .invalidArgument ∧
    PEval.decode (Output.encode [1, 1]) ≠ .ok [1, 1] ∧
    PEval.decode (Output.encode []) = .fault .invalidArgument := by
  decide

/-- C6, amended: for every non-empty skyline of `int` values the string `Output`
writes is a dot followed by a body, and decoding the body (the string without
its leading dot) the way `PEval` does yields the identical sequence. -/
theorem roundtrip_without_leading_dot (S : List Int) (hne : S ≠ [])
    (hr : ∀ x ∈ S, -2147483648 ≤ x ∧ x ≤ 2147483647) :
    ∃ body, Output.encode S = '.' :: body ∧ PEval.decode body = .ok S := by
  obtain ⟨x, rest, rfl⟩ := List.exists_cons_of_ne_nil hne
  refine ⟨['.'].intercalate ((x :: rest).map showInt), Output.encode_cons x rest, ?_⟩
  unfold PEval.decode
  rw [tokens_intercalate _ (by simp)]
  · exact PEval.convert_map_showInt _ hr
  · intro l hl
    obtain ⟨y, -, rfl⟩ := List.mem_map.1 hl
    exact ⟨(showInt_spec y).1, fun hmem => (showInt_spec y).2 _ hmem rfl⟩

theorem roundtrip_without_leading_dot_witness :
    ∃ body, Output.encode [0, 12, 3, 7] = '.' :: body ∧ PEval.decode body = .ok [0, 12, 3, 7] :=
  roundtrip_without_leading_dot [0, 12, 3, 7] (by decide) (by decide)

/-- C7: on the empty skyline `BiSearch` does not return `false`: with `len = 0`
its first statement reads `NeighborSkyline[len*2-2]`, an access outside the
vector. -/
theorem BiSearch_empty_reads_out_of_bounds (k l : Int) :
    BiSearch [] k l = .fault .outOfBounds ∧ vecAt [] ((0 : Int) * 2 - 2) = .fault .outOfBounds := by
  constructor
  · simp [BiSearch, vecAt]
  · decide

/-- C8, as stated, fails: the attribute string `1a` has the single token `1a`,
which is not an integer literal, and is decoded to the skyline `[1]`. -/
theorem decode_counterexample :
    tokens ['1', 'a'] = [['1', 'a']] ∧ isIntegerLiteral ['1', 'a'] = false ∧
    PEval.decode ['1', 'a'] = .ok [1] := by
  decide

/-- C8, amended: decoding of the initial attribute in `PEval` fails, with
`std::invalid_argument` or `std::out_of_range`, for every attribute string in
which at least one token does not start with an integer (white space, an
optional sign, then a decimal digit). -/
theorem decode_fails_without_integer_prefix (tmp : List Char)
    (h : ∃ tok ∈ tokens tmp, hasIntegerPrefix tok = false) :
    ∃ f, PEval.decode tmp = .fault f ∧ (f = .invalidArgument ∨ f = .outOfRange) := by
  obtain ⟨tok, hmem, hp⟩ := h
  obtain ⟨f, hf⟩ := PEval.convert_fault (tokens tmp) tok hmem ⟨_, stoi_invalid tok hp⟩
  exact ⟨f, hf, PEval.convert_fault_kind _ f hf⟩

theorem decode_fails_without_integer_prefix_witness :
    ∃ f, PEval.decode ['1', '.', 'x', '.', '2'] = .fault f ∧
      (f = .invalidArgument ∨ f = .outOfRange) :=
  decode_fails_without_integer_prefix ['1', '.', 'x', '.', '2'] ⟨['x'], by decide, by decide⟩

/-- C9: with `h` the h-index of the coreness values of the in-neighbours of `v`,
`HIndex(v)` returns `true` exactly when `h` is below the coreness of `v`;
afterwards the coreness of `v` is the minimum of its old value and `h`, and the
coreness of every other vertex is unchanged. -/
theorem HIndex_effect (frag : Fragment) (ctx : GetInCorenessContext) (v : Nat) :
    IsHIndex ((frag.incoming v).map ctx.partial_result) (HIndex.h frag ctx v) ∧
    ((HIndex frag ctx v).1 = true ↔ HIndex.h frag ctx v < ctx.partial_result v) ∧
    (HIndex frag ctx v).2.partial_result v
      = min (ctx.partial_result v) (HIndex.h frag ctx v) ∧
    (∀ u, u ≠ v → (HIndex frag ctx v).2.partial_result u = ctx.partial_result u) := by
  refine ⟨HIndex.h_isHIndex frag ctx v, ?_, ?_, ?_⟩
  · rw [HIndex_fst, decide_eq_true_eq]
  · rw [HIndex_partial_result, Function.update_same]
  · intro u hu
    rw [HIndex_partial_result, Function.update_noteq hu]

/-- C10: after one round of `IncEval` (the merge of any batch of inbound
messages followed by the `HIndex` sweep over the inner vertices) the coreness
of every vertex is at most its value before the round. -/
theorem IncEval_nonincreasing (frag : Fragment) (ctx : GetInCorenessContext)
    (messages : List (Nat × Int)) (v : Nat) :
    (IncEval frag ctx messages).1.partial_result v ≤ ctx.partial_result v := by
  unfold GetInCoreness.IncEval
  exact le_trans (GetInCoreness.IncEval.sweep_le frag _ _ v)
    (GetInCoreness.IncEval.merge_le messages ctx v)

/-- C11: on a single fragment, starting from the state of `PEval`: every
coreness stays at least 0, every round of `IncEval` that updates a vertex (sends
a message) lowers the sum of the coreness values, and a round that updates
nothing comes after at most as many updating rounds as the sum of the initial
in-degrees. -/
theorem coreness_terminates (frag : Fragment) (ctx0 : GetInCorenessContext) :
    (∀ ctx, GetInCoreness.Reachable frag ctx →
      ∀ v ∈ frag.innerVertices, 0 ≤ ctx.partial_result v) ∧
    (∀ ctx, GetInCoreness.Reachable frag ctx → (GetInCoreness.IncEval frag ctx []).2 ≠ [] →
      total frag (GetInCoreness.IncEval frag ctx []).1 < total frag ctx) ∧
    ∃ n, n ≤ degreeSum frag ∧
      (GetInCoreness.IncEval frag
        (GetInCoreness.IncEval.rounds frag n (GetInCoreness.PEval frag ctx0).1) []).2 = [] ∧
      ∀ i, i < n →
        (GetInCoreness.IncEval frag
          (GetInCoreness.IncEval.rounds frag i (GetInCoreness.PEval frag ctx0).1) []).2 ≠ [] :=
  ⟨fun _ hr => hr.nonneg, fun ctx _ h => total_lt frag ctx h,
    quiet_within (degreeSum frag) _ (GetInCoreness.Reachable.peval ctx0)
      (le_of_eq (total_PEval frag ctx0))⟩

/-- C12, as stated, fails: on the path 2 → 1 → 0, swept in the order 0, 1, 2, the
maximum in-degree is 1 and two rounds update a vertex (vertex 1 in the first
round, vertex 0 in the second). -/
theorem round_bound_counterexample :
    (∀ v ∈ chainFrag.innerVertices, chainFrag.GetLocalInDegree v ≤ 1) ∧
    (GetInCoreness.IncEval chainFrag (GetInCoreness.PEval chainFrag zeroCtx).1 []).2 = [(1, 0)] ∧
    (GetInCoreness.IncEval chainFrag
      (GetInCoreness.IncEval.rounds chainFrag 1 (GetInCoreness.PEval chainFrag zeroCtx).1)
      []).2 = [(0, 0)] ∧
    GetInCoreness.IncEval.updating chainFrag 3 (GetInCoreness.PEval chainFrag zeroCtx).1 = 2 := by
  decide

/-- C12, amended: on a single fragment, starting from the state of `PEval`, the
number of rounds of `IncEval` in which at least one vertex is updated is at most
the sum of the initial coreness values (the sum of the in-degrees). -/
theorem updating_rounds_bound (frag : Fragment) (ctx0 : GetInCorenessContext) (n : Nat) :
    GetInCoreness.IncEval.updating frag n (GetInCoreness.PEval frag ctx0).1 ≤ degreeSum frag := by
  have h1 := @GetInCoreness.IncEval.updating_le frag n (GetInCoreness.PEval frag ctx0).1
  have h2 := (GetInCoreness.Reachable.rounds n _
    (@GetInCoreness.Reachable.peval frag ctx0)).total_nonneg
  rw [total_PEval] at h1
  omega

/-- C14: on the directed cycle 0 → 1 → 2 → 3 → 0 with every vertex seeded by
`PEval` with the skyline `[(1,1)]`, `NoVerify` returns `false` for every vertex,
and after any number of rounds every committed skyline is `[(1,1)]` and
`NoVerify` still returns `false`. -/
theorem cycle_scenario :
    DcoreOptimized.PEval cycleFrag DCoreOptimizedContext.Init
      = .ok (cycleSeed, cycleFrag.innerVertices.map (fun v => (v, [1, 1]))) ∧
    (∀ v ∈ cycleFrag.innerVertices, cycleSeed.partial_result v = [1, 1]) ∧
    (∀ v ∈ cycleFrag.innerVertices, ∃ c, NoVerify cycleFrag cycleSeed v = .ok (false, c)) ∧
    ∀ n, ∃ ctx, DcoreOptimized.IncEval.rounds cycleFrag n cycleSeed = .ok ctx ∧
      ∀ v ∈ cycleFrag.innerVertices,
        ctx.partial_result v = [1, 1] ∧ ∃ c, NoVerify cycleFrag ctx v = .ok (false, c) := by
  have hq : ∀ v ∈ cycleFrag.innerVertices,
      NoVerify.result cycleFrag cycleSeed v = .ok (cycleSeed.partial_result v) := by decide
  have hc : ∀ v ∈ cycleFrag.innerVertices,
      cycleSeed.cache_result v = cycleSeed.partial_result v := by decide
  have hp : ∀ v ∈ cycleFrag.innerVertices, cycleSeed.partial_result v = [1, 1] := by decide
  refine ⟨rfl, hp, fun v hv => NoVerify_of_result (hq v hv), ?_⟩
  intro n
  obtain ⟨ctx, h, hpr, -⟩ := DcoreOptimized.IncEval.rounds_stable n cycleSeed hc hq
  refine ⟨ctx, h, fun v hv => ⟨by rw [hpr]; exact hp v hv, ?_⟩⟩
  apply NoVerify_of_result
  rw [NoVerify.result_congr cycleFrag hpr v, hpr]
  exact hq v hv

/-- C15, as stated, fails: for the isolated vertex seeded with its degree pair
`(0,0)` the skyline that `NoVerify` computes is `[(0,0)]`, not the empty
sequence, and the vertex keeps this skyline in every round. -/
theorem isolated_counterexample :
    isolatedFrag.incoming 0 = [] ∧ isolatedFrag.outgoing 0 = [] ∧
    NoVerify.result isolatedFrag isolatedCtx 0 = .ok [0, 0] ∧
    NoVerify.result isolatedFrag isolatedCtx 0 ≠ .ok [] := by
  decide

/-- C15, amended: for a vertex `v` without in-edges and without out-edges whose
committed skyline holds at least one pair and has no negative entry and no
entry `INT_MAX`, the skyline that `NoVerify` computes is the single pair
`(0, 0)`; when `NoVerify` returns `false` for `v` the committed skyline of `v`
is `[(0, 0)]`; and when `v` is an inner vertex staged as committed, the
committed skyline of `v` is `[(0, 0)]` after every positive number of rounds,
and `NoVerify` returns `false` for `v` there. -/
theorem isolated_skyline (frag : Fragment) (ctx : DCoreOptimizedContext) (v : Nat)
    (hin : frag.incoming v = []) (hout : frag.outgoing v = [])
    (hv : 2 ≤ (ctx.partial_result v).length) (hnn : ∀ x ∈ ctx.partial_result v, 0 ≤ x)
    (hmax : ∀ x ∈ ctx.partial_result v, x < 2147483647) :
    NoVerify.result frag ctx v = .ok [0, 0] ∧
    (∀ c, NoVerify frag ctx v = .ok (false, c) → ctx.partial_result v = [0, 0]) ∧
    ∀ n ctx2, v ∈ frag.innerVertices → ctx.cache_result v = ctx.partial_result v →
      DcoreOptimized.IncEval.rounds frag (n + 1) ctx = .ok ctx2 →
      ctx2.partial_result v = [0, 0] ∧ ∃ c, NoVerify frag ctx2 v = .ok (false, c) := by
  have h1 : 1 < (ctx.partial_result v).length := by omega
  have h2 : (ctx.partial_result v).length - 2 < (ctx.partial_result v).length := by omega
  have e1 : vecAt (ctx.partial_result v) 1 = .ok ((ctx.partial_result v)[1]) := by
    have := vecAt_natCast (List.getElem?_eq_getElem h1)
    simpa using this
  have e2 : vecAt (ctx.partial_result v) (((ctx.partial_result v).length : Int) - 2)
      = .ok ((ctx.partial_result v)[(ctx.partial_result v).length - 2]) := by
    have := vecAt_natCast (List.getElem?_eq_getElem h2)
    rw [← this]
    congr 1
    omega
  have hres : NoVerify.result frag ctx v = .ok [0, 0] :=
    NoVerify.result_isolated frag ctx v hin hout _ _ e1 e2
      (hnn _ (List.getElem_mem _)) (hnn _ (List.getElem_mem _)) (hmax _ (List.getElem_mem _))
  refine ⟨hres, ?_, ?_⟩
  · intro c hc
    have := NoVerify.result_of_false hc
    rw [hres] at this
    injection this with this
    exact this.symm
  · intro n ctx2 hmem hc hr
    have hp := DcoreOptimized.IncEval.rounds_isolated hmem hin hout n ctx ctx2 hres hc hr
    refine ⟨hp, NoVerify_of_result ?_⟩
    rw [hp]
    exact NoVerify.result_isolated_zero frag ctx2 v hin hout hp

theorem isolated_skyline_witness :
    NoVerify.result isolatedFrag isolatedHigh 0 = .ok [0, 0] ∧
    ∃ ctx2, DcoreOptimized.IncEval.rounds isolatedFrag 1 isolatedHigh = .ok ctx2 ∧
      ctx2.partial_result 0 = [0, 0] ∧ ∃ c, NoVerify isolatedFrag ctx2 0 = .ok (false, c) := by
  have key := isolated_skyline isolatedFrag isolatedHigh 0 (by decide) (by decide) (by decide)
    (by decide) (by decide)
  have hres : ∀ v ∈ isolatedFrag.innerVertices,
      NoVerify.result isolatedFrag isolatedHigh v = .ok [0, 0] := by decide
  obtain ⟨c1, sent, h1⟩ := @DcoreOptimized.IncEval_total isolatedFrag isolatedHigh
    (fun v hv => ⟨_, hres v hv⟩)
  have hr : DcoreOptimized.IncEval.rounds isolatedFrag 1 isolatedHigh = .ok c1 := by
    rw [DcoreOptimized.IncEval.rounds]
    simp only [h1, DcoreOptimized.IncEval.rounds]
  exact ⟨key.1, c1, hr, key.2.2 0 c1 (by decide) rfl hr⟩

/-- C16: a call `NoVerify(v)` leaves every committed skyline unchanged and
writes the staged skyline of `v` only; its result and its return value are the
same in every context with the same committed skylines; and the recomputation
loop over any rearrangement of the vertices ends in the same committed and
staged skylines, with the same messages up to their order. -/
theorem double_buffer (frag : Fragment) (ctx : DCoreOptimizedContext) (v : Nat) :
    (∀ b c, NoVerify frag ctx v = .ok (b, c) →
      c.partial_result = ctx.partial_result ∧
      ∀ u, u ≠ v → c.cache_result u = ctx.cache_result u) ∧
    (∀ ctx', ctx'.partial_result = ctx.partial_result →
      NoVerify.result frag ctx' v = NoVerify.result frag ctx v ∧
      ∀ b c, NoVerify frag ctx v = .ok (b, c) → ∃ c', NoVerify frag ctx' v = .ok (b, c')) ∧
    (∀ vs vs' ctx1 sent, vs.Perm vs' →
      DcoreOptimized.IncEval.recompute frag vs ctx = .ok (ctx1, sent) →
      ∃ ctx2 sent2, DcoreOptimized.IncEval.recompute frag vs' ctx = .ok (ctx2, sent2) ∧
        ctx2.partial_result = ctx1.partial_result ∧
        ctx2.cache_result = ctx1.cache_result ∧ sent2.Perm sent) := by
  have key : ∀ (c0 : DCoreOptimizedContext) b c, NoVerify frag c0 v = .ok (b, c) →
      ∃ R, NoVerify.result frag c0 v = .ok R ∧ b = decide (R ≠ c0.partial_result v) ∧
        c.partial_result = c0.partial_result ∧
        c.cache_result = (if R ≠ c0.partial_result v then
          Function.update c0.cache_result v R else c0.cache_result) := by
    intro c0 b c h
    cases hR : NoVerify.result frag c0 v with
    | fault f => rw [NoVerify_fault hR] at h; cases h
    | ok R =>
      obtain ⟨c', hc', h1, h2⟩ := NoVerify_of_result_eq hR
      rw [hc'] at h
      simp only [Outcome.ok.injEq, Prod.mk.injEq] at h
      obtain ⟨rfl, rfl⟩ := h
      exact ⟨R, rfl, rfl, h1, h2⟩
  refine ⟨?_, ?_, ?_⟩
  · intro b c h
    obtain ⟨R, -, -, h1, h2⟩ := key ctx b c h
    refine ⟨h1, fun u hu => ?_⟩
    rw [h2]
    split
    · exact Function.update_noteq hu _ _
    · rfl
  · intro ctx' hp
    refine ⟨NoVerify.result_congr frag hp v, ?_⟩
    intro b c h
    obtain ⟨R, hR, hb, -, -⟩ := key ctx b c h
    obtain ⟨c', hc', -, -⟩ := NoVerify_of_result_eq
      (show NoVerify.result frag ctx' v = .ok R by rw [NoVerify.result_congr frag hp v]; exact hR)
    exact ⟨c', by rw [hc', hb, hp]⟩
  · intro vs vs' ctx1 sent hperm h
    obtain ⟨h1, h2, h3, h4⟩ := DcoreOptimized.IncEval.recompute_spec frag vs ctx ctx1 sent h
    obtain ⟨ctx2, sent2, h'⟩ := DcoreOptimized.IncEval.recompute_total frag vs' ctx
      (fun w hw => h4 w (hperm.mem_iff.2 hw))
    obtain ⟨g1, g2, g3, -⟩ := DcoreOptimized.IncEval.recompute_spec frag vs' ctx ctx2 sent2 h'
    refine ⟨ctx2, sent2, h', by rw [g1, h1], ?_, ?_⟩
    · rw [g2, h2]
      funext u
      unfold IncEval.staged
      simp only [hperm.mem_iff]
    · rw [g3, h3]
      exact (hperm.filterMap _).symm

theorem double_buffer_witness :
    ∃ ctx1 sent ctx2 sent2,
      DcoreOptimized.IncEval.recompute swapFrag [0, 1] swapCtx = .ok (ctx1, sent) ∧
      DcoreOptimized.IncEval.recompute swapFrag [1, 0] swapCtx = .ok (ctx2, sent2) ∧
      ctx2.partial_result = ctx1.partial_result ∧
      ctx2.cache_result = ctx1.cache_result ∧ sent2.Perm sent := by
  have hres : ∀ v ∈ [0, 1],
      NoVerify.result swapFrag swapCtx v = .ok (swappedCtx.partial_result v) := by decide
  obtain ⟨ctx1, sent, h⟩ := DcoreOptimized.IncEval.recompute_total swapFrag [0, 1] swapCtx
    (fun v hv => ⟨_, hres v hv⟩)
  obtain ⟨ctx2, sent2, h2, a, b, c⟩ := (double_buffer swapFrag swapCtx 0).2.2 [0, 1] [1, 0]
    ctx1 sent (List.Perm.swap 1 0 []) h
  exact ⟨ctx1, sent, ctx2, sent2, h, h2, a, b, c⟩

/-- C17: in every state reached from `PEval` by rounds of `IncEval` whose
messages are addressed to outer vertices only, the staged and the committed
skyline of every inner vertex `v` are equal at the start of a round; after the
round the committed skyline of `v` is the skyline `NoVerify` computes for `v`
from the committed state after the merge; and `NoVerify` returns `true`, and `v`
is broadcast with that skyline, exactly when it differs from the skyline `v`
had committed before. -/
theorem synchronous_commit (frag : Fragment) (ctx : DCoreOptimizedContext)
    (hr : DcoreOptimized.Reachable frag ctx) (messages : List (Nat × List Int))
    (hm : ∀ m ∈ messages, m.1 ∉ frag.innerVertices)
    (ctx1 : DCoreOptimizedContext) (hmerge : DcoreOptimized.IncEval.merge messages ctx = .ok ctx1)
    (ctx2 : DCoreOptimizedContext) (sent : List (Nat × List Int))
    (h : DcoreOptimized.IncEval frag ctx messages = .ok (ctx2, sent))
    (v : Nat) (hv : v ∈ frag.innerVertices) :
    ctx.cache_result v = ctx.partial_result v ∧
    NoVerify.result frag ctx1 v = .ok (ctx2.partial_result v) ∧
    (∃ c, NoVerify frag ctx1 v
      = .ok (decide (ctx2.partial_result v ≠ ctx.partial_result v), c)) ∧
    ((v, ctx2.partial_result v) ∈ sent ↔ ctx2.partial_result v ≠ ctx.partial_result v) := by
  have hst := hr.staged_eq v hv
  obtain ⟨c1, hm1, h1, h2, h3, h4⟩ := IncEval_spec h
  rw [hmerge] at hm1
  injection hm1 with hm1
  subst hm1
  obtain ⟨m1, m2⟩ := DcoreOptimized.IncEval.merge_spec messages ctx ctx1 hmerge
  have hpv : ctx1.partial_result v = ctx.partial_result v :=
    m2 v (fun m hmem e => hm m hmem (e ▸ hv))
  obtain ⟨R, hR⟩ := h4 v hv
  have hnew : ctx2.partial_result v = R := by
    rw [h3 v, if_pos hv]
    unfold IncEval.staged
    simp only [hR]
    by_cases hne : R ≠ ctx1.partial_result v
    · rw [if_pos ⟨hv, hne⟩]
    · rw [if_neg (fun hh => hne hh.2), m1, hst, ← hpv]
      simp only [ne_eq, not_not] at hne
      exact hne.symm
  obtain ⟨c, hc, -, -⟩ := NoVerify_of_result_eq hR
  refine ⟨hst, by rw [hnew]; exact hR, ⟨c, by rw [hc, hnew, hpv]⟩, ?_⟩
  rw [h1, hnew, ← hpv]
  exact IncEval.mem_broadcast frag ctx1 _ v R hR hv

theorem synchronous_commit_witness :
    ∃ ctx2 sent, DcoreOptimized.IncEval cycleFrag cycleSeed [] = .ok (ctx2, sent) ∧
      cycleSeed.cache_result 0 = cycleSeed.partial_result 0 ∧
      NoVerify.result cycleFrag cycleSeed 0 = .ok (ctx2.partial_result 0) ∧
      (∃ c, NoVerify cycleFrag cycleSeed 0
        = .ok (decide (ctx2.partial_result 0 ≠ cycleSeed.partial_result 0), c)) ∧
      ((0, ctx2.partial_result 0) ∈ sent ↔
        ctx2.partial_result 0 ≠ cycleSeed.partial_result 0) := by
  have hres : ∀ v ∈ cycleFrag.innerVertices,
      NoVerify.result cycleFrag cycleSeed v = .ok (cycleSeed.partial_result v) := by decide
  obtain ⟨ctx2, sent, h⟩ := @DcoreOptimized.IncEval_total cycleFrag cycleSeed
    (fun v hv => ⟨_, hres v hv⟩)
  exact ⟨ctx2, sent, h,
    synchronous_commit cycleFrag cycleSeed
      (DcoreOptimized.Reachable.peval cycleSeed _ (rfl : DcoreOptimized.PEval cycleFrag
        DCoreOptimizedContext.Init
          = .ok (cycleSeed, cycleFrag.innerVertices.map (fun v => (v, cycleSeed.partial_result v)))))
      [] (by simp) cycleSeed rfl ctx2 sent h 0 (by decide)⟩

/-- C18: the merge callback does not have the stated semantics for the empty
payload: with the shadow skyline `[1, 1]` and `msg = []` the loop body is never
entered and the shadow skyline stays `[1, 1]`, different from `msg`.  For every
non-empty payload the shadow skyline is the payload afterwards. -/
theorem merge_callback_empty_payload :
    DcoreOptimized.IncEval.callback.loop [] [1, 1] ([] : List Int).length 0 = .ok [1, 1] ∧
    (∃ c, DcoreOptimized.IncEval.callback pendantCtx 0 [] = .ok c ∧
      c.partial_result 0 = [1, 1]) ∧
    ∀ msg shadow : List Int, msg ≠ [] →
      DcoreOptimized.IncEval.callback.loop msg shadow msg.length 0 = .ok msg :=
  ⟨by decide, ⟨_, rfl, by decide⟩, IncEval.callback.loop_nonempty⟩

/-- C19: for a vertex `v` whose committed skyline holds at least one pair and
whose `InMax`, the `k` of its last pair, is below `INT_MAX`, and neighbours whose
skylines hold at least one pair each, `NoVerify` builds a result of even length
with strictly ascending `k` values and strictly descending `l` values; its
pairs are pairwise non-dominated, with at most one `l` per `k`. -/
theorem result_is_skyline (frag : Fragment) (ctx : DCoreOptimizedContext) (v : Nat)
    (hv : 2 ≤ (ctx.partial_result v).length)
    (hin : ∀ u ∈ frag.incoming v, 2 ≤ (ctx.partial_result u).length)
    (hout : ∀ u ∈ frag.outgoing v, 2 ≤ (ctx.partial_result u).length)
    (InMax : Int)
    (hI : vecAt (ctx.partial_result v) (((ctx.partial_result v).length : Int) - 2) = .ok InMax)
    (hmax : InMax < 2147483647) :
    ∃ R, NoVerify.result frag ctx v = .ok R ∧ WellFormed R ∧
      (∀ p ∈ pairs R, ∀ q ∈ pairs R, p.1 ≤ q.1 → p.2 ≤ q.2 → p = q) ∧
      (∀ p ∈ pairs R, ∀ q ∈ pairs R, p.1 = q.1 → p.2 = q.2) := by
  obtain ⟨R, hR, hwf, -⟩ := NoVerify.result_shape frag ctx v hv hin hout
    (fun I hI2 => by rw [hI] at hI2; injection hI2 with hI2; omega)
  refine ⟨R, hR, hwf, fun p hp q hq h1 h2 => hwf.not_dominated hp hq h1 h2, ?_⟩
  intro p hp q hq h1
  rcases le_total p.2 q.2 with h2 | h2
  · rw [hwf.not_dominated hp hq (le_of_eq h1) h2]
  · rw [hwf.not_dominated hq hp (le_of_eq h1.symm) h2]

theorem result_is_skyline_witness :
    ∃ R, NoVerify.result forkFrag forkCtx 0 = .ok R ∧ WellFormed R ∧
      (∀ p ∈ pairs R, ∀ q ∈ pairs R, p.1 ≤ q.1 → p.2 ≤ q.2 → p = q) ∧
      (∀ p ∈ pairs R, ∀ q ∈ pairs R, p.1 = q.1 → p.2 = q.2) :=
  result_is_skyline forkFrag forkCtx 0 (by decide) (by decide) (by decide) 1 (by decide)
    (by decide)

/-- C20: on every vector that holds at least one pair, sorted or not,
`BiSearch` returns (its loop ends and every index it reads is inside the
vector); when the early rejection does not fire, the loop ends with `first`
below the number of pairs. -/
theorem BiSearch_in_bounds (S : List Int) (k l : Int) (h : 2 ≤ S.length) :
    (∃ b, BiSearch S k l = .ok b) ∧
    ∀ last, vecAt S ((Nat.cast (S.length / 2) : Int) * 2 - 2) = .ok last → ¬ last < k →
      ∃ f : Nat, BiSearch.loop S k (S.length / 2) 0 (Nat.cast (S.length / 2) : Int)
          = .ok (f : Int) ∧ f < S.length / 2 := by
  refine ⟨BiSearch_total S k l h, ?_⟩
  intro last hlast hnlt
  obtain ⟨xl, hxl, hread⟩ := BiSearch.read_last S h
  rw [hread] at hlast
  injection hlast with hlast
  subst hlast
  obtain ⟨f, hf, hfn⟩ := BiSearch.loop_in_bounds S k xl hxl (by omega) (S.length / 2) 0
    (S.length / 2) (le_refl _) (by omega) (Or.inr (by omega))
  exact ⟨f, by simpa using hf, hfn⟩

theorem BiSearch_in_bounds_witness :
    (∃ b, BiSearch [5, 1, 2, 7, 1, 0] 3 3 = .ok b) ∧
    ∀ last, vecAt [5, 1, 2, 7, 1, 0]
        ((Nat.cast (([5, 1, 2, 7, 1, 0] : List Int).length / 2) : Int) * 2 - 2) = .ok last →
      ¬ last < 1 →
      ∃ f : Nat, BiSearch.loop [5, 1, 2, 7, 1, 0] 1 (([5, 1, 2, 7, 1, 0] : List Int).length / 2) 0
          (Nat.cast (([5, 1, 2, 7, 1, 0] : List Int).length / 2) : Int) = .ok (f : Int) ∧
        f < ([5, 1, 2, 7, 1, 0] : List Int).length / 2 :=
  ⟨(BiSearch_in_bounds [5, 1, 2, 7, 1, 0] 3 3 (by decide)).1,
   (BiSearch_in_bounds [5, 1, 2, 7, 1, 0] 1 3 (by decide)).2⟩

/-- C13, counterexample. On the two vertices 0 ⇄ 1, seeded with the well-formed
skylines `{(1,1)}` at vertex 0 and `{(0,1), (1,0)}` at vertex 1, which have no
negative entry and are staged as committed, every number of rounds returns, and
in the state it leaves `NoVerify` returns `true` at vertex 0: the rounds
exchange the two skylines for ever, no round is without a change. -/
theorem skyline_oscillation_counterexample :
    (∀ u, swapCtx.partial_result u ≠ [] ∧ WellFormed (swapCtx.partial_result u) ∧
      ∀ x ∈ swapCtx.partial_result u, 0 ≤ x) ∧
    swapCtx.cache_result = swapCtx.partial_result ∧
    ∀ n, ∃ ctx, DcoreOptimized.IncEval.rounds swapFrag n swapCtx = .ok ctx ∧
      ∃ c, NoVerify swapFrag ctx 0 = .ok (true, c) := by
  refine ⟨?_, rfl, ?_⟩
  · intro u
    unfold swapCtx
    simp only
    split_ifs <;> decide
  · intro n
    obtain ⟨ctx, h, hp⟩ := swap_rounds n swapCtx (Or.inl rfl)
    exact ⟨ctx, h, swap_changes ctx hp⟩

/-- C13, amended. The skyline variant terminates from the seeds `PEval` writes:
on every fragment, when the committed skyline of every vertex is one pair
without a negative entry, the `k` of no inner vertex is `INT_MAX`, and the staged
skyline of every inner vertex is the committed one, some number of rounds of
`IncEval` returns a state in which `NoVerify` returns `false` at every inner
vertex. -/
theorem skyline_terminates_from_single_pairs (frag : Fragment) (ctx : DCoreOptimizedContext)
    (hseed : ∀ u, ∃ a b : Int, 0 ≤ a ∧ 0 ≤ b ∧ ctx.partial_result u = [a, b])
    (hmax : ∀ v ∈ frag.innerVertices, ∀ p ∈ pairs (ctx.partial_result v), p.1 < 2147483647)
    (hc : ∀ v ∈ frag.innerVertices, ctx.cache_result v = ctx.partial_result v) :
    ∃ n ctx2, DcoreOptimized.IncEval.rounds frag n ctx = .ok ctx2 ∧
      ∀ v ∈ frag.innerVertices, ∃ c, NoVerify frag ctx2 v = .ok (false, c) := by
  obtain ⟨B, g⟩ := Good.of_single_pairs hseed hmax hc
  obtain ⟨n, ctx2, hr, hq⟩ := Good.rounds_quiet (potential frag B ctx) ctx g (le_refl _)
  exact ⟨n, ctx2, hr, fun v hv => NoVerify_of_result (hq v hv)⟩

theorem skyline_terminates_from_single_pairs_witness :
    (∀ u, ∃ a b : Int, 0 ≤ a ∧ 0 ≤ b ∧ pendantSeed.partial_result u = [a, b]) ∧
    (∃ c, NoVerify pendantFrag pendantSeed 0 = .ok (true, c)) ∧
    ∃ n ctx2, DcoreOptimized.IncEval.rounds pendantFrag n pendantSeed = .ok ctx2 ∧
      ∀ v ∈ pendantFrag.innerVertices, ∃ c, NoVerify pendantFrag ctx2 v = .ok (false, c) := by
  have hseed : ∀ u, ∃ a b : Int, 0 ≤ a ∧ 0 ≤ b ∧ pendantSeed.partial_result u = [a, b] := by
    intro u
    unfold pendantSeed
    simp only
    split_ifs
    · exact ⟨2, 2, by decide, by decide, rfl⟩
    · exact ⟨1, 1, by decide, by decide, rfl⟩
    · exact ⟨1, 1, by decide, by decide, rfl⟩
    · exact ⟨0, 0, by decide, by decide, rfl⟩
  have hchange : ∃ c, NoVerify pendantFrag pendantSeed 0 = .ok (true, c) := by
    have hR : NoVerify.result pendantFrag pendantSeed 0 = .ok [1, 1] := by decide
    obtain ⟨c, hc, -, -⟩ := NoVerify_of_result_eq hR
    rw [decide_eq_true (by decide)] at hc
    exact ⟨c, hc⟩
  exact ⟨hseed, hchange,
    skyline_terminates_from_single_pairs pendantFrag pendantSeed hseed (by decide)
      (fun _ _ => rfl)⟩

end Grape
